import Mathlib

/-!
# Field vectors of `lab7_fields.cpp`

A shallow embedding of the two classes `Electric_Field` and `Magnetic_Field`.

* `Double` is the C++ type `double`, taken to be IEEE 754 binary64 with the default
  rounding (to nearest, ties to even).  A value is its three bit fields, so every
  value of the type is one of the 2^64 bit patterns.  Every operation of the source
  (`*`, `+`, `/`, `std::sqrt`, `==`) is rounded to double on its own: no extended
  precision and no fused multiply-add.  Which NaN an operation returns is not
  observed by any statement below.
* `Store` is the memory the classes work on: the free store that `new double[3]`
  allocates from, and the table of live objects, each holding its pointer member
  (`E` resp. `B`).  Objects are named by their address, which is what `this` and
  `&other` compare in `operator=`.  Allocation never fails and objects are not
  destroyed: the destructors and `print` take no part in the statements below.
-/

/-- The C++ type double, as its IEEE 754 binary64 bit fields. -/
structure Double where
  sign : Bool
  expo : Fin 2048
  frac : Fin 4503599627370496
deriving DecidableEq, Repr

namespace Double

/-- A NaN: all exponent bits set, fraction not zero. -/
def isNaN (x : Double) : Bool := x.expo.val == 2047 && x.frac.val != 0

/-- An infinity: all exponent bits set, fraction zero. -/
def isInf (x : Double) : Bool := x.expo.val == 2047 && x.frac.val == 0

/-- A zero of either sign. -/
def isZero (x : Double) : Bool := x.expo.val == 0 && x.frac.val == 0

/-- Neither NaN nor infinite. -/
def isFinite (x : Double) : Bool := x.expo.val != 2047

/-- The integer significand: the fraction, with the hidden bit for a normal number. -/
def mant (x : Double) : Nat :=
  if x.expo.val = 0 then x.frac.val else 4503599627370496 + x.frac.val

/-- The exponent of the last place, counted from 2^-1074. -/
def shift (x : Double) : Nat := x.expo.val - 1

/-- The absolute value of a finite double in units of 2^-1074. -/
def num (x : Double) : Nat := x.mant * 2 ^ x.shift

/-- The zero with the given sign; the literal 0.0 is the one with sign false. -/
def zero (s : Bool) : Double := ⟨s, 0, 0⟩

/-- The infinity with the given sign. -/
def inf (s : Bool) : Double := ⟨s, 2047, 0⟩

/-- The quiet NaN that arithmetic produces. -/
def nan : Double := ⟨false, 2047, 2251799813685248⟩

/-- The rational value of a finite double. -/
def toRat (x : Double) : ℚ :=
  (if x.sign then -1 else 1) * (x.num : ℚ) / 2 ^ 1074

/-- The double with sign s, last-place exponent t (counted from 2^-1074) and integer
significand q at most 2^53; the binary64 encoding is monotone, so the bit pattern of
the magnitude is t * 2^52 + q, and a pattern beyond the largest finite one is an
overflow to infinity. -/
def pack (s : Bool) (t q : Nat) : Double :=
  if h : t * 4503599627370496 + q < 2047 * 4503599627370496 then
    ⟨s, ⟨(t * 4503599627370496 + q) / 4503599627370496, by omega⟩,
      ⟨(t * 4503599627370496 + q) % 4503599627370496, by omega⟩⟩
  else inf s

/-- Binary logarithm with fuel k: the number of halvings that bring n below 2. -/
def log2Aux : Nat → Nat → Nat
  | 0, _ => 0
  | k + 1, n => if n < 2 then 0 else log2Aux k (n / 2) + 1

/-- The position of the leading bit of n: floor (log2 n), and 0 for n = 0. -/
def ilog2 (n : Nat) : Nat := log2Aux n n

/-- The last-place exponent (counted from 2^-1074) of the binade of the positive
rational n / d: zero in the subnormal range, else floor (log2 (n / d)) + 1022. -/
def ulpExp (n d : Nat) : Nat :=
  if n * 2 ^ 1022 < d then 0
  else if d * 2 ^ (ilog2 (n * 2 ^ 1022) - ilog2 d) ≤ n * 2 ^ 1022 then
    ilog2 (n * 2 ^ 1022) - ilog2 d
  else ilog2 (n * 2 ^ 1022) - ilog2 d - 1

/-- The integer nearest to n / d, the even one of the two on a tie. -/
def nearest (n d : Nat) : Nat :=
  if d < 2 * (n % d) ∨ (d = 2 * (n % d) ∧ n / d % 2 = 1) then n / d + 1 else n / d

/-- Rounding to nearest, ties to even, of the rational n / d (d positive) with sign s:
the quotient is taken in units of the last place 2^(t - 1074) of its binade. -/
def round (s : Bool) (n d : Nat) : Double :=
  pack s (ulpExp n d) (nearest (n * 2 ^ 1074) (d * 2 ^ ulpExp n d))

/-- The operator `*` on double. -/
def mul (x y : Double) : Double :=
  if x.isNaN || y.isNaN then nan
  else if x.isInf then (if y.isZero then nan else inf (x.sign != y.sign))
  else if y.isInf then (if x.isZero then nan else inf (x.sign != y.sign))
  else round (x.sign != y.sign) (x.num * y.num) (2 ^ 2148)

/-- The operator `+` on double. -/
def add (x y : Double) : Double :=
  if x.isNaN || y.isNaN then nan
  else if x.isInf then (if y.isInf && (x.sign != y.sign) then nan else x)
  else if y.isInf then y
  else if x.sign = y.sign then round x.sign (x.num + y.num) (2 ^ 1074)
  else if x.num = y.num then zero false
  else if y.num < x.num then round x.sign (x.num - y.num) (2 ^ 1074)
  else round y.sign (y.num - x.num) (2 ^ 1074)

/-- The operator `/` on double. -/
def div (x y : Double) : Double :=
  if x.isNaN || y.isNaN then nan
  else if x.isInf then (if y.isInf then nan else inf (x.sign != y.sign))
  else if y.isInf then zero (x.sign != y.sign)
  else if y.isZero then (if x.isZero then nan else inf (x.sign != y.sign))
  else round (x.sign != y.sign) x.num y.num

/-- Integer square root, one bit at a time from bit k - 1 down. -/
def isqrtAux (n : Nat) : Nat → Nat → Nat
  | 0, r => r
  | k + 1, r => isqrtAux n k (if (r + 2 ^ k) * (r + 2 ^ k) ≤ n then r + 2 ^ k else r)

/-- Integer square root: the largest r with r * r at most n. -/
def isqrt (n : Nat) : Nat := isqrtAux n (ilog2 n / 2 + 1) 0

/-- The integer nearest to the square root of v; a tie cannot occur. -/
def sqrtNearest (v : Nat) : Nat :=
  if isqrt v < v - isqrt v * isqrt v then isqrt v + 1 else isqrt v

/-- Half the binary exponent of a positive finite double, counted from 2^-1074. -/
def halfExp (x : Double) : Nat := (ilog2 x.mant + x.shift) / 2

/-- The function `std::sqrt` on double (correctly rounded, as IEEE 754 requires).  For
a positive finite x the significand is scaled to 105 or 106 bits, so that the root has
53 bits, and the last place of the result is 2^(halfExp x + 485 - 1074). -/
def sqrt (x : Double) : Double :=
  if x.isNaN then nan
  else if x.isZero then x
  else if x.sign then nan
  else if x.isInf then x
  else
    pack false (x.halfExp + 485)
      (sqrtNearest (x.mant * 2 ^ (x.shift + 104 - 2 * x.halfExp)))

/-- The operator `==` on double: false on a NaN, and the two zeros are equal. -/
def eq (x y : Double) : Bool :=
  !x.isNaN && !y.isNaN && ((x.isZero && y.isZero) || x == y)

/-- The operator `<=` on double: false on a NaN, else the order of the values. -/
def le (x y : Double) : Bool :=
  !x.isNaN && !y.isNaN &&
    (if x.sign then
      (if y.sign then decide (y.expo.val * 4503599627370496 + y.frac.val
          ≤ x.expo.val * 4503599627370496 + x.frac.val) else true)
    else
      (if y.sign then x.isZero && y.isZero
        else decide (x.expo.val * 4503599627370496 + x.frac.val
          ≤ y.expo.val * 4503599627370496 + y.frac.val)))

/-- A decimal literal n / d of the source, converted to the nearest double. -/
def lit (n d : Nat) : Double := round false n d

/-- The expression v[0]*v[0] + v[1]*v[1] + v[2]*v[2] that innerProduct returns and
calculateMagnitude takes the root of. -/
def sumsq (x y z : Double) : Double := add (add (mul x x) (mul y y)) (mul z z)

/-- The value of calculateMagnitude on the components x, y, z. -/
def norm3 (x y z : Double) : Double := sqrt (sumsq x y z)

/-- Not a NaN and sign bit clear: +0, a positive finite number or +infinity. -/
def nonneg (x : Double) : Bool := !x.isNaN && !x.sign

/-- The double a is the square of the double m within floating-point tolerance: both
are +infinity, or both are finite and the exact square of m differs from a by at most
2^-51 of a, which is two units in the last place. -/
def isSquareOf (a m : Double) : Prop :=
  (a = inf false ∧ m = inf false) ∨
  (a.isFinite = true ∧ m.isFinite = true ∧ |m.toRat ^ 2 - a.toRat| ≤ |a.toRat| / 2 ^ 51)

instance (a m : Double) : Decidable (isSquareOf a m) := by
  unfold isSquareOf; infer_instance

/-- The double u, multiplied by m, gives back c up to the rounding of the division
c / m: u is finite, has the sign of c, and the exact product u * m differs from c by at
most 2^-53 of c, or by 2^-1075 of m where the quotient is subnormal. -/
def scalesTo (u m c : Double) : Prop :=
  u.isFinite = true ∧ u.sign = c.sign ∧
    |u.toRat * m.toRat - c.toRat| ≤ max (m.toRat / 2 ^ 1075) (|c.toRat| / 2 ^ 53)

instance (u m c : Double) : Decidable (scalesTo u m c) := by
  unfold scalesTo; infer_instance

/-- A finite double of absolute value below 2^-537 (about 2.2e-162): its square is less
than the smallest positive double 2^-1074. -/
def isTiny (c : Double) : Prop := c.isFinite = true ∧ |c.toRat| < 1 / 2 ^ 537

instance (c : Double) : Decidable (isTiny c) := by
  unfold isTiny; infer_instance

/-- The finite double d is within e of the decimal value r: with e half a unit of some
decimal place, d is printed as r when rounded to that place. -/
def within (d : Double) (r e : ℚ) : Prop := d.isFinite = true ∧ |d.toRat - r| ≤ e

instance (d : Double) (r e : ℚ) : Decidable (within d r e) := by
  unfold within; infer_instance

end Double

/-- The memory the two classes work on.  `heap` is the free store, one cell per
double; `objs` holds, for every object constructed so far and indexed by the
address of the object, the value of its pointer member (`E` or `B`). -/
structure Store where
  objs : List Nat
  heap : List Double
deriving DecidableEq, Repr

namespace Store

/-- The memory before any object is constructed. -/
def empty : Store := ⟨[], []⟩

/-- The value of the cell at address a. -/
def read (s : Store) (a : Nat) : Double := s.heap.getD a Double.nan

/-- The assignment to the cell at address a. -/
def write (s : Store) (a : Nat) (v : Double) : Store :=
  { s with heap := s.heap.set a v }

/-- The expression `new double[3]{a, b, c}`: three fresh cells at the end of the
free store, and the pointer to the first.  For `new double[3]` without initialiser
the three values are indeterminate; the copy constructor passes NaN for them. -/
def alloc3 (s : Store) (a b c : Double) : Nat × Store :=
  (s.heap.length, { s with heap := s.heap ++ [a, b, c] })

/-- The pointer member of the object at address o. -/
def ptr (s : Store) (o : Nat) : Nat := s.objs.getD o 0

/-- A new object whose pointer member is initialised to p; returns its address. -/
def place (s : Store) (p : Nat) : Nat × Store :=
  (s.objs.length, { s with objs := s.objs ++ [p] })

/-- The object at address o has been constructed. -/
def live (s : Store) (o : Nat) : Prop := o < s.objs.length

/-- The class invariant of both classes over the whole memory: every object owns
three allocated cells, and no two objects share a cell. -/
def wf (s : Store) : Prop :=
  (∀ a, a < s.objs.length → s.ptr a + 3 ≤ s.heap.length) ∧
  (∀ a, a < s.objs.length → ∀ b, b < s.objs.length → a ≠ b →
    s.ptr a + 3 ≤ s.ptr b ∨ s.ptr b + 3 ≤ s.ptr a)

instance (s : Store) (o : Nat) : Decidable (s.live o) := by
  unfold live; infer_instance

instance (s : Store) : Decidable s.wf := by
  unfold wf; infer_instance

end Store

/-- An object of class Electric_Field, named by its address. -/
structure Electric_Field where
  addr : Nat
deriving DecidableEq, Repr

/-- An object of class Magnetic_Field, named by its address. -/
structure Magnetic_Field where
  addr : Nat
deriving DecidableEq, Repr

namespace Electric_Field

/-- The private member `double* E`. -/
def E (this : Electric_Field) (s : Store) : Nat := s.ptr this.addr

/-- The default constructor `Electric_Field()`. -/
def ctor (s : Store) : Electric_Field × Store :=
  let a := s.alloc3 (Double.zero false) (Double.zero false) (Double.zero false)
  let o := a.2.place a.1
  (⟨o.1⟩, o.2)

/-- The component constructor `Electric_Field(double Ex, double Ey, double Ez)`. -/
def ctor3 (Ex Ey Ez : Double) (s : Store) : Electric_Field × Store :=
  let a := s.alloc3 Ex Ey Ez
  let o := a.2.place a.1
  (⟨o.1⟩, o.2)

/-- The copy constructor `Electric_Field(const Electric_Field& other)`. -/
def copy (other : Electric_Field) (s : Store) : Electric_Field × Store :=
  let a := s.alloc3 Double.nan Double.nan Double.nan
  let o := a.2.place a.1
  let this : Electric_Field := ⟨o.1⟩
  let s0 := o.2
  let s1 := s0.write (this.E s0 + 0) (s0.read (other.E s0 + 0))
  let s2 := s1.write (this.E s1 + 1) (s1.read (other.E s1 + 1))
  let s3 := s2.write (this.E s2 + 2) (s2.read (other.E s2 + 2))
  (this, s3)

/-- The assignment `operator=`; the returned reference is `this` itself. -/
def assign (this other : Electric_Field) (s : Store) : Store :=
  if this.addr ≠ other.addr then
    let s1 := s.write (this.E s + 0) (s.read (other.E s + 0))
    let s2 := s1.write (this.E s1 + 1) (s1.read (other.E s1 + 1))
    s2.write (this.E s2 + 2) (s2.read (other.E s2 + 2))
  else s

/-- The getter of E[0]. -/
def getX (this : Electric_Field) (s : Store) : Double := s.read (this.E s + 0)

/-- The getter of E[1]. -/
def getY (this : Electric_Field) (s : Store) : Double := s.read (this.E s + 1)

/-- The getter of E[2]. -/
def getZ (this : Electric_Field) (s : Store) : Double := s.read (this.E s + 2)

/-- The setter of E[0]. -/
def setX (this : Electric_Field) (v : Double) (s : Store) : Store := s.write (this.E s + 0) v

/-- The setter of E[1]. -/
def setY (this : Electric_Field) (v : Double) (s : Store) : Store := s.write (this.E s + 1) v

/-- The setter of E[2]. -/
def setZ (this : Electric_Field) (v : Double) (s : Store) : Store := s.write (this.E s + 2) v

/-- The member `set(Ex, Ey, Ez)`: three assignments in order. -/
def set (this : Electric_Field) (Ex Ey Ez : Double) (s : Store) : Store :=
  let s1 := s.write (this.E s + 0) Ex
  let s2 := s1.write (this.E s1 + 1) Ey
  s2.write (this.E s2 + 2) Ez

/-- The member `calculateMagnitude`: sqrt (E[0]*E[0] + E[1]*E[1] + E[2]*E[2]), every
operation rounded to double, the sum associated to the left. -/
def calculateMagnitude (this : Electric_Field) (s : Store) : Double :=
  Double.sqrt
    (Double.add
      (Double.add (Double.mul (s.read (this.E s + 0)) (s.read (this.E s + 0)))
        (Double.mul (s.read (this.E s + 1)) (s.read (this.E s + 1))))
      (Double.mul (s.read (this.E s + 2)) (s.read (this.E s + 2))))

/-- The member `innerProduct`: E[0]*E[0] + E[1]*E[1] + E[2]*E[2]. -/
def innerProduct (this : Electric_Field) (s : Store) : Double :=
  Double.add
    (Double.add (Double.mul (s.read (this.E s + 0)) (s.read (this.E s + 0)))
      (Double.mul (s.read (this.E s + 1)) (s.read (this.E s + 1))))
    (Double.mul (s.read (this.E s + 2)) (s.read (this.E s + 2)))

/-- The three components read through the getters. -/
def components (this : Electric_Field) (s : Store) : Double × Double × Double :=
  (this.getX s, this.getY s, this.getZ s)

end Electric_Field

namespace Magnetic_Field

/-- The private member `double* B`. -/
def B (this : Magnetic_Field) (s : Store) : Nat := s.ptr this.addr

/-- The default constructor `Magnetic_Field()`. -/
def ctor (s : Store) : Magnetic_Field × Store :=
  let a := s.alloc3 (Double.zero false) (Double.zero false) (Double.zero false)
  let o := a.2.place a.1
  (⟨o.1⟩, o.2)

/-- The component constructor `Magnetic_Field(double Bx, double By, double Bz)`. -/
def ctor3 (Bx By Bz : Double) (s : Store) : Magnetic_Field × Store :=
  let a := s.alloc3 Bx By Bz
  let o := a.2.place a.1
  (⟨o.1⟩, o.2)

/-- The copy constructor `Magnetic_Field(const Magnetic_Field& other)`. -/
def copy (other : Magnetic_Field) (s : Store) : Magnetic_Field × Store :=
  let a := s.alloc3 Double.nan Double.nan Double.nan
  let o := a.2.place a.1
  let this : Magnetic_Field := ⟨o.1⟩
  let s0 := o.2
  let s1 := s0.write (this.B s0 + 0) (s0.read (other.B s0 + 0))
  let s2 := s1.write (this.B s1 + 1) (s1.read (other.B s1 + 1))
  let s3 := s2.write (this.B s2 + 2) (s2.read (other.B s2 + 2))
  (this, s3)

/-- The assignment `operator=`; the returned reference is `this` itself. -/
def assign (this other : Magnetic_Field) (s : Store) : Store :=
  if this.addr ≠ other.addr then
    let s1 := s.write (this.B s + 0) (s.read (other.B s + 0))
    let s2 := s1.write (this.B s1 + 1) (s1.read (other.B s1 + 1))
    s2.write (this.B s2 + 2) (s2.read (other.B s2 + 2))
  else s

/-- The getter of B[0]. -/
def getX (this : Magnetic_Field) (s : Store) : Double := s.read (this.B s + 0)

/-- The getter of B[1]. -/
def getY (this : Magnetic_Field) (s : Store) : Double := s.read (this.B s + 1)

/-- The getter of B[2]. -/
def getZ (this : Magnetic_Field) (s : Store) : Double := s.read (this.B s + 2)

/-- The setter of B[0]. -/
def setX (this : Magnetic_Field) (v : Double) (s : Store) : Store := s.write (this.B s + 0) v

/-- The setter of B[1]. -/
def setY (this : Magnetic_Field) (v : Double) (s : Store) : Store := s.write (this.B s + 1) v

/-- The setter of B[2]. -/
def setZ (this : Magnetic_Field) (v : Double) (s : Store) : Store := s.write (this.B s + 2) v

/-- The member `set(Bx, By, Bz)`: three assignments in order. -/
def set (this : Magnetic_Field) (Bx By Bz : Double) (s : Store) : Store :=
  let s1 := s.write (this.B s + 0) Bx
  let s2 := s1.write (this.B s1 + 1) By
  s2.write (this.B s2 + 2) Bz

/-- The member `calculateMagnitude`: sqrt (B[0]*B[0] + B[1]*B[1] + B[2]*B[2]), every
operation rounded to double, the sum associated to the left. -/
def calculateMagnitude (this : Magnetic_Field) (s : Store) : Double :=
  Double.sqrt
    (Double.add
      (Double.add (Double.mul (s.read (this.B s + 0)) (s.read (this.B s + 0)))
        (Double.mul (s.read (this.B s + 1)) (s.read (this.B s + 1))))
      (Double.mul (s.read (this.B s + 2)) (s.read (this.B s + 2))))

/-- The member `unitVector(ux, uy, uz)`: the returned bool, then the values left in
the three reference parameters.  The parameters refer to doubles of the caller, which
cannot be cells of the private array. -/
def unitVector (this : Magnetic_Field) (s : Store) : Bool × Double × Double × Double :=
  let mag := this.calculateMagnitude s
  if Double.eq mag (Double.zero false) then
    (false, Double.zero false, Double.zero false, Double.zero false)
  else
    (true, Double.div (s.read (this.B s + 0)) mag, Double.div (s.read (this.B s + 1)) mag,
      Double.div (s.read (this.B s + 2)) mag)

/-- The three components read through the getters. -/
def components (this : Magnetic_Field) (s : Store) : Double × Double × Double :=
  (this.getX s, this.getY s, this.getZ s)

end Magnetic_Field

/-- The memory of `main` once its six objects are set up, in the order of the source:
E_default, E_components(1e5, 10.9, 1.7e2), E_set with setX(3.0), setY(4.0), setZ(12.0),
B_default, B_components(0.3, -1.2, 2.4) and B_set with set(5.0, 0.0, 0.0); they are the
objects at addresses 0 to 5.  The literal -1.2 is the negation of the literal 1.2. -/
def mainStore : Store :=
  let s1 := (Electric_Field.ctor Store.empty).2
  let s2 := (Electric_Field.ctor3 (Double.lit 100000 1) (Double.lit 109 10)
    (Double.lit 170 1) s1).2
  let s3 := (Electric_Field.ctor s2).2
  let s4 := (⟨2⟩ : Electric_Field).setX (Double.lit 3 1) s3
  let s5 := (⟨2⟩ : Electric_Field).setY (Double.lit 4 1) s4
  let s6 := (⟨2⟩ : Electric_Field).setZ (Double.lit 12 1) s5
  let s7 := (Magnetic_Field.ctor s6).2
  let s8 := (Magnetic_Field.ctor3 (Double.lit 3 10) (Double.round true 12 10)
    (Double.lit 24 10) s7).2
  let s9 := (Magnetic_Field.ctor s8).2
  (⟨5⟩ : Magnetic_Field).set (Double.lit 5 1) (Double.zero false) (Double.zero false) s9

/-! ## Memory lemmas -/

namespace Store

theorem read_write (s : Store) (a b : Nat) (v : Double) :
    (s.write a v).read b = if a = b ∧ a < s.heap.length then v else s.read b := by
  unfold read write
  simp only [List.getD_eq_getElem?_getD, List.getElem?_set]
  by_cases h : a = b
  · subst h
    by_cases h2 : a < s.heap.length
    · simp [h2]
    · have h3 : s.heap.length ≤ a := by omega
      simp [h2, List.getElem?_eq_none h3]
  · simp [h]

theorem ptr_write (s : Store) (a o : Nat) (v : Double) : (s.write a v).ptr o = s.ptr o := rfl

theorem objs_write (s : Store) (a : Nat) (v : Double) : (s.write a v).objs = s.objs := rfl

theorem heap_length_write (s : Store) (a : Nat) (v : Double) :
    (s.write a v).heap.length = s.heap.length := by
  simp [write]

theorem read_write_same (s : Store) (a : Nat) (v : Double) (h : a < s.heap.length) :
    (s.write a v).read a = v := by
  rw [read_write]; simp [h]

theorem read_write_other (s : Store) (a b : Nat) (v : Double) (h : a ≠ b) :
    (s.write a v).read b = s.read b := by
  rw [read_write]; simp [h]

end Store

theorem Store.getD_append_three (l : List Double) (a b c : Double) :
    (l ++ [a, b, c]).getD (l.length + 0) Double.nan = a ∧
    (l ++ [a, b, c]).getD (l.length + 1) Double.nan = b ∧
    (l ++ [a, b, c]).getD (l.length + 2) Double.nan = c := by
  have h0 : (l ++ [a, b, c])[l.length + 0]? = some a := by
    rw [List.getElem?_append_right (by omega)]; simp
  have h1 : (l ++ [a, b, c])[l.length + 1]? = some b := by
    rw [List.getElem?_append_right (by omega)]; simp
  have h2 : (l ++ [a, b, c])[l.length + 2]? = some c := by
    rw [List.getElem?_append_right (by omega)]; simp
  simp only [List.getD_eq_getElem?_getD, h0, h1, h2, Option.getD_some, and_self]

theorem Store.getD_append_self (l : List Nat) (p : Nat) :
    (l ++ [p]).getD l.length 0 = p := by
  have h0 : (l ++ [p])[l.length]? = some p := by
    rw [List.getElem?_append_right (by omega)]; simp
  simp only [List.getD_eq_getElem?_getD, h0, Option.getD_some]

/-- What the getters read from a vector built with a three-component constructor. -/
theorem Store.ctor3_reads (x y z : Double) (s : Store) :
    ((Electric_Field.ctor3 x y z s).1.getX (Electric_Field.ctor3 x y z s).2 = x ∧
      (Electric_Field.ctor3 x y z s).1.getY (Electric_Field.ctor3 x y z s).2 = y ∧
      (Electric_Field.ctor3 x y z s).1.getZ (Electric_Field.ctor3 x y z s).2 = z) ∧
    ((Magnetic_Field.ctor3 x y z s).1.getX (Magnetic_Field.ctor3 x y z s).2 = x ∧
      (Magnetic_Field.ctor3 x y z s).1.getY (Magnetic_Field.ctor3 x y z s).2 = y ∧
      (Magnetic_Field.ctor3 x y z s).1.getZ (Magnetic_Field.ctor3 x y z s).2 = z) := by
  have h := Store.getD_append_three s.heap x y z
  have hp := Store.getD_append_self s.objs s.heap.length
  simp only [Electric_Field.ctor3, Magnetic_Field.ctor3, Electric_Field.getX,
    Electric_Field.getY, Electric_Field.getZ, Magnetic_Field.getX, Magnetic_Field.getY,
    Magnetic_Field.getZ, Electric_Field.E, Magnetic_Field.B, Store.alloc3, Store.place,
    Store.ptr, Store.read, hp]
  exact ⟨h, h⟩

/-- C6: a vector built with the three-component constructor of either class returns
exactly the three arguments from getX, getY and getZ, whatever the doubles are and
whatever the memory held before. -/
theorem ctor3_getters (x y z : Double) (s : Store) :
    ((Electric_Field.ctor3 x y z s).1.getX (Electric_Field.ctor3 x y z s).2 = x ∧
      (Electric_Field.ctor3 x y z s).1.getY (Electric_Field.ctor3 x y z s).2 = y ∧
      (Electric_Field.ctor3 x y z s).1.getZ (Electric_Field.ctor3 x y z s).2 = z) ∧
    ((Magnetic_Field.ctor3 x y z s).1.getX (Magnetic_Field.ctor3 x y z s).2 = x ∧
      (Magnetic_Field.ctor3 x y z s).1.getY (Magnetic_Field.ctor3 x y z s).2 = y ∧
      (Magnetic_Field.ctor3 x y z s).1.getZ (Magnetic_Field.ctor3 x y z s).2 = z) := by
  have h := Store.getD_append_three s.heap x y z
  have hp := Store.getD_append_self s.objs s.heap.length
  simp only [Electric_Field.ctor3, Magnetic_Field.ctor3, Electric_Field.getX,
    Electric_Field.getY, Electric_Field.getZ, Magnetic_Field.getX, Magnetic_Field.getY,
    Magnetic_Field.getZ, Electric_Field.E, Magnetic_Field.B, Store.alloc3, Store.place,
    Store.ptr, Store.read, hp]
  exact ⟨h, h⟩

/-- C10: on a live object of either class, setX(v) makes getX return v and leaves getY
and getZ as they were; setY changes only the y component and setZ only the z component. -/
theorem setters_frame (s : Store) (e : Electric_Field) (b : Magnetic_Field) (v : Double)
    (hs : s.wf) (he : s.live e.addr) (hb : s.live b.addr) :
    (e.getX (e.setX v s) = v ∧ e.getY (e.setX v s) = e.getY s ∧ e.getZ (e.setX v s) = e.getZ s) ∧
    (e.getX (e.setY v s) = e.getX s ∧ e.getY (e.setY v s) = v ∧ e.getZ (e.setY v s) = e.getZ s) ∧
    (e.getX (e.setZ v s) = e.getX s ∧ e.getY (e.setZ v s) = e.getY s ∧ e.getZ (e.setZ v s) = v) ∧
    (b.getX (b.setX v s) = v ∧ b.getY (b.setX v s) = b.getY s ∧ b.getZ (b.setX v s) = b.getZ s) ∧
    (b.getX (b.setY v s) = b.getX s ∧ b.getY (b.setY v s) = v ∧ b.getZ (b.setY v s) = b.getZ s) ∧
    (b.getX (b.setZ v s) = b.getX s ∧ b.getY (b.setZ v s) = b.getY s ∧ b.getZ (b.setZ v s) = v) := by
  have h1 := hs.1 e.addr he
  have h2 := hs.1 b.addr hb
  simp only [Electric_Field.getX, Electric_Field.getY, Electric_Field.getZ,
    Electric_Field.setX, Electric_Field.setY, Electric_Field.setZ, Electric_Field.E,
    Magnetic_Field.getX, Magnetic_Field.getY, Magnetic_Field.getZ,
    Magnetic_Field.setX, Magnetic_Field.setY, Magnetic_Field.setZ, Magnetic_Field.B,
    Store.read_write, Store.ptr_write]
  refine ⟨⟨?_, ?_, ?_⟩, ⟨?_, ?_, ?_⟩, ⟨?_, ?_, ?_⟩, ⟨?_, ?_, ?_⟩, ⟨?_, ?_, ?_⟩, ⟨?_, ?_, ?_⟩⟩ <;>
    (split_ifs with h <;> first | rfl | omega | (simp at h; omega))

/-- C10, at a concrete memory: an electric field (1, 2, 3) and a magnetic field (0, 0, 0),
each set to 4 in one component. -/
theorem setters_frame_witness :
    (Magnetic_Field.ctor (Electric_Field.ctor3 (Double.lit 1 1) (Double.lit 2 1)
        (Double.lit 3 1) Store.empty).2).2.wf ∧
    (⟨1⟩ : Magnetic_Field).getX ((⟨1⟩ : Magnetic_Field).setZ (Double.lit 4 1)
      (Magnetic_Field.ctor (Electric_Field.ctor3 (Double.lit 1 1) (Double.lit 2 1)
        (Double.lit 3 1) Store.empty).2).2) = Double.zero false :=
  ⟨by decide!, by
    rw [(setters_frame (Magnetic_Field.ctor (Electric_Field.ctor3 (Double.lit 1 1)
      (Double.lit 2 1) (Double.lit 3 1) Store.empty).2).2 ⟨0⟩ ⟨1⟩ (Double.lit 4 1)
      (by decide!) (by decide!) (by decide!)).2.2.2.2.2.1]
    decide!⟩

/-! ## Copy construction and assignment -/

theorem Store.set_append_three (l : List Double) (x y z a b c : Double) :
    (((l ++ [x, y, z]).set (l.length + 0) a).set (l.length + 1) b).set (l.length + 2) c
      = l ++ [a, b, c] := by
  rw [List.set_append_right _ _ (by omega)]
  rw [List.set_append_right _ _ (by omega)]
  rw [List.set_append_right _ _ (by omega)]
  simp

theorem Store.getD_append_left (l : List Double) (m : List Double) (i : Nat)
    (h : i < l.length) : (l ++ m).getD i Double.nan = l.getD i Double.nan := by
  simp only [List.getD_eq_getElem?_getD, List.getElem?_append_left h]

theorem Store.getD_objs_append_left (l : List Nat) (m : List Nat) (i : Nat)
    (h : i < l.length) : (l ++ m).getD i 0 = l.getD i 0 := by
  simp only [List.getD_eq_getElem?_getD, List.getElem?_append_left h]

theorem Store.getD_set_high (l : List Double) (j i : Nat) (x : Double)
    (h : i < j) : (l.set j x).getD i Double.nan = l.getD i Double.nan := by
  simp only [List.getD_eq_getElem?_getD]
  rw [List.getElem?_set_ne (by omega)]

theorem Store.copy_heap (l : List Double) (p : Nat) (hp : p + 3 ≤ l.length) :
    (((l ++ [Double.nan, Double.nan, Double.nan]).set (l.length + 0)
        ((l ++ [Double.nan, Double.nan, Double.nan]).getD (p + 0) Double.nan)).set
        (l.length + 1)
        (((l ++ [Double.nan, Double.nan, Double.nan]).set (l.length + 0)
          ((l ++ [Double.nan, Double.nan, Double.nan]).getD (p + 0) Double.nan)).getD
          (p + 1) Double.nan)).set
      (l.length + 2)
      ((((l ++ [Double.nan, Double.nan, Double.nan]).set (l.length + 0)
          ((l ++ [Double.nan, Double.nan, Double.nan]).getD (p + 0) Double.nan)).set
          (l.length + 1)
          (((l ++ [Double.nan, Double.nan, Double.nan]).set (l.length + 0)
            ((l ++ [Double.nan, Double.nan, Double.nan]).getD (p + 0) Double.nan)).getD
            (p + 1) Double.nan)).getD (p + 2) Double.nan)
    = l ++ [l.getD (p + 0) Double.nan, l.getD (p + 1) Double.nan,
        l.getD (p + 2) Double.nan] := by
  rw [Store.set_append_three]
  rw [Store.getD_set_high _ _ _ _ (by omega), Store.getD_set_high _ _ _ _ (by omega),
    Store.getD_set_high _ _ _ _ (by omega)]
  rw [Store.getD_append_left _ _ _ (by omega), Store.getD_append_left _ _ _ (by omega),
    Store.getD_append_left _ _ _ (by omega)]

theorem Electric_Field.copy_eq_E (v : Electric_Field) (s : Store)
    (hv : v.addr < s.objs.length) (hp : s.ptr v.addr + 3 ≤ s.heap.length) :
    Electric_Field.copy v s =
      (⟨s.objs.length⟩, ⟨s.objs ++ [s.heap.length],
        s.heap ++ [v.getX s, v.getY s, v.getZ s]⟩) := by
  have hq : (s.objs ++ [s.heap.length]).getD v.addr 0 = s.objs.getD v.addr 0 :=
    Store.getD_objs_append_left _ _ _ hv
  have hn := Store.getD_append_self s.objs s.heap.length
  simp only [Electric_Field.copy, Electric_Field.E, Store.alloc3, Store.place, Store.write,
    Store.read, Store.ptr, Electric_Field.getX, Electric_Field.getY, Electric_Field.getZ]
  simp only [hn, hq]
  have hp2 : s.objs.getD v.addr 0 + 3 ≤ s.heap.length := hp
  rw [Store.copy_heap s.heap (s.objs.getD v.addr 0) hp2]

theorem Magnetic_Field.copy_eq_B (v : Magnetic_Field) (s : Store)
    (hv : v.addr < s.objs.length) (hp : s.ptr v.addr + 3 ≤ s.heap.length) :
    Magnetic_Field.copy v s =
      (⟨s.objs.length⟩, ⟨s.objs ++ [s.heap.length],
        s.heap ++ [v.getX s, v.getY s, v.getZ s]⟩) := by
  have hq : (s.objs ++ [s.heap.length]).getD v.addr 0 = s.objs.getD v.addr 0 :=
    Store.getD_objs_append_left _ _ _ hv
  have hn := Store.getD_append_self s.objs s.heap.length
  simp only [Magnetic_Field.copy, Magnetic_Field.B, Store.alloc3, Store.place, Store.write,
    Store.read, Store.ptr, Magnetic_Field.getX, Magnetic_Field.getY, Magnetic_Field.getZ]
  simp only [hn, hq]
  have hp2 : s.objs.getD v.addr 0 + 3 ≤ s.heap.length := hp
  rw [Store.copy_heap s.heap (s.objs.getD v.addr 0) hp2]

theorem Store.ptr_ext_old (s : Store) (m : List Double) (p o : Nat) (h : o < s.objs.length) :
    (Store.mk (s.objs ++ [p]) (s.heap ++ m)).ptr o = s.ptr o :=
  Store.getD_objs_append_left _ _ _ h

theorem Store.ptr_ext_new (s : Store) (m : List Double) (p : Nat) :
    (Store.mk (s.objs ++ [p]) (s.heap ++ m)).ptr s.objs.length = p :=
  Store.getD_append_self _ _

theorem Store.read_ext_old (s : Store) (m : List Double) (p a : Nat)
    (h : a < s.heap.length) :
    (Store.mk (s.objs ++ [p]) (s.heap ++ m)).read a = s.read a :=
  Store.getD_append_left _ _ _ h

theorem Store.read_ext_new (s : Store) (x y z : Double) (p : Nat) :
    (Store.mk (s.objs ++ [p]) (s.heap ++ [x, y, z])).read (s.heap.length + 0) = x ∧
    (Store.mk (s.objs ++ [p]) (s.heap ++ [x, y, z])).read (s.heap.length + 1) = y ∧
    (Store.mk (s.objs ++ [p]) (s.heap ++ [x, y, z])).read (s.heap.length + 2) = z :=
  Store.getD_append_three _ _ _ _

theorem Store.wf_ext (s : Store) (x y z : Double) (hs : s.wf) :
    (Store.mk (s.objs ++ [s.heap.length]) (s.heap ++ [x, y, z])).wf := by
  have key : ∀ a, a < s.objs.length + 1 →
      ((Store.mk (s.objs ++ [s.heap.length]) (s.heap ++ [x, y, z])).ptr a = s.ptr a
          ∧ a < s.objs.length) ∨
      ((Store.mk (s.objs ++ [s.heap.length]) (s.heap ++ [x, y, z])).ptr a = s.heap.length
          ∧ a = s.objs.length) := by
    intro a ha
    by_cases h : a < s.objs.length
    · exact Or.inl ⟨Store.ptr_ext_old s _ _ a h, h⟩
    · have : a = s.objs.length := by omega
      subst this
      exact Or.inr ⟨Store.ptr_ext_new s _ _, rfl⟩
  constructor
  · intro a ha
    simp only [List.length_append, List.length_cons, List.length_nil] at ha ⊢
    rcases key a (by omega) with ⟨h1, h2⟩ | ⟨h1, h2⟩
    · have := hs.1 a h2
      omega
    · omega
  · intro a ha c hc hac
    simp only [List.length_append, List.length_cons, List.length_nil] at ha hc
    rcases key a (by omega) with ⟨h1, h2⟩ | ⟨h1, h2⟩ <;>
      rcases key c (by omega) with ⟨h3, h4⟩ | ⟨h3, h4⟩
    · have := hs.2 a h2 c h4 hac
      omega
    · have := hs.1 a h2
      omega
    · have := hs.1 c h4
      omega
    · omega

theorem Store.wf_empty : Store.empty.wf := by
  constructor
  · intro a ha; exact absurd ha (Nat.not_lt_zero a)
  · intro a ha; exact absurd ha (Nat.not_lt_zero a)

/-- The constructors keep the class invariant. -/
theorem Store.wf_ctor (s : Store) (x y z : Double) (hs : s.wf) :
    (Electric_Field.ctor s).2.wf ∧ (Electric_Field.ctor3 x y z s).2.wf ∧
    (Magnetic_Field.ctor s).2.wf ∧ (Magnetic_Field.ctor3 x y z s).2.wf :=
  ⟨Store.wf_ext s _ _ _ hs, Store.wf_ext s _ _ _ hs, Store.wf_ext s _ _ _ hs,
    Store.wf_ext s _ _ _ hs⟩

theorem Store.wf_write (s : Store) (a : Nat) (v : Double) (hs : s.wf) : (s.write a v).wf := by
  constructor
  · intro o ho
    have := hs.1 o ho
    simpa only [Store.ptr_write, Store.heap_length_write] using this
  · intro o ho c hc hoc
    exact hs.2 o ho c hc hoc

/-- C7: a copy-constructed copy of a live vector v of either class is a new live object
in a well-formed memory with the components of v, and after setX, setY, setZ or set on
the copy the components of v are the ones it had before. -/
theorem copy_then_mutate (s : Store) (e : Electric_Field) (b : Magnetic_Field)
    (hs : s.wf) (he : s.live e.addr) (hb : s.live b.addr) :
    ((e.copy s).2.wf ∧ (e.copy s).2.live (e.copy s).1.addr ∧ (e.copy s).1.addr ≠ e.addr ∧
      (e.copy s).1.components (e.copy s).2 = e.components s ∧
      ∀ w x y z : Double,
        e.components ((e.copy s).1.setX w (e.copy s).2) = e.components s ∧
        e.components ((e.copy s).1.setY w (e.copy s).2) = e.components s ∧
        e.components ((e.copy s).1.setZ w (e.copy s).2) = e.components s ∧
        e.components ((e.copy s).1.set x y z (e.copy s).2) = e.components s) ∧
    ((b.copy s).2.wf ∧ (b.copy s).2.live (b.copy s).1.addr ∧ (b.copy s).1.addr ≠ b.addr ∧
      (b.copy s).1.components (b.copy s).2 = b.components s ∧
      ∀ w x y z : Double,
        b.components ((b.copy s).1.setX w (b.copy s).2) = b.components s ∧
        b.components ((b.copy s).1.setY w (b.copy s).2) = b.components s ∧
        b.components ((b.copy s).1.setZ w (b.copy s).2) = b.components s ∧
        b.components ((b.copy s).1.set x y z (b.copy s).2) = b.components s) := by
  have h1 := hs.1 e.addr he
  have h2 := hs.1 b.addr hb
  have he2 : e.addr < s.objs.length := he
  have hb2 : b.addr < s.objs.length := hb
  rw [Electric_Field.copy_eq_E e s he h1, Magnetic_Field.copy_eq_B b s hb h2]
  refine ⟨⟨Store.wf_ext s _ _ _ hs, ?_, ?_, ?_, ?_⟩, ⟨Store.wf_ext s _ _ _ hs, ?_, ?_, ?_, ?_⟩⟩
  · simp [Store.live]
  · simp only [ne_eq]; omega
  · have hn := Store.read_ext_new s (e.getX s) (e.getY s) (e.getZ s) s.heap.length
    simp only [Electric_Field.components, Electric_Field.getX, Electric_Field.getY,
      Electric_Field.getZ, Electric_Field.E, Store.ptr_ext_new] at hn ⊢
    rw [hn.1, hn.2.1, hn.2.2]
  · intro w x y z
    simp only [Electric_Field.components, Electric_Field.getX, Electric_Field.getY,
      Electric_Field.getZ, Electric_Field.setX, Electric_Field.setY, Electric_Field.setZ,
      Electric_Field.set, Electric_Field.E, Store.ptr_write,
      Store.ptr_ext_new, Store.ptr_ext_old s _ _ e.addr he2, Store.read_write,
      Store.read_ext_old s _ _ _ (show s.ptr e.addr + 0 < s.heap.length by omega),
      Store.read_ext_old s _ _ _ (show s.ptr e.addr + 1 < s.heap.length by omega),
      Store.read_ext_old s _ _ _ (show s.ptr e.addr + 2 < s.heap.length by omega)]
    refine ⟨?_, ?_, ?_, ?_⟩ <;>
      (split_ifs with h <;> first | rfl | omega)
  · simp [Store.live]
  · simp only [ne_eq]; omega
  · have hn := Store.read_ext_new s (b.getX s) (b.getY s) (b.getZ s) s.heap.length
    simp only [Magnetic_Field.components, Magnetic_Field.getX, Magnetic_Field.getY,
      Magnetic_Field.getZ, Magnetic_Field.B, Store.ptr_ext_new] at hn ⊢
    rw [hn.1, hn.2.1, hn.2.2]
  · intro w x y z
    simp only [Magnetic_Field.components, Magnetic_Field.getX, Magnetic_Field.getY,
      Magnetic_Field.getZ, Magnetic_Field.setX, Magnetic_Field.setY, Magnetic_Field.setZ,
      Magnetic_Field.set, Magnetic_Field.B, Store.ptr_write,
      Store.ptr_ext_new, Store.ptr_ext_old s _ _ b.addr hb2, Store.read_write,
      Store.read_ext_old s _ _ _ (show s.ptr b.addr + 0 < s.heap.length by omega),
      Store.read_ext_old s _ _ _ (show s.ptr b.addr + 1 < s.heap.length by omega),
      Store.read_ext_old s _ _ _ (show s.ptr b.addr + 2 < s.heap.length by omega)]
    refine ⟨?_, ?_, ?_, ?_⟩ <;>
      (split_ifs with h <;> first | rfl | omega)

/-- C7, at the objects E_components and B_components of main. -/
theorem copy_then_mutate_witness :
    mainStore.wf ∧ mainStore.live 1 ∧ mainStore.live 4 ∧
    (⟨4⟩ : Magnetic_Field).components
      (((⟨4⟩ : Magnetic_Field).copy mainStore).1.setY (Double.zero false)
        ((⟨4⟩ : Magnetic_Field).copy mainStore).2)
      = (⟨4⟩ : Magnetic_Field).components mainStore :=
  ⟨by decide!, by decide!, by decide!,
    ((copy_then_mutate mainStore ⟨1⟩ ⟨4⟩ (by decide!) (by decide!) (by decide!)).2.2.2.2.2
      (Double.zero false) (Double.zero false) (Double.zero false) (Double.zero false)).2.1⟩

/-- What three assignments `p[0] = q[0]; p[1] = q[1]; p[2] = q[2]` between two disjoint
allocated arrays do to the cells: the body of both assignment operators. -/
theorem Store.assign_cells (s : Store) (p q : Nat) (hpq : p + 3 ≤ q ∨ q + 3 ≤ p) :
    (((s.write (p + 0) (s.read (q + 0))).write (p + 1)
        ((s.write (p + 0) (s.read (q + 0))).read (q + 1))).write (p + 2)
        (((s.write (p + 0) (s.read (q + 0))).write (p + 1)
          ((s.write (p + 0) (s.read (q + 0))).read (q + 1))).read (q + 2)))
      = ((s.write (p + 0) (s.read (q + 0))).write (p + 1) (s.read (q + 1))).write (p + 2)
          (s.read (q + 2)) := by
  rw [Store.read_write_other _ _ _ _ (by omega), Store.read_write_other _ _ _ _ (by omega),
    Store.read_write_other _ _ _ _ (by omega)]

theorem Store.read_write3 (s : Store) (p c : Nat) (x y z : Double)
    (hp : p + 3 ≤ s.heap.length) :
    (((s.write (p + 0) x).write (p + 1) y).write (p + 2) z).read c =
      if c = p + 0 then x else if c = p + 1 then y else if c = p + 2 then z
      else s.read c := by
  simp only [Store.read_write, Store.heap_length_write]
  split_ifs <;> first | rfl | omega

theorem Electric_Field.assign_eq_E (a b : Electric_Field) (s : Store)
    (hs : s.wf) (ha : s.live a.addr) (hb : s.live b.addr) (hab : a.addr ≠ b.addr) :
    a.assign b s = ((s.write (s.ptr a.addr + 0) (b.getX s)).write (s.ptr a.addr + 1)
      (b.getY s)).write (s.ptr a.addr + 2) (b.getZ s) := by
  simp only [Electric_Field.assign, if_pos hab, Electric_Field.E, Store.ptr_write,
    Electric_Field.getX, Electric_Field.getY, Electric_Field.getZ]
  exact Store.assign_cells s _ _ (hs.2 _ ha _ hb hab)

theorem Magnetic_Field.assign_eq_B (a b : Magnetic_Field) (s : Store)
    (hs : s.wf) (ha : s.live a.addr) (hb : s.live b.addr) (hab : a.addr ≠ b.addr) :
    a.assign b s = ((s.write (s.ptr a.addr + 0) (b.getX s)).write (s.ptr a.addr + 1)
      (b.getY s)).write (s.ptr a.addr + 2) (b.getZ s) := by
  simp only [Magnetic_Field.assign, if_pos hab, Magnetic_Field.B, Store.ptr_write,
    Magnetic_Field.getX, Magnetic_Field.getY, Magnetic_Field.getZ]
  exact Store.assign_cells s _ _ (hs.2 _ ha _ hb hab)

theorem Electric_Field.mutate_other_E (t : Store) (a o : Electric_Field) (w x y z : Double)
    (hd : t.ptr a.addr + 3 ≤ t.ptr o.addr ∨ t.ptr o.addr + 3 ≤ t.ptr a.addr) :
    o.components (a.setX w t) = o.components t ∧
    o.components (a.setY w t) = o.components t ∧
    o.components (a.setZ w t) = o.components t ∧
    o.components (a.set x y z t) = o.components t := by
  simp only [Electric_Field.components, Electric_Field.getX, Electric_Field.getY,
    Electric_Field.getZ, Electric_Field.setX, Electric_Field.setY, Electric_Field.setZ,
    Electric_Field.set, Electric_Field.E, Store.ptr_write, Store.read_write]
  refine ⟨?_, ?_, ?_, ?_⟩ <;> (split_ifs with h <;> first | rfl | omega)

theorem Magnetic_Field.mutate_other_B (t : Store) (a o : Magnetic_Field) (w x y z : Double)
    (hd : t.ptr a.addr + 3 ≤ t.ptr o.addr ∨ t.ptr o.addr + 3 ≤ t.ptr a.addr) :
    o.components (a.setX w t) = o.components t ∧
    o.components (a.setY w t) = o.components t ∧
    o.components (a.setZ w t) = o.components t ∧
    o.components (a.set x y z t) = o.components t := by
  simp only [Magnetic_Field.components, Magnetic_Field.getX, Magnetic_Field.getY,
    Magnetic_Field.getZ, Magnetic_Field.setX, Magnetic_Field.setY, Magnetic_Field.setZ,
    Magnetic_Field.set, Magnetic_Field.B, Store.ptr_write, Store.read_write]
  refine ⟨?_, ?_, ?_, ?_⟩ <;> (split_ifs with h <;> first | rfl | omega)

theorem Electric_Field.assign_components_E (a b : Electric_Field) (s : Store)
    (hs : s.wf) (ha : s.live a.addr) (hb : s.live b.addr) :
    a.components (a.assign b s) = b.components s ∧
    b.components (a.assign b s) = b.components s := by
  by_cases hab : a.addr = b.addr
  · have e : a = b := by
      cases a; cases b; simp only [Electric_Field.mk.injEq]; exact hab
    subst e
    simp [Electric_Field.assign]
  · have h1 := hs.1 a.addr ha
    have h3 := hs.2 a.addr ha b.addr hb hab
    rw [Electric_Field.assign_eq_E a b s hs ha hb hab]
    simp only [Electric_Field.components, Electric_Field.getX, Electric_Field.getY,
      Electric_Field.getZ, Electric_Field.E, Store.ptr_write,
      Store.read_write3 _ _ _ _ _ _ h1]
    constructor <;> (split_ifs with h <;> first | rfl | omega)

theorem Magnetic_Field.assign_components_B (a b : Magnetic_Field) (s : Store)
    (hs : s.wf) (ha : s.live a.addr) (hb : s.live b.addr) :
    a.components (a.assign b s) = b.components s ∧
    b.components (a.assign b s) = b.components s := by
  by_cases hab : a.addr = b.addr
  · have e : a = b := by
      cases a; cases b; simp only [Magnetic_Field.mk.injEq]; exact hab
    subst e
    simp [Magnetic_Field.assign]
  · have h1 := hs.1 a.addr ha
    have h3 := hs.2 a.addr ha b.addr hb hab
    rw [Magnetic_Field.assign_eq_B a b s hs ha hb hab]
    simp only [Magnetic_Field.components, Magnetic_Field.getX, Magnetic_Field.getY,
      Magnetic_Field.getZ, Magnetic_Field.B, Store.ptr_write,
      Store.read_write3 _ _ _ _ _ _ h1]
    constructor <;> (split_ifs with h <;> first | rfl | omega)

theorem Electric_Field.ptr_assign_E (a b : Electric_Field) (s : Store) (o : Nat) :
    (a.assign b s).ptr o = s.ptr o := by
  unfold Electric_Field.assign
  split_ifs <;> rfl

theorem Magnetic_Field.ptr_assign_B (a b : Magnetic_Field) (s : Store) (o : Nat) :
    (a.assign b s).ptr o = s.ptr o := by
  unfold Magnetic_Field.assign
  split_ifs <;> rfl

/-- C8: for live vectors a and b of either class, after the assignment a = b the
components of a are those b had, b is unchanged, and (a and b being two objects) a later
setX, setY, setZ or set on either one leaves the other with these components; assigning
a vector to itself leaves the whole memory as it was. -/
theorem assign_then_mutate (s : Store) (a b : Electric_Field) (c d : Magnetic_Field)
    (hs : s.wf) (ha : s.live a.addr) (hb : s.live b.addr) (hc : s.live c.addr)
    (hd : s.live d.addr) :
    (a.components (a.assign b s) = b.components s ∧
      b.components (a.assign b s) = b.components s ∧
      (a.addr ≠ b.addr → ∀ w x y z : Double,
        (b.components (a.setX w (a.assign b s)) = b.components s ∧
          b.components (a.setY w (a.assign b s)) = b.components s ∧
          b.components (a.setZ w (a.assign b s)) = b.components s ∧
          b.components (a.set x y z (a.assign b s)) = b.components s) ∧
        (a.components (b.setX w (a.assign b s)) = b.components s ∧
          a.components (b.setY w (a.assign b s)) = b.components s ∧
          a.components (b.setZ w (a.assign b s)) = b.components s ∧
          a.components (b.set x y z (a.assign b s)) = b.components s)) ∧
      a.assign a s = s) ∧
    (c.components (c.assign d s) = d.components s ∧
      d.components (c.assign d s) = d.components s ∧
      (c.addr ≠ d.addr → ∀ w x y z : Double,
        (d.components (c.setX w (c.assign d s)) = d.components s ∧
          d.components (c.setY w (c.assign d s)) = d.components s ∧
          d.components (c.setZ w (c.assign d s)) = d.components s ∧
          d.components (c.set x y z (c.assign d s)) = d.components s) ∧
        (c.components (d.setX w (c.assign d s)) = d.components s ∧
          c.components (d.setY w (c.assign d s)) = d.components s ∧
          c.components (d.setZ w (c.assign d s)) = d.components s ∧
          c.components (d.set x y z (c.assign d s)) = d.components s)) ∧
      c.assign c s = s) := by
  have e1 := Electric_Field.assign_components_E a b s hs ha hb
  have m1 := Magnetic_Field.assign_components_B c d s hs hc hd
  refine ⟨⟨e1.1, e1.2, ?_, by simp [Electric_Field.assign]⟩,
    ⟨m1.1, m1.2, ?_, by simp [Magnetic_Field.assign]⟩⟩
  · intro hab w x y z
    have h3 := hs.2 a.addr ha b.addr hb hab
    have f1 := Electric_Field.mutate_other_E (a.assign b s) a b w x y z
      (by rw [Electric_Field.ptr_assign_E, Electric_Field.ptr_assign_E]; exact h3)
    have f2 := Electric_Field.mutate_other_E (a.assign b s) b a w x y z
      (by rw [Electric_Field.ptr_assign_E, Electric_Field.ptr_assign_E]; omega)
    rw [e1.1] at f2
    rw [e1.2] at f1
    exact ⟨f1, f2⟩
  · intro hcd w x y z
    have h3 := hs.2 c.addr hc d.addr hd hcd
    have f1 := Magnetic_Field.mutate_other_B (c.assign d s) c d w x y z
      (by rw [Magnetic_Field.ptr_assign_B, Magnetic_Field.ptr_assign_B]; exact h3)
    have f2 := Magnetic_Field.mutate_other_B (c.assign d s) d c w x y z
      (by rw [Magnetic_Field.ptr_assign_B, Magnetic_Field.ptr_assign_B]; omega)
    rw [m1.1] at f2
    rw [m1.2] at f1
    exact ⟨f1, f2⟩

/-- C8, at main: E_default = E_components and B_set = B_components. -/
theorem assign_then_mutate_witness :
    mainStore.wf ∧ mainStore.live 0 ∧ mainStore.live 1 ∧ mainStore.live 5 ∧
    mainStore.live 4 ∧
    (⟨0⟩ : Electric_Field).components ((⟨0⟩ : Electric_Field).assign ⟨1⟩ mainStore)
      = (⟨1⟩ : Electric_Field).components mainStore :=
  ⟨by decide!, by decide!, by decide!, by decide!, by decide!,
    (assign_then_mutate mainStore ⟨0⟩ ⟨1⟩ ⟨5⟩ ⟨4⟩ (by decide!) (by decide!) (by decide!)
      (by decide!) (by decide!)).1.1⟩

/-! ## Signs, zeros and NaN in double arithmetic -/

namespace Double

theorem eq_zero_iff (m : Double) : Double.eq m (zero false) = m.isZero := by
  obtain ⟨s, e, f⟩ := m
  by_cases h : e.val = 0 ∧ f.val = 0
  · have he : e = 0 := Fin.ext h.1
    have hf : f = 0 := Fin.ext h.2
    subst he; subst hf
    cases s <;> rfl
  · have hz : isZero ⟨s, e, f⟩ = false := by
      simp only [isZero, Bool.and_eq_false_imp, beq_iff_eq, beq_eq_false_iff_ne]
      intro h1 h2; exact h ⟨h1, h2⟩
    have hne : (⟨s, e, f⟩ : Double) ≠ zero false := by
      intro hc
      simp only [zero, Double.mk.injEq] at hc
      exact h ⟨by rw [hc.2.1]; rfl, by rw [hc.2.2]; rfl⟩
    simp [Double.eq, hz, hne]

theorem isZero_eq (x : Double) (h : x.isZero = true) : x = zero x.sign := by
  obtain ⟨s, e, f⟩ := x
  simp only [isZero, Bool.and_eq_true, beq_iff_eq] at h
  have he : e = 0 := Fin.ext h.1
  have hf : f = 0 := Fin.ext h.2
  subst he; subst hf
  rfl

theorem magnitude_zero (a b c : Bool) :
    sqrt (add (add (mul (zero a) (zero a)) (mul (zero b) (zero b)))
      (mul (zero c) (zero c))) = zero false := by
  cases a <;> cases b <;> cases c <;> decide!

end Double

theorem Magnetic_Field.magnitude_of_zero_B (s : Store) (b : Magnetic_Field)
    (hx : (b.getX s).isZero = true) (hy : (b.getY s).isZero = true)
    (hz : (b.getZ s).isZero = true) : b.calculateMagnitude s = Double.zero false := by
  have ex := Double.isZero_eq _ hx
  have ey := Double.isZero_eq _ hy
  have ez := Double.isZero_eq _ hz
  simp only [Magnetic_Field.getX, Magnetic_Field.getY, Magnetic_Field.getZ] at ex ey ez
  unfold Magnetic_Field.calculateMagnitude
  rw [ex, ey, ez]
  exact Double.magnitude_zero _ _ _

theorem Electric_Field.magnitude_of_zero_E (s : Store) (e : Electric_Field)
    (hx : (e.getX s).isZero = true) (hy : (e.getY s).isZero = true)
    (hz : (e.getZ s).isZero = true) : e.calculateMagnitude s = Double.zero false := by
  have ex := Double.isZero_eq _ hx
  have ey := Double.isZero_eq _ hy
  have ez := Double.isZero_eq _ hz
  simp only [Electric_Field.getX, Electric_Field.getY, Electric_Field.getZ] at ex ey ez
  unfold Electric_Field.calculateMagnitude
  rw [ex, ey, ez]
  exact Double.magnitude_zero _ _ _

theorem Magnetic_Field.ctor_components (s : Store) :
    (Magnetic_Field.ctor s).1.components (Magnetic_Field.ctor s).2 =
      (Double.zero false, Double.zero false, Double.zero false) := by
  have h := (Store.ctor3_reads (Double.zero false) (Double.zero false) (Double.zero false) s).2
  simp only [Magnetic_Field.components, Magnetic_Field.ctor]
  simp only [Magnetic_Field.ctor3] at h
  rw [h.1, h.2.1, h.2.2]

/-- C1: on every Magnetic_Field whose three components are zeros (of either sign),
unitVector returns false and leaves 0.0 in each of ux, uy and uz; a default-constructed
Magnetic_Field is such a vector, in any memory. -/
theorem unitVector_zero (s : Store) (b : Magnetic_Field)
    (h : (b.getX s).isZero = true ∧ (b.getY s).isZero = true ∧ (b.getZ s).isZero = true) :
    b.unitVector s = (false, Double.zero false, Double.zero false, Double.zero false) ∧
    (Magnetic_Field.ctor s).1.unitVector (Magnetic_Field.ctor s).2
      = (false, Double.zero false, Double.zero false, Double.zero false) := by
  have key : ∀ (t : Store) (c : Magnetic_Field),
      ((c.getX t).isZero = true ∧ (c.getY t).isZero = true ∧ (c.getZ t).isZero = true) →
      c.unitVector t = (false, Double.zero false, Double.zero false, Double.zero false) := by
    intro t c h
    unfold Magnetic_Field.unitVector
    simp only [Magnetic_Field.magnitude_of_zero_B t c h.1 h.2.1 h.2.2]
    rfl
  refine ⟨key s b h, key _ _ ?_⟩
  have h := Magnetic_Field.ctor_components s
  simp only [Magnetic_Field.components, Prod.mk.injEq] at h
  rw [h.1, h.2.1, h.2.2]
  exact ⟨rfl, rfl, rfl⟩

/-- C1, at the magnetic field (-0.0, 0.0, -0.0) placed in the memory of main. -/
theorem unitVector_zero_witness :
    ((⟨6⟩ : Magnetic_Field).getX (Magnetic_Field.ctor3 (Double.zero true)
        (Double.zero false) (Double.zero true) mainStore).2).isZero = true ∧
    (⟨6⟩ : Magnetic_Field).unitVector (Magnetic_Field.ctor3 (Double.zero true)
        (Double.zero false) (Double.zero true) mainStore).2
      = (false, Double.zero false, Double.zero false, Double.zero false) :=
  ⟨by decide!, (unitVector_zero (Magnetic_Field.ctor3 (Double.zero true)
    (Double.zero false) (Double.zero true) mainStore).2 ⟨6⟩ (by decide!)).1⟩

namespace Double

theorem isNaN_nan : nan.isNaN = true := rfl

theorem isNaN_inf (s : Bool) : (inf s).isNaN = false := rfl

theorem pack_isNaN (s : Bool) (t q : Nat) : (pack s t q).isNaN = false := by
  unfold pack
  split_ifs with h
  · simp only [isNaN, Bool.and_eq_false_imp, beq_iff_eq]
    intro h1
    omega
  · rfl

theorem pack_sign (s : Bool) (t q : Nat) : (pack s t q).sign = s := by
  unfold pack
  split_ifs <;> rfl

theorem round_isNaN (s : Bool) (n d : Nat) : (round s n d).isNaN = false :=
  pack_isNaN _ _ _

theorem round_sign (s : Bool) (n d : Nat) : (round s n d).sign = s :=
  pack_sign _ _ _

theorem nonneg_round (s : Bool) (n d : Nat) (hs : s = false) :
    (round s n d).nonneg = true := by
  simp only [nonneg, round_isNaN, round_sign, hs, Bool.not_false, Bool.and_self]

theorem isZero_of_isInf (x : Double) (h : x.isInf = true) : x.isZero = false := by
  simp only [isInf, Bool.and_eq_true, beq_iff_eq] at h
  simp only [isZero, Bool.and_eq_false_imp, beq_iff_eq]
  intro h1; omega

theorem isNaN_of_isInf (x : Double) (h : x.isInf = true) : x.isNaN = false := by
  simp only [isInf, Bool.and_eq_true, beq_iff_eq] at h
  simp only [isNaN, Bool.and_eq_false_imp, beq_iff_eq]
  intro _; simp [h.2]

theorem nonneg_mul_self (x : Double) (h : x.isNaN = false) : (mul x x).nonneg = true := by
  unfold mul
  simp only [h, Bool.or_self, Bool.false_eq_true, if_false]
  by_cases hi : x.isInf = true
  · simp only [hi, if_true, isZero_of_isInf x hi, Bool.false_eq_true, if_false]
    cases x.sign <;> rfl
  · simp only [hi, Bool.false_eq_true, if_false]
    exact nonneg_round _ _ _ (by cases x.sign <;> rfl)

theorem isNaN_mul_self (x : Double) (h : x.isNaN = true) : (mul x x).isNaN = true := by
  unfold mul
  simp [h, isNaN_nan]

theorem nonneg_add (x y : Double) (hx : x.nonneg = true) (hy : y.nonneg = true) :
    (add x y).nonneg = true := by
  simp only [nonneg, Bool.and_eq_true, Bool.not_eq_true'] at hx hy
  unfold add
  simp only [hx.1, hy.1, Bool.or_self, Bool.false_eq_true, if_false, hx.2, hy.2]
  by_cases hi : x.isInf = true
  · simp [hi, nonneg, hx.1, hx.2]
  · by_cases hj : y.isInf = true
    · simp [hi, hj, nonneg, hy.1, hy.2]
    · simp only [hi, hj, Bool.false_eq_true, if_false, if_true]
      exact nonneg_round _ _ _ rfl

theorem isNaN_add_left (x y : Double) (h : x.isNaN = true) : (add x y).isNaN = true := by
  unfold add
  simp [h, isNaN_nan]

theorem isNaN_add_right (x y : Double) (h : y.isNaN = true) : (add x y).isNaN = true := by
  unfold add
  simp [h, isNaN_nan]

theorem nonneg_sqrt (x : Double) (hx : x.nonneg = true) : (sqrt x).nonneg = true := by
  have hx2 := hx
  simp only [nonneg, Bool.and_eq_true, Bool.not_eq_true'] at hx
  unfold sqrt
  simp only [hx.1, hx.2, Bool.false_eq_true, if_false]
  by_cases hz : x.isZero = true
  · simp [hz, hx2]
  · by_cases hi : x.isInf = true
    · simp [hz, hi, hx2]
    · simp only [hz, hi, if_false]
      simp [nonneg, pack_isNaN, pack_sign]

theorem isNaN_sqrt (x : Double) (h : x.isNaN = true) : (sqrt x).isNaN = true := by
  unfold sqrt
  simp [h, isNaN_nan]

theorem le_zero_of_nonneg (x : Double) (hx : x.nonneg = true) : le (zero false) x = true := by
  simp only [nonneg, Bool.and_eq_true, Bool.not_eq_true'] at hx
  have h0 : (zero false).isNaN = false := rfl
  have h1 : (zero false).sign = false := rfl
  have h2 : (zero false).expo.val = 0 := rfl
  have h3 : (zero false).frac.val = 0 := rfl
  simp only [le, hx.1, hx.2, h0, h1, h2, h3, Bool.not_false, Bool.and_self,
    Bool.false_eq_true, if_false, Bool.true_and, decide_eq_true_eq]
  omega

theorem le_zero_of_isNaN (x : Double) (hx : x.isNaN = true) : le (zero false) x = false := by
  simp [le, hx]

/-- The sum of three squares, as calculateMagnitude and innerProduct compute it. -/
theorem nonneg_sumsq (x y z : Double) (hx : x.isNaN = false) (hy : y.isNaN = false)
    (hz : z.isNaN = false) : (add (add (mul x x) (mul y y)) (mul z z)).nonneg = true :=
  nonneg_add _ _ (nonneg_add _ _ (nonneg_mul_self x hx) (nonneg_mul_self y hy))
    (nonneg_mul_self z hz)

theorem isNaN_sumsq (x y z : Double)
    (h : x.isNaN = true ∨ y.isNaN = true ∨ z.isNaN = true) :
    (add (add (mul x x) (mul y y)) (mul z z)).isNaN = true := by
  rcases h with h | h | h
  · exact isNaN_add_left _ _ (isNaN_add_left _ _ (isNaN_mul_self x h))
  · exact isNaN_add_left _ _ (isNaN_add_right _ _ (isNaN_mul_self y h))
  · exact isNaN_add_right _ _ (isNaN_mul_self z h)

end Double

/-- The two branches of unitVector, by the computed magnitude. -/
theorem Magnetic_Field.unitVector_eq (s : Store) (b : Magnetic_Field) :
    b.unitVector s =
      (if (b.calculateMagnitude s).isZero = true then
        (false, Double.zero false, Double.zero false, Double.zero false)
      else
        (true, Double.div (b.getX s) (b.calculateMagnitude s),
          Double.div (b.getY s) (b.calculateMagnitude s),
          Double.div (b.getZ s) (b.calculateMagnitude s))) ∧
    (b.unitVector s).1 = !(b.calculateMagnitude s).isZero := by
  unfold Magnetic_Field.unitVector
  simp only [Double.eq_zero_iff, Magnetic_Field.getX, Magnetic_Field.getY,
    Magnetic_Field.getZ]
  cases (b.calculateMagnitude s).isZero <;> simp

/-- C5, as stated, fails: the magnitude of the electric field (NaN, 0, 0) is not
non-negative, the comparison 0.0 <= magnitude being false. -/
theorem magnitude_nonneg_fails :
    Double.le (Double.zero false)
      ((Electric_Field.ctor3 Double.nan (Double.zero false) (Double.zero false)
        Store.empty).1.calculateMagnitude
        (Electric_Field.ctor3 Double.nan (Double.zero false) (Double.zero false)
          Store.empty).2) = false := by
  decide!

/-- C5, amended: for every Electric_Field and every Magnetic_Field, 0.0 <= magnitude
holds exactly when no component is NaN (the magnitude is then +0, positive or
+infinity), and a vector constructed from three zeros of any signs has magnitude +0. -/
theorem magnitude_nonneg (s : Store) (e : Electric_Field) (b : Magnetic_Field) :
    Double.le (Double.zero false) (e.calculateMagnitude s)
      = !((e.getX s).isNaN || (e.getY s).isNaN || (e.getZ s).isNaN) ∧
    Double.le (Double.zero false) (b.calculateMagnitude s)
      = !((b.getX s).isNaN || (b.getY s).isNaN || (b.getZ s).isNaN) ∧
    ∀ p q r : Bool,
      (Electric_Field.ctor3 (Double.zero p) (Double.zero q) (Double.zero r)
        s).1.calculateMagnitude (Electric_Field.ctor3 (Double.zero p) (Double.zero q)
          (Double.zero r) s).2 = Double.zero false ∧
      (Magnetic_Field.ctor3 (Double.zero p) (Double.zero q) (Double.zero r)
        s).1.calculateMagnitude (Magnetic_Field.ctor3 (Double.zero p) (Double.zero q)
          (Double.zero r) s).2 = Double.zero false := by
  have key : ∀ x y z : Double,
      Double.le (Double.zero false)
        (Double.sqrt (Double.add (Double.add (Double.mul x x) (Double.mul y y))
          (Double.mul z z))) = !(x.isNaN || y.isNaN || z.isNaN) := by
    intro x y z
    by_cases h : x.isNaN = true ∨ y.isNaN = true ∨ z.isNaN = true
    · rw [Double.le_zero_of_isNaN _ (Double.isNaN_sqrt _ (Double.isNaN_sumsq x y z h))]
      rcases h with h | h | h <;> simp [h]
    · simp only [not_or, Bool.not_eq_true] at h
      rw [Double.le_zero_of_nonneg _
        (Double.nonneg_sqrt _ (Double.nonneg_sumsq x y z h.1 h.2.1 h.2.2))]
      simp [h.1, h.2.1, h.2.2]
  refine ⟨key _ _ _, key _ _ _, ?_⟩
  intro p q r
  have g := Store.ctor3_reads (Double.zero p) (Double.zero q) (Double.zero r) s
  constructor
  · apply Electric_Field.magnitude_of_zero_E
    · rw [g.1.1]; rfl
    · rw [g.1.2.1]; rfl
    · rw [g.1.2.2]; rfl
  · apply Magnetic_Field.magnitude_of_zero_B
    · rw [g.2.1]; rfl
    · rw [g.2.2.1]; rfl
    · rw [g.2.2.2]; rfl

/-! ## Integer helpers of the rounding -/

namespace Double

theorem log2Aux_spec (k : Nat) : ∀ n : Nat, n ≤ k → 1 ≤ n →
    2 ^ log2Aux k n ≤ n ∧ n < 2 ^ (log2Aux k n + 1) := by
  induction k with
  | zero => intro n h1 h2; omega
  | succ k ih =>
    intro n h1 h2
    unfold log2Aux
    by_cases h : n < 2
    · have : n = 1 := by omega
      subst this
      simp
    · simp only [h, if_false]
      have h3 := ih (n / 2) (by omega) (by omega)
      have h4 : 2 ^ (log2Aux k (n / 2) + 1) = 2 * 2 ^ log2Aux k (n / 2) := by
        rw [pow_succ]; ring
      have h5 : 2 ^ (log2Aux k (n / 2) + 1 + 1) = 2 * 2 ^ (log2Aux k (n / 2) + 1) := by
        rw [pow_succ]; ring
      rw [h5, h4]
      rw [h4] at h3
      omega

theorem ilog2_spec (n : Nat) (h : 1 ≤ n) : 2 ^ ilog2 n ≤ n ∧ n < 2 ^ (ilog2 n + 1) :=
  log2Aux_spec n n (le_refl n) h

theorem isqrtAux_spec (n k : Nat) : ∀ r : Nat, r * r ≤ n → n < (r + 2 ^ k) * (r + 2 ^ k) →
    isqrtAux n k r * isqrtAux n k r ≤ n ∧ n < (isqrtAux n k r + 1) * (isqrtAux n k r + 1) := by
  induction k with
  | zero =>
    intro r h1 h2
    simpa [isqrtAux] using ⟨h1, h2⟩
  | succ k ih =>
    intro r h1 h2
    unfold isqrtAux
    by_cases h : (r + 2 ^ k) * (r + 2 ^ k) ≤ n
    · simp only [h, if_true]
      apply ih _ h
      have : r + 2 ^ k + 2 ^ k = r + 2 ^ (k + 1) := by rw [pow_succ]; ring
      rw [this]; exact h2
    · simp only [h, if_false]
      exact ih r h1 (by omega)

theorem isqrt_spec (n : Nat) :
    isqrt n * isqrt n ≤ n ∧ n < (isqrt n + 1) * (isqrt n + 1) := by
  unfold isqrt
  apply isqrtAux_spec
  · simp
  · simp only [zero_add]
    rcases Nat.eq_zero_or_pos n with h | h
    · subst h; positivity
    · have h1 := (ilog2_spec n h).2
      have h2 : 2 ^ (ilog2 n + 1) ≤ 2 ^ (ilog2 n / 2 + 1) * 2 ^ (ilog2 n / 2 + 1) := by
        rw [← pow_add]
        apply Nat.pow_le_pow_right (by norm_num)
        omega
      omega

theorem nearest_spec (n d : Nat) (hd : 0 < d) :
    2 * (nearest n d * d) ≤ 2 * n + d ∧ 2 * n ≤ 2 * (nearest n d * d) + d := by
  have h1 := Nat.div_add_mod n d
  have h2 := Nat.mod_lt n hd
  have h3 : (n / d + 1) * d = d * (n / d) + d := by ring
  have h4 : n / d * d = d * (n / d) := by ring
  unfold nearest
  split_ifs with h
  · rw [h3]; omega
  · rw [h4]; omega

theorem nearest_ge (n d : Nat) : n / d ≤ nearest n d := by
  unfold nearest
  split_ifs <;> omega

theorem nearest_le (n d : Nat) : nearest n d ≤ n / d + 1 := by
  unfold nearest
  split_ifs <;> omega

theorem sqrtNearest_spec (v : Nat) :
    isqrt v ≤ sqrtNearest v ∧ sqrtNearest v ≤ isqrt v + 1 ∧
    sqrtNearest v * sqrtNearest v ≤ v + sqrtNearest v ∧
    v ≤ sqrtNearest v * sqrtNearest v + sqrtNearest v := by
  have h := isqrt_spec v
  have h3 : (isqrt v + 1) * (isqrt v + 1) = isqrt v * isqrt v + 2 * isqrt v + 1 := by ring
  rw [h3] at h
  unfold sqrtNearest
  split_ifs with h1
  · refine ⟨by omega, by omega, ?_, ?_⟩
    · rw [h3]; omega
    · rw [h3]; omega
  · refine ⟨by omega, by omega, by omega, by omega⟩

end Double

/-! ## What `pack` and `round` return -/

namespace Double

theorem pack_num (s : Bool) (t q : Nat) (hq : q ≤ 9007199254740992)
    (ht : t = 0 ∨ 4503599627370496 ≤ q)
    (hfin : t * 4503599627370496 + q < 2047 * 4503599627370496) :
    (pack s t q).num = q * 2 ^ t ∧ (pack s t q).isFinite = true := by
  unfold pack
  rw [dif_pos hfin]
  simp only [num, mant, shift, isFinite, bne_iff_ne, ne_eq]
  by_cases h1 : q < 4503599627370496
  · have ht0 : t = 0 := by omega
    subst ht0
    have he : (0 * 4503599627370496 + q) / 4503599627370496 = 0 := by omega
    have hf : (0 * 4503599627370496 + q) % 4503599627370496 = q := by omega
    rw [he, hf]
    simp
  · by_cases h2 : q < 9007199254740992
    · have he : (t * 4503599627370496 + q) / 4503599627370496 = t + 1 := by omega
      have hf : (t * 4503599627370496 + q) % 4503599627370496 = q - 4503599627370496 := by
        omega
      have hm : 4503599627370496 + (q - 4503599627370496) = q := by omega
      rw [he, hf, hm, if_neg (by omega), Nat.add_sub_cancel]
      exact ⟨rfl, by omega⟩
    · have hq2 : q = 9007199254740992 := by omega
      subst hq2
      have he : (t * 4503599627370496 + 9007199254740992) / 4503599627370496 = t + 2 := by
        omega
      have hf : (t * 4503599627370496 + 9007199254740992) % 4503599627370496 = 0 := by
        omega
      have hp : 2 ^ (t + 1) = 2 * 2 ^ t := by rw [pow_succ]; ring
      have hs : t + 2 - 1 = t + 1 := by omega
      rw [he, hf, if_neg (by omega), hs, hp]
      refine ⟨by ring, by omega⟩

theorem ulpExp_spec (n d : Nat) (hd : 0 < d) :
    n * 2 ^ 1022 < d * 2 ^ (ulpExp n d + 1) ∧
    (0 < ulpExp n d → d * 2 ^ ulpExp n d ≤ n * 2 ^ 1022) := by
  unfold ulpExp
  generalize n * 2 ^ 1022 = m
  by_cases h : m < d
  · simp only [h, if_true]
    constructor
    · simp; omega
    · intro h0; omega
  · simp only [h, if_false]
    have hm : 1 ≤ m := by omega
    have sm := ilog2_spec m hm
    have sd := ilog2_spec d hd
    have hab : ilog2 d ≤ ilog2 m := by
      by_contra hc
      have : 2 ^ (ilog2 m + 1) ≤ 2 ^ ilog2 d :=
        Nat.pow_le_pow_right (by norm_num) (by omega)
      omega
    obtain ⟨k, hk⟩ : ∃ k, ilog2 m = ilog2 d + k := ⟨ilog2 m - ilog2 d, by omega⟩
    have hk2 : ilog2 m - ilog2 d = k := by omega
    rw [hk2]
    have e1 : 2 ^ (ilog2 m + 1) = 2 ^ ilog2 d * 2 ^ (k + 1) := by
      rw [hk, ← pow_add]; congr 1
    have e2 : 2 ^ ilog2 m = 2 ^ ilog2 d * 2 ^ k := by
      rw [hk, ← pow_add]
    by_cases h2 : d * 2 ^ k ≤ m
    · simp only [h2, if_true]
      refine ⟨?_, fun _ => trivial⟩
      calc m < 2 ^ (ilog2 m + 1) := sm.2
        _ = 2 ^ ilog2 d * 2 ^ (k + 1) := e1
        _ ≤ d * 2 ^ (k + 1) := Nat.mul_le_mul_right _ sd.1
    · simp only [h2, if_false]
      have hk0 : 1 ≤ k := by
        by_contra hc
        have : k = 0 := by omega
        subst this
        simp at h2
        omega
      obtain ⟨j, hj⟩ : ∃ j, k = j + 1 := ⟨k - 1, by omega⟩
      subst hj
      simp only [Nat.add_sub_cancel]
      refine ⟨by omega, fun _ => ?_⟩
      have e3 : 2 ^ (ilog2 d + 1) * 2 ^ j = 2 ^ ilog2 d * 2 ^ (j + 1) := by
        rw [← pow_add, ← pow_add]; congr 1; omega
      have : d * 2 ^ j < 2 ^ (ilog2 d + 1) * 2 ^ j :=
        Nat.mul_lt_mul_of_pos_right sd.2 (by positivity)
      omega

theorem pack_bits_of_isFinite (s : Bool) (t q : Nat)
    (h : (pack s t q).isFinite = true) :
    t * 4503599627370496 + q < 2047 * 4503599627370496 := by
  by_contra hc
  unfold pack at h
  rw [dif_neg hc] at h
  cases s <;> exact absurd h (by decide)

/-- A rounding that does not overflow returns the nearest multiple of the last place of
the binade of n / d. -/
theorem round_spec (s : Bool) (n d : Nat) (hd : 0 < d)
    (hfin : (round s n d).isFinite = true) :
    (round s n d).num = nearest (n * 2 ^ 1074) (d * 2 ^ ulpExp n d) * 2 ^ ulpExp n d ∧
    (0 < ulpExp n d → d * 2 ^ ulpExp n d ≤ n * 2 ^ 1022) := by
  have c52 : (2 : ℕ) ^ 52 = 4503599627370496 := by norm_num
  obtain ⟨u1, u2⟩ := ulpExp_spec n d hd
  unfold round at hfin ⊢
  have hb := pack_bits_of_isFinite _ _ _ hfin
  generalize ulpExp n d = t at u1 u2 hb ⊢
  have hN : n * 2 ^ 1074 = n * 2 ^ 1022 * 4503599627370496 := by
    rw [← c52, mul_assoc, ← pow_add]
  have hD : 0 < d * 2 ^ t := by positivity
  have hq1 : n * 2 ^ 1074 / (d * 2 ^ t) < 9007199254740992 := by
    rw [Nat.div_lt_iff_lt_mul hD, hN]
    have e : 9007199254740992 * (d * 2 ^ t) = d * 2 ^ (t + 1) * 4503599627370496 := by
      rw [pow_succ]; ring
    rw [e]
    exact Nat.mul_lt_mul_of_pos_right u1 (by norm_num)
  have hq2 := nearest_le (n * 2 ^ 1074) (d * 2 ^ t)
  have hq3 := nearest_ge (n * 2 ^ 1074) (d * 2 ^ t)
  have hq4 : t = 0 ∨ 4503599627370496 ≤ nearest (n * 2 ^ 1074) (d * 2 ^ t) := by
    rcases Nat.eq_zero_or_pos t with h0 | h0
    · exact Or.inl h0
    · right
      have h3 := u2 h0
      have h4 : 4503599627370496 ≤ n * 2 ^ 1074 / (d * 2 ^ t) := by
        rw [Nat.le_div_iff_mul_le hD, hN, mul_comm]
        exact Nat.mul_le_mul_right _ h3
      omega
  have hp := pack_num s t (nearest (n * 2 ^ 1074) (d * 2 ^ t)) (by omega) hq4 hb
  exact ⟨hp.1, u2⟩

/-- A value below 2^1023 does not overflow. -/
theorem round_isFinite (s : Bool) (n d : Nat) (hd : 0 < d)
    (hlt : n * 2 ^ 1022 < d * 2 ^ 2045) : (round s n d).isFinite = true := by
  have c52 : (2 : ℕ) ^ 52 = 4503599627370496 := by norm_num
  obtain ⟨u1, u2⟩ := ulpExp_spec n d hd
  unfold round
  generalize ulpExp n d = t at u1 u2 ⊢
  have ht : t ≤ 2044 := by
    by_contra hc
    have h1 : d * 2 ^ 2045 ≤ d * 2 ^ t :=
      Nat.mul_le_mul_left _ (Nat.pow_le_pow_right (by norm_num) (by omega))
    have h2 := u2 (by omega)
    omega
  have hN : n * 2 ^ 1074 = n * 2 ^ 1022 * 4503599627370496 := by
    rw [← c52, mul_assoc, ← pow_add]
  have hD : 0 < d * 2 ^ t := by positivity
  have hq1 : n * 2 ^ 1074 / (d * 2 ^ t) < 9007199254740992 := by
    rw [Nat.div_lt_iff_lt_mul hD, hN]
    have e : 9007199254740992 * (d * 2 ^ t) = d * 2 ^ (t + 1) * 4503599627370496 := by
      rw [pow_succ]; ring
    rw [e]
    exact Nat.mul_lt_mul_of_pos_right u1 (by norm_num)
  have hq2 := nearest_le (n * 2 ^ 1074) (d * 2 ^ t)
  unfold pack
  rw [dif_pos (by omega)]
  simp only [isFinite, bne_iff_ne, ne_eq]
  omega

theorem toRat_eq (x : Double) :
    x.toRat = (if x.sign then -1 else 1) * ((x.num : ℚ) / 2 ^ 1074) := by
  unfold toRat; ring

theorem abs_signed_sub (s : Bool) (a b : ℚ) :
    |(if s then (-1 : ℚ) else 1) * a - (if s then (-1 : ℚ) else 1) * b| = |a - b| := by
  cases s
  · simp
  · simp only [if_true, neg_mul, one_mul]
    rw [← abs_neg]; congr 1; ring

/-- The error of one rounding: at most half a unit in the last place, which is at most
2^-1075 in the subnormal range and at most 2^-53 of the value above it. -/
theorem round_err (s : Bool) (n d : Nat) (hd : 0 < d)
    (hfin : (round s n d).isFinite = true) :
    |(round s n d).toRat - (if s then -1 else 1) * ((n : ℚ) / d)|
      ≤ max (1 / 2 ^ 1075) ((n : ℚ) / d / 2 ^ 53) := by
  obtain ⟨h1, h3⟩ := round_spec s n d hd hfin
  have h4 := nearest_spec (n * 2 ^ 1074) (d * 2 ^ ulpExp n d) (by positivity)
  rw [toRat_eq, round_sign, h1, abs_signed_sub]
  generalize ulpExp n d = t at h3 h4 ⊢
  generalize nearest (n * 2 ^ 1074) (d * 2 ^ t) = q at h4 ⊢
  have hdq : (0 : ℚ) < d := by exact_mod_cast hd
  have e1074 : (2 : ℚ) ^ 1074 = 2 ^ 1022 * 2 ^ 52 := by rw [← pow_add]
  have e1075 : (2 : ℚ) ^ 1075 = 2 * (2 ^ 1022 * 2 ^ 52) := by
    rw [← pow_add, ← pow_succ']
  have e53 : (2 : ℚ) ^ 53 = 2 * 2 ^ 52 := by rw [← pow_succ']
  have g1 : (2 : ℚ) * (q * (d * 2 ^ t)) ≤ 2 * (n * 2 ^ 1074) + d * 2 ^ t := by
    exact_mod_cast h4.1
  have g2 : (2 : ℚ) * (n * 2 ^ 1074) ≤ 2 * (q * (d * 2 ^ t)) + d * 2 ^ t := by
    exact_mod_cast h4.2
  have g3 : t = 0 ∨ (d : ℚ) * 2 ^ t ≤ n * 2 ^ 1022 := by
    rcases Nat.eq_zero_or_pos t with h0 | h0
    · exact Or.inl h0
    · right; exact_mod_cast h3 h0
  push_cast
  clear h3 h4 hfin h1
  rw [e1074] at g1 g2 ⊢
  rw [e1075, e53]
  have hA : (0 : ℚ) < 2 ^ 1022 := by positivity
  have hB : (0 : ℚ) < 2 ^ 52 := by positivity
  have hT : (0 : ℚ) < 2 ^ t := by positivity
  have hT0 : t = 0 → (2 : ℚ) ^ t = 1 := by intro h; rw [h]; simp
  generalize (2 : ℚ) ^ 1022 = A at *
  generalize (2 : ℚ) ^ 52 = B at *
  generalize (2 : ℚ) ^ t = T at *
  generalize (q : ℚ) = Q at *
  generalize (n : ℚ) = N at *
  generalize (d : ℚ) = D at *
  have hAB : 0 < A * B := mul_pos hA hB
  have key : |Q * T / (A * B) - N / D| ≤ T / (2 * (A * B)) := by
    have e : Q * T / (A * B) - N / D = (Q * (D * T) - N * (A * B)) / (A * B * D) := by
      field_simp; ring
    have e2 : T / (2 * (A * B)) = (D * T / 2) / (A * B * D) := by
      field_simp; ring
    rw [e, e2, abs_div, abs_of_pos (mul_pos hAB hdq)]
    apply div_le_div_of_nonneg_right _ (le_of_lt (mul_pos hAB hdq))
    rw [abs_le]
    constructor <;> linarith
  refine le_trans key ?_
  rcases g3 with h0 | h0
  · rw [hT0 h0]
    exact le_max_left _ _
  · refine le_trans ?_ (le_max_right _ _)
    have hND : T ≤ N / D * A := by
      rw [div_mul_eq_mul_div, le_div_iff₀ hdq]
      linarith
    have e3 : N / D / (2 * B) = N / D * A / (2 * (A * B)) := by
      field_simp; ring
    rw [e3]
    exact div_le_div_of_nonneg_right hND (by positivity)

end Double

/-! ## The square root -/

namespace Double

/-- A double that is positive and finite: where sqrt takes the rounding branch. -/
theorem sqrt_pos_eq (x : Double) (h1 : x.isNaN = false) (h2 : x.isZero = false)
    (h3 : x.sign = false) (h4 : x.isInf = false) :
    sqrt x = pack false (x.halfExp + 485)
      (sqrtNearest (x.mant * 2 ^ (x.shift + 104 - 2 * x.halfExp))) := by
  unfold sqrt
  simp only [h1, h2, h3, h4, Bool.false_eq_true, if_false]

theorem mant_bounds (x : Double) (h2 : x.isZero = false) :
    1 ≤ x.mant ∧ x.mant < 9007199254740992 := by
  obtain ⟨s, e, f⟩ := x
  have hf := f.isLt
  simp only [isZero, Bool.and_eq_false_imp, beq_iff_eq, beq_eq_false_iff_ne, ne_eq] at h2
  simp only [mant]
  split_ifs with h
  · exact ⟨by have := h2 h; omega, by omega⟩
  · omega

theorem shift_bound (x : Double) : x.shift ≤ 2046 := by
  have := x.expo.isLt
  simp only [shift]; omega

theorem sqrt_spec (x : Double) (h1 : x.isNaN = false) (h2 : x.isZero = false)
    (h3 : x.sign = false) (h4 : x.isInf = false) :
    ∃ q t v : Nat, (sqrt x).num = q * 2 ^ t ∧ (sqrt x).isFinite = true ∧
      x.num * 2 ^ 1074 = v * 2 ^ (2 * t) ∧ q * q ≤ v + q ∧ v ≤ q * q + q ∧
      4503599627370496 ≤ q ∧ 485 ≤ t := by
  have c52 : (2 : ℕ) ^ 52 = 4503599627370496 := by norm_num
  have c53 : (2 : ℕ) ^ 53 = 9007199254740992 := by norm_num
  have c104 : (2 : ℕ) ^ 104 = 4503599627370496 * 4503599627370496 := by norm_num
  have c106 : (2 : ℕ) ^ 106 = 9007199254740992 * 9007199254740992 := by norm_num
  rw [sqrt_pos_eq x h1 h2 h3 h4]
  obtain ⟨m1, m2⟩ := mant_bounds x h2
  have hs := shift_bound x
  obtain ⟨l1, l2⟩ := ilog2_spec x.mant m1
  have hL : ilog2 x.mant ≤ 52 := by
    by_contra hc
    have : 2 ^ 53 ≤ 2 ^ ilog2 x.mant := Nat.pow_le_pow_right (by norm_num) (by omega)
    omega
  have hh : 2 * x.halfExp ≤ ilog2 x.mant + x.shift ∧
      ilog2 x.mant + x.shift ≤ 2 * x.halfExp + 1 := by
    simp only [halfExp]; omega
  generalize x.halfExp = h at hh ⊢
  generalize hv : x.mant * 2 ^ (x.shift + 104 - 2 * h) = v
  have hv1 : 2 ^ 104 ≤ v := by
    rw [← hv]
    calc 2 ^ 104 ≤ 2 ^ (ilog2 x.mant + (x.shift + 104 - 2 * h)) :=
          Nat.pow_le_pow_right (by norm_num) (by omega)
      _ = 2 ^ ilog2 x.mant * 2 ^ (x.shift + 104 - 2 * h) := pow_add 2 _ _
      _ ≤ x.mant * 2 ^ (x.shift + 104 - 2 * h) := Nat.mul_le_mul_right _ l1
  have hv2 : v < 2 ^ 106 := by
    rw [← hv]
    calc x.mant * 2 ^ (x.shift + 104 - 2 * h)
        < 2 ^ (ilog2 x.mant + 1) * 2 ^ (x.shift + 104 - 2 * h) :=
          Nat.mul_lt_mul_of_pos_right l2 (by positivity)
      _ = 2 ^ (ilog2 x.mant + 1 + (x.shift + 104 - 2 * h)) := (pow_add 2 _ _).symm
      _ ≤ 2 ^ 106 := Nat.pow_le_pow_right (by norm_num) (by omega)
  obtain ⟨r1, r2⟩ := isqrt_spec v
  obtain ⟨n1, n2, n3, n4⟩ := sqrtNearest_spec v
  have hq1 : 4503599627370496 ≤ isqrt v := by
    by_contra hc
    have : (isqrt v + 1) * (isqrt v + 1) ≤ 4503599627370496 * 4503599627370496 :=
      Nat.mul_le_mul (by omega) (by omega)
    omega
  have hq2 : isqrt v < 9007199254740992 := by
    by_contra hc
    have : 9007199254740992 * 9007199254740992 ≤ isqrt v * isqrt v :=
      Nat.mul_le_mul (by omega) (by omega)
    omega
  have hp := pack_num false (h + 485) (sqrtNearest v) (by omega) (Or.inr (by omega))
    (by omega)
  refine ⟨sqrtNearest v, h + 485, v, hp.1, hp.2, ?_, n3, n4, by omega, by omega⟩
  rw [← hv]
  simp only [num]
  have e : x.shift + 1074 = x.shift + 104 - 2 * h + 2 * (h + 485) := by omega
  rw [mul_assoc, ← pow_add, mul_assoc, ← pow_add, e]

theorem sqrt_sign (x : Double) (h3 : x.sign = false) : (sqrt x).sign = false := by
  unfold sqrt
  split_ifs
  · rfl
  · exact h3
  · rfl
  · exact h3
  · exact pack_sign _ _ _

/-- The rounding error of sqrt on a positive finite double: the result is finite, at
least 2^-537, and its exact square is within 2^-51 (relative) of the argument. -/
theorem sqrt_err (x : Double) (h1 : x.isNaN = false) (h2 : x.isZero = false)
    (h3 : x.sign = false) (h4 : x.isInf = false) :
    (sqrt x).isFinite = true ∧ 1 / 2 ^ 537 ≤ (sqrt x).toRat ∧
    |(sqrt x).toRat ^ 2 - x.toRat| ≤ x.toRat / 2 ^ 51 := by
  obtain ⟨q, t, v, hn, hf, hx, hq1, hq2, hq3, ht⟩ := sqrt_spec x h1 h2 h3 h4
  refine ⟨hf, ?_, ?_⟩
  · rw [toRat_eq, sqrt_sign x h3, hn]
    simp only [Bool.false_eq_true, if_false, one_mul]
    have hN : 2 ^ 537 ≤ q * 2 ^ t := by
      calc 2 ^ 537 = 2 ^ 52 * 2 ^ 485 := by rw [← pow_add]
        _ ≤ q * 2 ^ t := Nat.mul_le_mul (by norm_num; omega)
            (Nat.pow_le_pow_right (by norm_num) ht)
    have hQ : (2 : ℚ) ^ 537 ≤ ((q * 2 ^ t : ℕ) : ℚ) := by exact_mod_cast hN
    have e : (2 : ℚ) ^ 1074 = 2 ^ 537 * 2 ^ 537 := by rw [← pow_add]
    rw [e]
    clear hN hx
    have hP : (0 : ℚ) < 2 ^ 537 := by positivity
    generalize (2 : ℚ) ^ 537 = P at *
    generalize ((q * 2 ^ t : ℕ) : ℚ) = M at *
    rw [div_le_div_iff₀ hP (mul_pos hP hP)]
    nlinarith
  · rw [toRat_eq, toRat_eq, sqrt_sign x h3, h3, hn]
    simp only [Bool.false_eq_true, if_false, one_mul]
    have hv51 : q * 2251799813685248 ≤ v := by
      have : q * 4503599627370496 ≤ q * q := Nat.mul_le_mul_left q hq3
      omega
    have g0 : (x.num : ℚ) * 2 ^ 1074 = v * (2 ^ t) ^ 2 := by
      rw [← pow_mul, mul_comm t 2]; exact_mod_cast hx
    have g1 : (q : ℚ) * q ≤ v + q := by exact_mod_cast hq1
    have g2 : (v : ℚ) ≤ q * q + q := by exact_mod_cast hq2
    have g3 : (q : ℚ) * 2 ^ 51 ≤ v := by
      have : (q : ℚ) * 2251799813685248 ≤ v := by exact_mod_cast hv51
      norm_num; exact this
    clear hx hq1 hq2 hq3 ht hn hf hv51
    push_cast
    have hP : (0 : ℚ) < 2 ^ 1074 := by positivity
    have hT : (0 : ℚ) < 2 ^ t := by positivity
    have hC : (0 : ℚ) < 2 ^ 51 := by positivity
    generalize (2 : ℚ) ^ 1074 = P at *
    generalize (2 : ℚ) ^ t = T at *
    generalize (2 : ℚ) ^ 51 = C at *
    generalize (q : ℚ) = Q at *
    generalize (v : ℚ) = V at *
    generalize (x.num : ℚ) = N at *
    have hN : N = V * T ^ 2 / P := by
      rw [eq_div_iff hP.ne']; exact g0
    have e1 : (Q * T / P) ^ 2 - N / P = (Q * Q - V) * (T ^ 2 / P ^ 2) := by
      rw [hN]; field_simp; ring
    have e2 : N / P / C = (V / C) * (T ^ 2 / P ^ 2) := by
      rw [hN, div_div, div_div, div_mul_div_comm]
      congr 1; ring
    have hpos : 0 < T ^ 2 / P ^ 2 := by positivity
    rw [e1, e2, abs_mul, abs_of_pos hpos]
    apply mul_le_mul_of_nonneg_right _ (le_of_lt hpos)
    have hQV : Q ≤ V / C := by
      rw [le_div_iff₀ hC]; exact g3
    rw [abs_le]
    constructor <;> linarith

end Double

/-! ## The arithmetic operations on finite doubles -/

namespace Double

theorem not_special_of_isFinite (x : Double) (h : x.isFinite = true) :
    x.isNaN = false ∧ x.isInf = false := by
  simp only [isFinite, bne_iff_ne, ne_eq] at h
  simp only [isNaN, isInf, Bool.and_eq_false_imp, beq_iff_eq]
  exact ⟨fun h1 => absurd h1 h, fun h1 => absurd h1 h⟩

theorem isFinite_of_not_special (x : Double) (h1 : x.isNaN = false) (h2 : x.isInf = false) :
    x.isFinite = true := by
  simp only [isFinite, bne_iff_ne, ne_eq]
  intro hc
  simp only [isNaN, isInf, hc, beq_self_eq_true, Bool.true_and] at h1 h2
  cases h : (x.frac.val == 0)
  · rw [bne, h] at h1; exact absurd h1 (by decide)
  · rw [h] at h2; exact absurd h2 (by decide)

theorem num_eq_zero_iff (x : Double) : x.num = 0 ↔ x.isZero = true := by
  obtain ⟨s, e, f⟩ := x
  simp only [num, mant, isZero, Bool.and_eq_true, beq_iff_eq, mul_eq_zero,
    pow_eq_zero_iff', OfNat.ofNat_ne_zero, false_and, or_false]
  split_ifs with h
  · exact ⟨fun h1 => ⟨h, h1⟩, fun h1 => h1.2⟩
  · constructor
    · intro h1; omega
    · intro h1; exact absurd h1.1 h

theorem toRat_nonneg (x : Double) (h : x.sign = false) : 0 ≤ x.toRat := by
  rw [toRat_eq, h]
  simp only [Bool.false_eq_true, if_false, one_mul]
  positivity

theorem toRat_pos (x : Double) (h : x.sign = false) (hz : x.isZero = false) :
    0 < x.toRat := by
  rw [toRat_eq, h]
  simp only [Bool.false_eq_true, if_false, one_mul]
  have : x.num ≠ 0 := by
    intro hc
    rw [(num_eq_zero_iff x).1 hc] at hz
    exact absurd hz (by decide)
  have : 0 < x.num := Nat.pos_of_ne_zero this
  positivity

theorem isZero_of_toRat (x : Double) (h : x.toRat = 0) : x.isZero = true := by
  rw [toRat_eq] at h
  have h2 : (x.num : ℚ) = 0 := by
    rcases mul_eq_zero.1 h with h1 | h1
    · cases hs : x.sign <;> simp [hs] at h1
    · have hp : (2 : ℚ) ^ 1074 ≠ 0 := by positivity
      exact (div_eq_zero_iff.1 h1).resolve_right hp
  exact (num_eq_zero_iff x).1 (by exact_mod_cast h2)

theorem abs_toRat (x : Double) : |x.toRat| = (x.num : ℚ) / 2 ^ 1074 := by
  rw [toRat_eq]
  have hp : (0 : ℚ) ≤ (x.num : ℚ) / 2 ^ 1074 := by positivity
  cases x.sign
  · simp only [Bool.false_eq_true, if_false, one_mul]; exact abs_of_nonneg hp
  · simp only [if_true, neg_mul, one_mul, abs_neg]; exact abs_of_nonneg hp

theorem round_isFinite_rat (s : Bool) (n d : Nat) (hd : 0 < d)
    (h : (n : ℚ) / d < 2 ^ 1023) : (round s n d).isFinite = true := by
  apply round_isFinite s n d hd
  have hdq : (0 : ℚ) < d := by exact_mod_cast hd
  rw [div_lt_iff₀ hdq] at h
  have h2 : n < 2 ^ 1023 * d := by exact_mod_cast h
  calc n * 2 ^ 1022 < 2 ^ 1023 * d * 2 ^ 1022 :=
        Nat.mul_lt_mul_of_pos_right h2 (by positivity)
    _ = d * 2 ^ 2045 := by
        rw [mul_comm (2 ^ 1023) d, mul_assoc, ← pow_add]

theorem mul_self_eq (x : Double) (h : x.isFinite = true) :
    mul x x = round false (x.num * x.num) (2 ^ 2148) := by
  obtain ⟨h1, h2⟩ := not_special_of_isFinite x h
  unfold mul
  simp only [h1, h2, Bool.or_self, Bool.false_eq_true, if_false, bne_self_eq_false]

theorem sq_toRat (x : Double) :
    x.toRat ^ 2 = ((x.num * x.num : ℕ) : ℚ) / ((2 ^ 2148 : ℕ) : ℚ) := by
  rw [← sq_abs, abs_toRat]
  push_cast
  have e : (2 : ℚ) ^ 2148 = 2 ^ 1074 * 2 ^ 1074 := by rw [← pow_add]
  rw [e, div_pow, sq, sq]

/-- The rounding error of a square x * x that does not overflow. -/
theorem mul_self_err (x : Double) (h : x.isFinite = true)
    (hf : (mul x x).isFinite = true) :
    |(mul x x).toRat - x.toRat ^ 2| ≤ max (1 / 2 ^ 1075) (x.toRat ^ 2 / 2 ^ 53) := by
  rw [mul_self_eq x h] at hf ⊢
  have := round_err false (x.num * x.num) (2 ^ 2148) (by positivity) hf
  simp only [Bool.false_eq_true, if_false, one_mul] at this
  rw [sq_toRat]
  exact this

theorem mul_self_isFinite (x : Double) (h : x.isFinite = true)
    (hlt : x.toRat ^ 2 < 2 ^ 1023) : (mul x x).isFinite = true := by
  rw [mul_self_eq x h]
  apply round_isFinite_rat false _ _ (by positivity)
  rw [← sq_toRat]; exact hlt

theorem add_eq (x y : Double) (hx : x.isFinite = true) (hy : y.isFinite = true)
    (sx : x.sign = false) (sy : y.sign = false) :
    add x y = round false (x.num + y.num) (2 ^ 1074) := by
  obtain ⟨h1, h2⟩ := not_special_of_isFinite x hx
  obtain ⟨h3, h4⟩ := not_special_of_isFinite y hy
  unfold add
  simp only [h1, h2, h3, h4, sx, sy, Bool.or_self, Bool.false_eq_true, if_false, if_true]

theorem add_toRat (x y : Double) (sx : x.sign = false) (sy : y.sign = false) :
    x.toRat + y.toRat = ((x.num + y.num : ℕ) : ℚ) / ((2 ^ 1074 : ℕ) : ℚ) := by
  rw [toRat_eq, toRat_eq, sx, sy]
  simp only [Bool.false_eq_true, if_false, one_mul]
  push_cast
  rw [add_div]

/-- The rounding error of a sum of two non-negative doubles that does not overflow. -/
theorem add_err (x y : Double) (hx : x.isFinite = true) (hy : y.isFinite = true)
    (sx : x.sign = false) (sy : y.sign = false) (hf : (add x y).isFinite = true) :
    |(add x y).toRat - (x.toRat + y.toRat)|
      ≤ max (1 / 2 ^ 1075) ((x.toRat + y.toRat) / 2 ^ 53) := by
  rw [add_eq x y hx hy sx sy] at hf ⊢
  have := round_err false (x.num + y.num) (2 ^ 1074) (by positivity) hf
  simp only [Bool.false_eq_true, if_false, one_mul] at this
  rw [add_toRat x y sx sy]
  exact this

theorem add_isFinite (x y : Double) (hx : x.isFinite = true) (hy : y.isFinite = true)
    (sx : x.sign = false) (sy : y.sign = false)
    (hlt : x.toRat + y.toRat < 2 ^ 1023) : (add x y).isFinite = true := by
  rw [add_eq x y hx hy sx sy]
  apply round_isFinite_rat false _ _ (by positivity)
  rw [← add_toRat x y sx sy]; exact hlt

theorem isFinite_nan : nan.isFinite = false := rfl

theorem isFinite_inf (s : Bool) : (inf s).isFinite = false := rfl

theorem isFinite_zero (s : Bool) : (zero s).isFinite = true := rfl

theorem not_isFinite_of_isNaN (x : Double) (h : x.isNaN = true) : x.isFinite = false := by
  simp only [isNaN, Bool.and_eq_true, beq_iff_eq] at h
  simp only [isFinite, h.1]; rfl

theorem not_isFinite_of_isInf (x : Double) (h : x.isInf = true) : x.isFinite = false := by
  simp only [isInf, Bool.and_eq_true, beq_iff_eq] at h
  simp only [isFinite, h.1]; rfl

theorem isFinite_iff (x : Double) :
    x.isFinite = true ↔ (x.isNaN = false ∧ x.isInf = false) :=
  ⟨not_special_of_isFinite x, fun h => isFinite_of_not_special x h.1 h.2⟩

theorem sqrt_arg_isFinite (x : Double) (h : (sqrt x).isFinite = true) :
    x.isFinite = true := by
  rw [isFinite_iff]
  constructor
  · by_contra hc
    simp only [Bool.not_eq_false] at hc
    unfold sqrt at h
    simp only [hc, if_true] at h
    exact absurd h (by decide)
  · by_contra hc
    simp only [Bool.not_eq_false] at hc
    have h1 := isNaN_of_isInf x hc
    have h2 := isZero_of_isInf x hc
    unfold sqrt at h
    simp only [h1, h2, hc, Bool.false_eq_true, if_false, if_true] at h
    split_ifs at h
    · exact absurd h (by decide)
    · rw [not_isFinite_of_isInf x hc] at h
      exact absurd h (by decide)

theorem add_args_isFinite (x y : Double) (h : (add x y).isFinite = true) :
    x.isFinite = true ∧ y.isFinite = true := by
  cases h1 : x.isNaN
  · cases h3 : y.isNaN
    · cases h2 : x.isInf
      · cases h4 : y.isInf
        · exact ⟨isFinite_of_not_special x h1 h2, isFinite_of_not_special y h3 h4⟩
        · unfold add at h
          simp only [h1, h2, h3, h4, Bool.or_self, Bool.false_eq_true, if_false,
            if_true] at h
          rw [not_isFinite_of_isInf y h4] at h
          exact absurd h (by decide)
      · unfold add at h
        simp only [h1, h2, h3, Bool.or_self, Bool.false_eq_true, if_false, if_true] at h
        split_ifs at h
        · exact absurd h (by decide)
        · rw [not_isFinite_of_isInf x h2] at h
          exact absurd h (by decide)
    · unfold add at h
      simp only [h3, Bool.or_true, if_true] at h
      exact absurd h (by decide)
  · unfold add at h
    simp only [h1, Bool.true_or, if_true] at h
    exact absurd h (by decide)

theorem mul_self_arg_isFinite (x : Double) (h : (mul x x).isFinite = true) :
    x.isFinite = true := by
  cases h1 : x.isNaN
  · cases h2 : x.isInf
    · exact isFinite_of_not_special x h1 h2
    · unfold mul at h
      simp only [h1, h2, Bool.or_self, Bool.false_eq_true, if_false, if_true,
        isZero_of_isInf x h2, bne_self_eq_false] at h
      exact absurd h (by decide)
  · unfold mul at h
    simp only [h1, Bool.or_self, if_true] at h
    exact absurd h (by decide)

theorem div_eq (x y : Double) (hx : x.isFinite = true) (hy : y.isFinite = true)
    (hz : y.isZero = false) :
    div x y = round (x.sign != y.sign) x.num y.num := by
  obtain ⟨h1, h2⟩ := not_special_of_isFinite x hx
  obtain ⟨h3, h4⟩ := not_special_of_isFinite y hy
  unfold div
  simp only [h1, h2, h3, h4, hz, Bool.or_self, Bool.false_eq_true, if_false]

theorem num_pos (y : Double) (hz : y.isZero = false) : 0 < y.num := by
  apply Nat.pos_of_ne_zero
  intro hc
  rw [(num_eq_zero_iff y).1 hc] at hz
  exact absurd hz (by decide)

theorem div_toRat (x y : Double) (hz : y.isZero = false) :
    x.toRat / y.toRat
      = (if (x.sign != y.sign) = true then -1 else 1) * ((x.num : ℚ) / (y.num : ℚ)) := by
  have hy : (0 : ℚ) < y.num := by exact_mod_cast num_pos y hz
  have hp : (0 : ℚ) < 2 ^ 1074 := by positivity
  have hab : ((x.num : ℚ) / 2 ^ 1074) / ((y.num : ℚ) / 2 ^ 1074)
      = (x.num : ℚ) / (y.num : ℚ) := by
    field_simp
  rw [toRat_eq, toRat_eq]
  generalize (x.num : ℚ) / 2 ^ 1074 = a at hab ⊢
  generalize (y.num : ℚ) / 2 ^ 1074 = b at hab ⊢
  rw [← hab]
  cases x.sign <;> cases y.sign <;>
    simp only [Bool.false_eq_true, if_false, if_true, one_mul, neg_mul, bne_self_eq_false,
      Bool.bne_true, Bool.bne_false, Bool.not_false, Bool.not_true, div_neg, neg_div,
      neg_neg]

theorem abs_div_toRat (x y : Double) (hz : y.isZero = false) :
    |x.toRat / y.toRat| = (x.num : ℚ) / (y.num : ℚ) := by
  have hy : (0 : ℚ) < y.num := by exact_mod_cast num_pos y hz
  have hp : (0 : ℚ) < 2 ^ 1074 := by positivity
  rw [abs_div, abs_toRat, abs_toRat]
  field_simp

/-- The rounding error of a quotient that does not overflow. -/
theorem div_err (x y : Double) (hx : x.isFinite = true) (hy : y.isFinite = true)
    (hz : y.isZero = false) (hf : (div x y).isFinite = true) :
    |(div x y).toRat - x.toRat / y.toRat|
      ≤ max (1 / 2 ^ 1075) (|x.toRat / y.toRat| / 2 ^ 53) := by
  rw [div_eq x y hx hy hz] at hf ⊢
  have := round_err (x.sign != y.sign) x.num y.num (num_pos y hz) hf
  rw [abs_div_toRat x y hz, div_toRat x y hz]
  exact this

theorem div_isFinite (x y : Double) (hx : x.isFinite = true) (hy : y.isFinite = true)
    (hz : y.isZero = false) (hlt : |x.toRat / y.toRat| < 2 ^ 1023) :
    (div x y).isFinite = true := by
  rw [div_eq x y hx hy hz]
  apply round_isFinite_rat _ _ _ (num_pos y hz)
  rw [← abs_div_toRat x y hz]; exact hlt

theorem div_sign (x y : Double) (hx : x.isFinite = true) (hy : y.isFinite = true)
    (hz : y.isZero = false) : (div x y).sign = (x.sign != y.sign) := by
  rw [div_eq x y hx hy hz]
  exact round_sign _ _ _

end Double

/-! ## Inner product and magnitude -/

theorem Double.toRat_of_isZero (x : Double) (h : x.isZero = true) : x.toRat = 0 := by
  rw [Double.toRat_eq, (Double.num_eq_zero_iff x).2 h]
  simp

theorem Double.eq_inf_of_isInf (x : Double) (h : x.isInf = true) (hs : x.sign = false) :
    x = Double.inf false := by
  obtain ⟨s, e, f⟩ := x
  simp only [Double.isInf, Bool.and_eq_true, beq_iff_eq] at h
  simp only at hs
  subst hs
  have he : e = 2047 := Fin.ext h.1
  have hf : f = 0 := Fin.ext h.2
  subst he; subst hf
  rfl

theorem Double.isSquareOf_sqrt (a : Double) (h : a.nonneg = true) :
    Double.isSquareOf a (Double.sqrt a) := by
  simp only [Double.nonneg, Bool.and_eq_true, Bool.not_eq_true'] at h
  obtain ⟨h1, h3⟩ := h
  cases h4 : a.isInf
  · right
    have hfin := Double.isFinite_of_not_special a h1 h4
    cases h2 : a.isZero
    · obtain ⟨g1, _, g3⟩ := Double.sqrt_err a h1 h2 h3 h4
      refine ⟨hfin, g1, ?_⟩
      rw [abs_of_nonneg (Double.toRat_nonneg a h3)]
      exact g3
    · have e : Double.sqrt a = a := by
        unfold Double.sqrt
        simp only [h1, h2, Bool.false_eq_true, if_false, if_true]
      rw [e, Double.toRat_of_isZero a h2]
      exact ⟨hfin, hfin, by norm_num⟩
  · left
    have e : Double.sqrt a = a := by
      unfold Double.sqrt
      simp only [h1, h3, h4, Double.isZero_of_isInf a h4, Bool.false_eq_true, if_false,
        if_true]
    rw [e]
    exact ⟨Double.eq_inf_of_isInf a h4 h3, Double.eq_inf_of_isInf a h4 h3⟩

/-- C4, as stated, fails: for the electric field (NaN, 0, 0) the inner product is NaN,
which is the square of nothing within any tolerance. -/
theorem innerProduct_sq_fails :
    ¬ Double.isSquareOf
      ((Electric_Field.ctor3 Double.nan (Double.zero false) (Double.zero false)
        Store.empty).1.innerProduct
        (Electric_Field.ctor3 Double.nan (Double.zero false) (Double.zero false)
          Store.empty).2)
      ((Electric_Field.ctor3 Double.nan (Double.zero false) (Double.zero false)
        Store.empty).1.calculateMagnitude
        (Electric_Field.ctor3 Double.nan (Double.zero false) (Double.zero false)
          Store.empty).2) := by
  have h : (Electric_Field.ctor3 Double.nan (Double.zero false) (Double.zero false)
      Store.empty).1.innerProduct
      (Electric_Field.ctor3 Double.nan (Double.zero false) (Double.zero false)
        Store.empty).2 = Double.nan := by decide!
  rw [h]
  rintro (⟨h1, _⟩ | ⟨h1, _⟩)
  · exact absurd h1 (by decide)
  · exact absurd h1 (by decide)

/-- C4, amended: for every Electric_Field none of whose components is NaN, the value of
innerProduct is the square of the value of calculateMagnitude within floating-point
tolerance (both +infinity, or both finite with relative difference at most 2^-51), and
the same holds for the calculateMagnitude of a Magnetic_Field with the same components. -/
theorem innerProduct_sq (s : Store) (e : Electric_Field) (b : Magnetic_Field)
    (hn : (e.getX s).isNaN = false ∧ (e.getY s).isNaN = false ∧ (e.getZ s).isNaN = false)
    (hb : b.components s = e.components s) :
    Double.isSquareOf (e.innerProduct s) (e.calculateMagnitude s) ∧
    Double.isSquareOf (e.innerProduct s) (b.calculateMagnitude s) := by
  have hnn : (e.innerProduct s).nonneg = true :=
    Double.nonneg_sumsq _ _ _ hn.1 hn.2.1 hn.2.2
  have h1 : e.calculateMagnitude s = Double.sqrt (e.innerProduct s) := rfl
  have h2 : b.calculateMagnitude s = Double.sqrt (e.innerProduct s) := by
    simp only [Magnetic_Field.components, Electric_Field.components, Prod.mk.injEq,
      Magnetic_Field.getX, Magnetic_Field.getY, Magnetic_Field.getZ,
      Electric_Field.getX, Electric_Field.getY, Electric_Field.getZ] at hb
    unfold Magnetic_Field.calculateMagnitude Electric_Field.innerProduct
    rw [hb.1, hb.2.1, hb.2.2]
  rw [h1, h2]
  exact ⟨Double.isSquareOf_sqrt _ hnn, Double.isSquareOf_sqrt _ hnn⟩

/-- C4, amended, at E_components of main and a magnetic field with its components. -/
theorem innerProduct_sq_witness :
    ((⟨1⟩ : Electric_Field).getX (Magnetic_Field.ctor3 (Double.lit 100000 1)
        (Double.lit 109 10) (Double.lit 170 1) mainStore).2).isNaN = false ∧
    Double.isSquareOf
      ((⟨1⟩ : Electric_Field).innerProduct (Magnetic_Field.ctor3 (Double.lit 100000 1)
        (Double.lit 109 10) (Double.lit 170 1) mainStore).2)
      ((⟨6⟩ : Magnetic_Field).calculateMagnitude (Magnetic_Field.ctor3
        (Double.lit 100000 1) (Double.lit 109 10) (Double.lit 170 1) mainStore).2) :=
  ⟨by decide!, (innerProduct_sq (Magnetic_Field.ctor3 (Double.lit 100000 1)
    (Double.lit 109 10) (Double.lit 170 1) mainStore).2 ⟨1⟩ ⟨6⟩
    ⟨by decide!, by decide!, by decide!⟩ (by decide!)).2⟩

/-! ## Error analysis of the magnitude -/

theorem Electric_Field.calculateMagnitude_eq_E (e : Electric_Field) (s : Store) :
    e.calculateMagnitude s = Double.norm3 (e.getX s) (e.getY s) (e.getZ s) := rfl

theorem Magnetic_Field.calculateMagnitude_eq_B (b : Magnetic_Field) (s : Store) :
    b.calculateMagnitude s = Double.norm3 (b.getX s) (b.getY s) (b.getZ s) := rfl

namespace Double

/-- One rounding, in the form used by the analysis: an error of at most e + v / 2^53. -/
theorem err_split (r v e : ℚ) (hv : 0 ≤ v) (he : 0 ≤ e)
    (h : |r - v| ≤ max e (v / 2 ^ 53)) :
    v - (e + v / 2 ^ 53) ≤ r ∧ r ≤ v + (e + v / 2 ^ 53) := by
  have h1 : max e (v / 2 ^ 53) ≤ e + v / 2 ^ 53 :=
    max_le (by linarith [div_nonneg hv (by positivity : (0 : ℚ) ≤ 2 ^ 53)]) (by linarith)
  have h2 := abs_le.1 (le_trans h h1)
  constructor <;> linarith [h2.1, h2.2]

theorem sign_of_nonneg (x : Double) (h : x.nonneg = true) : x.sign = false := by
  simp only [nonneg, Bool.and_eq_true, Bool.not_eq_true'] at h
  exact h.2

/-- The parts of a finite sum of squares: the components and the intermediate results
are finite, and each of the five operations commits one rounding error. -/
theorem sumsq_parts (x y z : Double) (hf : (sumsq x y z).isFinite = true) :
    (x.isFinite = true ∧ y.isFinite = true ∧ z.isFinite = true) ∧
    (0 ≤ (mul x x).toRat ∧ 0 ≤ (mul y y).toRat ∧ 0 ≤ (mul z z).toRat ∧
      0 ≤ (add (mul x x) (mul y y)).toRat ∧ 0 ≤ (sumsq x y z).toRat) ∧
    (sumsq x y z).sign = false ∧
    |(mul x x).toRat - x.toRat ^ 2| ≤ max (1 / 2 ^ 1075) (x.toRat ^ 2 / 2 ^ 53) ∧
    |(mul y y).toRat - y.toRat ^ 2| ≤ max (1 / 2 ^ 1075) (y.toRat ^ 2 / 2 ^ 53) ∧
    |(mul z z).toRat - z.toRat ^ 2| ≤ max (1 / 2 ^ 1075) (z.toRat ^ 2 / 2 ^ 53) ∧
    |(add (mul x x) (mul y y)).toRat - ((mul x x).toRat + (mul y y).toRat)|
      ≤ max (1 / 2 ^ 1075) (((mul x x).toRat + (mul y y).toRat) / 2 ^ 53) ∧
    |(sumsq x y z).toRat - ((add (mul x x) (mul y y)).toRat + (mul z z).toRat)|
      ≤ max (1 / 2 ^ 1075)
        (((add (mul x x) (mul y y)).toRat + (mul z z).toRat) / 2 ^ 53) := by
  unfold sumsq at hf ⊢
  obtain ⟨fp, fc⟩ := add_args_isFinite _ _ hf
  obtain ⟨fa, fb⟩ := add_args_isFinite _ _ fp
  have fx := mul_self_arg_isFinite x fa
  have fy := mul_self_arg_isFinite y fb
  have fz := mul_self_arg_isFinite z fc
  have na := nonneg_mul_self x (not_special_of_isFinite x fx).1
  have nb := nonneg_mul_self y (not_special_of_isFinite y fy).1
  have nc := nonneg_mul_self z (not_special_of_isFinite z fz).1
  have np := nonneg_add _ _ na nb
  have ns := nonneg_add _ _ np nc
  have sa := sign_of_nonneg _ na
  have sb := sign_of_nonneg _ nb
  have sc := sign_of_nonneg _ nc
  have sp := sign_of_nonneg _ np
  have ss := sign_of_nonneg _ ns
  exact ⟨⟨fx, fy, fz⟩,
    ⟨toRat_nonneg _ sa, toRat_nonneg _ sb, toRat_nonneg _ sc, toRat_nonneg _ sp,
      toRat_nonneg _ ss⟩, ss,
    mul_self_err x fx fa, mul_self_err y fy fb, mul_self_err z fz fc,
    add_err _ _ fa fb sa sb fp, add_err _ _ fp fc sp sc hf⟩

theorem abs_le_of_sq_le (X M : ℚ) (hM : 0 ≤ M) (h : X ^ 2 ≤ M ^ 2) : |X| ≤ M := by
  by_contra hc
  push_neg at hc
  have h1 : M ^ 2 < |X| ^ 2 := by nlinarith
  rw [sq_abs] at h1
  linarith

/-- A component is at most 2^37 times a magnitude that satisfies the sqrt bounds, if
half its square is at most the sum whenever the square is at least 2^-1000. -/
theorem comp_le (X M S : ℚ) (hM : 1 / 2 ^ 537 ≤ M) (hms : |M ^ 2 - S| ≤ S / 2 ^ 51)
    (hS : 1 / 2 ^ 1000 ≤ X ^ 2 → X ^ 2 / 2 ≤ S) : |X| ≤ 2 ^ 37 * M := by
  have hM0 : 0 < M := lt_of_lt_of_le (by positivity) hM
  by_cases h : 1 / 2 ^ 1000 ≤ X ^ 2
  · have h1 := hS h
    have h2 := (abs_le.1 hms).1
    have h3 : X ^ 2 ≤ (2 * M) ^ 2 := by
      have : X ^ 2 / 4 ≤ M ^ 2 := by
        norm_num at h2 ⊢
        linarith
      nlinarith
    have h4 := abs_le_of_sq_le X (2 * M) (by linarith) h3
    have : (2 : ℚ) * M ≤ 2 ^ 37 * M := by
      apply mul_le_mul_of_nonneg_right _ hM0.le
      norm_num
    linarith
  · push_neg at h
    have h1 : |X| ≤ 1 / 2 ^ 500 := by
      apply abs_le_of_sq_le X _ (by positivity)
      have e : ((1 : ℚ) / 2 ^ 500) ^ 2 = 1 / 2 ^ 1000 := by
        rw [div_pow, one_pow, ← pow_mul]
      rw [e]; exact h.le
    have h2 : (1 : ℚ) / 2 ^ 500 = 2 ^ 37 * (1 / 2 ^ 537) := by
      rw [show (537 : ℕ) = 37 + 500 from rfl, pow_add]
      field_simp
    have h3 : (2 : ℚ) ^ 37 * (1 / 2 ^ 537) ≤ 2 ^ 37 * M :=
      mul_le_mul_of_nonneg_left hM (by positivity)
    linarith

theorem norm3_facts (x y z : Double) (hf : (norm3 x y z).isFinite = true)
    (hz : (norm3 x y z).isZero = false) :
    (sumsq x y z).isFinite = true ∧ (norm3 x y z).sign = false ∧
    1 / 2 ^ 537 ≤ (norm3 x y z).toRat ∧
    |(norm3 x y z).toRat ^ 2 - (sumsq x y z).toRat| ≤ (sumsq x y z).toRat / 2 ^ 51 := by
  unfold norm3 at hf hz ⊢
  have fs := sqrt_arg_isFinite _ hf
  obtain ⟨_, _, ss, _⟩ := sumsq_parts x y z fs
  obtain ⟨n1, n2⟩ := not_special_of_isFinite _ fs
  have hz2 : (sumsq x y z).isZero = false := by
    by_contra hc
    simp only [Bool.not_eq_false] at hc
    have e : sqrt (sumsq x y z) = sumsq x y z := by
      unfold sqrt
      simp only [n1, hc, Bool.false_eq_true, if_false, if_true]
    rw [e, hc] at hz
    exact absurd hz (by decide)
  obtain ⟨g1, g2, g3⟩ := sqrt_err _ n1 hz2 ss n2
  exact ⟨fs, sqrt_sign _ ss, g2, g3⟩

/-- Every component is at most 2^37 times a finite non-zero computed magnitude. -/
theorem comp_le_norm3 (x y z : Double) (hf : (norm3 x y z).isFinite = true)
    (hz : (norm3 x y z).isZero = false) :
    |x.toRat| ≤ 2 ^ 37 * (norm3 x y z).toRat ∧ |y.toRat| ≤ 2 ^ 37 * (norm3 x y z).toRat ∧
    |z.toRat| ≤ 2 ^ 37 * (norm3 x y z).toRat := by
  obtain ⟨fs, _, g2, g3⟩ := norm3_facts x y z hf hz
  obtain ⟨_, ⟨a0, b0, c0, p0, s0⟩, _, ea, eb, ec, ep, es⟩ := sumsq_parts x y z fs
  have hη : (0 : ℚ) ≤ 1 / 2 ^ 1075 := by positivity
  have eη : (1 : ℚ) / 2 ^ 1075 = 1 / 2 ^ 1000 / 2 ^ 75 := by
    rw [div_div, ← pow_add]
  obtain ⟨a1, _⟩ := err_split _ _ _ (sq_nonneg _) hη ea
  obtain ⟨b1, _⟩ := err_split _ _ _ (sq_nonneg _) hη eb
  obtain ⟨c1, _⟩ := err_split _ _ _ (sq_nonneg _) hη ec
  obtain ⟨p1, _⟩ := err_split _ _ _ (by linarith) hη ep
  obtain ⟨s1, _⟩ := err_split _ _ _ (by linarith) hη es
  rw [eη] at a1 b1 c1 p1 s1
  clear ea eb ec ep es eη hη
  generalize (mul x x).toRat = A at *
  generalize (mul y y).toRat = B at *
  generalize (mul z z).toRat = C at *
  generalize (add (mul x x) (mul y y)).toRat = P at *
  generalize (sumsq x y z).toRat = S at *
  refine ⟨comp_le _ _ S g2 g3 ?_, comp_le _ _ S g2 g3 ?_, comp_le _ _ S g2 g3 ?_⟩
  all_goals
    intro h
    clear g2 g3
    generalize (1 : ℚ) / 2 ^ 1000 = t at *
    norm_num at *
    linarith

end Double

/-! ## The direction of the unit vector -/

theorem Double.scalesTo_div (c m : Double) (fc : c.isFinite = true)
    (fm : m.isFinite = true) (hz : m.isZero = false) (sm : m.sign = false)
    (hb : |c.toRat| ≤ 2 ^ 37 * m.toRat) : Double.scalesTo (Double.div c m) m c := by
  have hM : 0 < m.toRat := Double.toRat_pos m sm hz
  have hq : |c.toRat / m.toRat| < 2 ^ 1023 := by
    rw [abs_div, abs_of_pos hM, div_lt_iff₀ hM]
    have h1 : (2 : ℚ) ^ 37 * m.toRat < 2 ^ 1023 * m.toRat := by
      apply mul_lt_mul_of_pos_right _ hM
      exact pow_lt_pow_right₀ (by norm_num) (by norm_num)
    linarith
  have fu := Double.div_isFinite c m fc fm hz hq
  have he := Double.div_err c m fc fm hz fu
  refine ⟨fu, ?_, ?_⟩
  · rw [Double.div_sign c m fc fm hz, sm]
    cases c.sign <;> rfl
  · have e1 : (Double.div c m).toRat * m.toRat - c.toRat
        = ((Double.div c m).toRat - c.toRat / m.toRat) * m.toRat := by
      field_simp
    have e2 : max (m.toRat / 2 ^ 1075) (|c.toRat| / 2 ^ 53)
        = max (1 / 2 ^ 1075) (|c.toRat / m.toRat| / 2 ^ 53) * m.toRat := by
      rw [max_mul_of_nonneg _ _ hM.le, abs_div, abs_of_pos hM]
      congr 1
      · field_simp
      · field_simp
        ring
    rw [e1, e2, abs_mul, abs_of_pos hM]
    exact mul_le_mul_of_nonneg_right he hM.le

/-- C3, as stated, fails: for the magnetic field (1, 2, 5) unitVector succeeds, but the
first output component multiplied by the magnitude is not 1, neither as the double
product ux * mag nor as the exact product of the two values. -/
theorem unitVector_direction_fails :
    ((⟨0⟩ : Magnetic_Field).unitVector (Magnetic_Field.ctor3 (Double.lit 1 1)
      (Double.lit 2 1) (Double.lit 5 1) Store.empty).2).1 = true ∧
    Double.eq
      (Double.mul ((⟨0⟩ : Magnetic_Field).unitVector (Magnetic_Field.ctor3 (Double.lit 1 1)
          (Double.lit 2 1) (Double.lit 5 1) Store.empty).2).2.1
        ((⟨0⟩ : Magnetic_Field).calculateMagnitude (Magnetic_Field.ctor3 (Double.lit 1 1)
          (Double.lit 2 1) (Double.lit 5 1) Store.empty).2))
      ((⟨0⟩ : Magnetic_Field).getX (Magnetic_Field.ctor3 (Double.lit 1 1)
          (Double.lit 2 1) (Double.lit 5 1) Store.empty).2) = false ∧
    ((⟨0⟩ : Magnetic_Field).unitVector (Magnetic_Field.ctor3 (Double.lit 1 1)
        (Double.lit 2 1) (Double.lit 5 1) Store.empty).2).2.1.toRat *
      ((⟨0⟩ : Magnetic_Field).calculateMagnitude (Magnetic_Field.ctor3 (Double.lit 1 1)
        (Double.lit 2 1) (Double.lit 5 1) Store.empty).2).toRat
      ≠ ((⟨0⟩ : Magnetic_Field).getX (Magnetic_Field.ctor3 (Double.lit 1 1)
        (Double.lit 2 1) (Double.lit 5 1) Store.empty).2).toRat := by
  refine ⟨by decide!, by decide!, by decide!⟩

/-- C3, amended: for every Magnetic_Field whose computed magnitude mag is finite and not
zero, unitVector succeeds with the double quotients (x/mag, y/mag, z/mag); each output
component is finite, has the sign of the original component, and multiplied by mag gives
the original component back up to the rounding of the division. -/
theorem unitVector_direction (s : Store) (b : Magnetic_Field)
    (hf : (b.calculateMagnitude s).isFinite = true)
    (hz : (b.calculateMagnitude s).isZero = false) :
    b.unitVector s = (true, Double.div (b.getX s) (b.calculateMagnitude s),
      Double.div (b.getY s) (b.calculateMagnitude s),
      Double.div (b.getZ s) (b.calculateMagnitude s)) ∧
    Double.scalesTo (b.unitVector s).2.1 (b.calculateMagnitude s) (b.getX s) ∧
    Double.scalesTo (b.unitVector s).2.2.1 (b.calculateMagnitude s) (b.getY s) ∧
    Double.scalesTo (b.unitVector s).2.2.2 (b.calculateMagnitude s) (b.getZ s) := by
  have hu := (Magnetic_Field.unitVector_eq s b).1
  rw [hz] at hu
  simp only [Bool.false_eq_true, if_false] at hu
  rw [hu]
  rw [Magnetic_Field.calculateMagnitude_eq_B] at hf hz ⊢
  obtain ⟨fs, sm, _, _⟩ := Double.norm3_facts _ _ _ hf hz
  obtain ⟨⟨fx, fy, fz⟩, _⟩ := Double.sumsq_parts _ _ _ fs
  obtain ⟨bx, by1, bz⟩ := Double.comp_le_norm3 _ _ _ hf hz
  exact ⟨rfl, Double.scalesTo_div _ _ fx hf hz sm bx, Double.scalesTo_div _ _ fy hf hz sm by1,
    Double.scalesTo_div _ _ fz hf hz sm bz⟩

/-- C3, amended, at B_components of main. -/
theorem unitVector_direction_witness :
    ((⟨4⟩ : Magnetic_Field).calculateMagnitude mainStore).isFinite = true ∧
    ((⟨4⟩ : Magnetic_Field).calculateMagnitude mainStore).isZero = false ∧
    Double.scalesTo ((⟨4⟩ : Magnetic_Field).unitVector mainStore).2.2.1
      ((⟨4⟩ : Magnetic_Field).calculateMagnitude mainStore)
      ((⟨4⟩ : Magnetic_Field).getY mainStore) :=
  ⟨by decide!, by decide!,
    (unitVector_direction mainStore ⟨4⟩ (by decide!) (by decide!)).2.2.1⟩

/-! ## The length of the unit vector -/

namespace Double
/-- The sum of three rounded squares, rounded twice: within 2^-51 of the exact sum. -/
theorem sumsq_err (X Y Z a b c p s e : ℚ) (hX : 0 ≤ X) (hY : 0 ≤ Y) (hZ : 0 ≤ Z)
    (he : 0 ≤ e) (heS : e ≤ (X + Y + Z) / 2 ^ 75)
    (ha : |a - X| ≤ max e (X / 2 ^ 53)) (hb : |b - Y| ≤ max e (Y / 2 ^ 53))
    (hc : |c - Z| ≤ max e (Z / 2 ^ 53))
    (ha0 : 0 ≤ a) (hb0 : 0 ≤ b) (hc0 : 0 ≤ c) (hp0 : 0 ≤ p)
    (hp : |p - (a + b)| ≤ max e ((a + b) / 2 ^ 53))
    (hs : |s - (p + c)| ≤ max e ((p + c) / 2 ^ 53)) :
    |s - (X + Y + Z)| ≤ (X + Y + Z) / 2 ^ 51 := by
  obtain ⟨a1, a2⟩ := err_split a X e hX he ha
  obtain ⟨b1, b2⟩ := err_split b Y e hY he hb
  obtain ⟨c1, c2⟩ := err_split c Z e hZ he hc
  obtain ⟨p1, p2⟩ := err_split p (a + b) e (by linarith) he hp
  obtain ⟨s1, s2⟩ := err_split s (p + c) e (by linarith) he hs
  rw [abs_le]
  norm_num at *
  constructor <;> linarith

/-- One component: if w differs from x by at most m / 2^75 + |x| / 2^53, the squares
differ by at most x^2 / 2^51 + m^2 / 2^74. -/
theorem sq_close (w x m : ℚ) (hm : 0 ≤ m)
    (h : |w - x| ≤ max (m / 2 ^ 1075) (|x| / 2 ^ 53)) :
    |w ^ 2 - x ^ 2| ≤ x ^ 2 / 2 ^ 51 + m ^ 2 / 2 ^ 74 := by
  have hk : m / 2 ^ 1075 ≤ m / 2 ^ 75 :=
    div_le_div_of_nonneg_left hm (by positivity)
      (pow_le_pow_right₀ (by norm_num) (by norm_num))
  have ha : 0 ≤ |x| := abs_nonneg x
  have hd : |w - x| ≤ m / 2 ^ 75 + |x| / 2 ^ 53 := by
    refine le_trans h (max_le ?_ ?_)
    · have : 0 ≤ |x| / 2 ^ 53 := by positivity
      linarith
    · have : 0 ≤ m / 2 ^ 75 := by positivity
      linarith
  have hx2 : |x| ^ 2 = x ^ 2 := sq_abs x
  have e : w ^ 2 - x ^ 2 = (w - x) * (w - x + 2 * x) := by ring
  have h2 : |w - x + 2 * x| ≤ |w - x| + 2 * |x| := by
    refine le_trans (abs_add _ _) ?_
    rw [abs_mul]; norm_num
  rw [e, abs_mul]
  have hD : 0 ≤ |w - x| := abs_nonneg _
  generalize |w - x| = d at *
  generalize |w - x + 2 * x| = f at *
  generalize |x| = a at *
  rw [← hx2]
  have h3 : d * f ≤ d * (d + 2 * a) := mul_le_mul_of_nonneg_left h2 hD
  have h4 : d * (d + 2 * a) ≤ (m / 2 ^ 75 + a / 2 ^ 53) * (m / 2 ^ 75 + a / 2 ^ 53 + 2 * a) := by
    apply mul_le_mul hd (by linarith) (by linarith) (by positivity)
  have h5 : 2 * (m * a) ≤ m ^ 2 + a ^ 2 := by nlinarith [sq_nonneg (m - a)]
  have h6 : (m / 2 ^ 75 + a / 2 ^ 53) * (m / 2 ^ 75 + a / 2 ^ 53 + 2 * a)
      ≤ a ^ 2 / 2 ^ 51 + m ^ 2 / 2 ^ 74 := by
    have hmm : 0 ≤ m ^ 2 := sq_nonneg m
    have haa : 0 ≤ a ^ 2 := sq_nonneg a
    have e6 : (m / 2 ^ 75 + a / 2 ^ 53) * (m / 2 ^ 75 + a / 2 ^ 53 + 2 * a)
        = m ^ 2 / 2 ^ 150 + a ^ 2 * (1 / 2 ^ 106 + 1 / 2 ^ 52)
          + 2 * (m * a) * (1 / 2 ^ 128 + 1 / 2 ^ 75) := by ring
    rw [e6]
    have h7 : 2 * (m * a) * (1 / 2 ^ 128 + 1 / 2 ^ 75)
        ≤ (m ^ 2 + a ^ 2) * (1 / 2 ^ 128 + 1 / 2 ^ 75) :=
      mul_le_mul_of_nonneg_right h5 (by positivity)
    norm_num at h7 ⊢
    linarith
  linarith

/-- The squared length of the output in terms of the errors committed. -/
theorem unit_close (X Y Z S' M U V W : ℚ) (hM : 0 < M)
    (hS : |S' - (X ^ 2 + Y ^ 2 + Z ^ 2)| ≤ (X ^ 2 + Y ^ 2 + Z ^ 2) / 2 ^ 51)
    (hms : |M ^ 2 - S'| ≤ S' / 2 ^ 51)
    (hU : |U * M - X| ≤ max (M / 2 ^ 1075) (|X| / 2 ^ 53))
    (hV : |V * M - Y| ≤ max (M / 2 ^ 1075) (|Y| / 2 ^ 53))
    (hW : |W * M - Z| ≤ max (M / 2 ^ 1075) (|Z| / 2 ^ 53)) :
    |U ^ 2 + V ^ 2 + W ^ 2 - 1| ≤ 1 / 2 ^ 49 := by
  have h1 := abs_le.1 (sq_close _ _ _ hM.le hU)
  have h2 := abs_le.1 (sq_close _ _ _ hM.le hV)
  have h3 := abs_le.1 (sq_close _ _ _ hM.le hW)
  have h4 := abs_le.1 hS
  have h5 := abs_le.1 hms
  have hM2 : 0 < M ^ 2 := by positivity
  have e : U ^ 2 + V ^ 2 + W ^ 2 - 1
      = ((U * M) ^ 2 + (V * M) ^ 2 + (W * M) ^ 2 - M ^ 2) / M ^ 2 := by
    field_simp
    ring
  rw [e, abs_div, abs_of_pos hM2, div_le_iff₀ hM2]
  have hX : 0 ≤ X ^ 2 := sq_nonneg X
  have hY : 0 ≤ Y ^ 2 := sq_nonneg Y
  have hZ : 0 ≤ Z ^ 2 := sq_nonneg Z
  generalize (U * M) ^ 2 = u at *
  generalize (V * M) ^ 2 = v at *
  generalize (W * M) ^ 2 = w at *
  generalize X ^ 2 = x at *
  generalize Y ^ 2 = y at *
  generalize Z ^ 2 = z at *
  generalize M ^ 2 = m at *
  rw [abs_le]
  norm_num at *
  constructor <;> linarith

theorem sq_le_of_abs_le (X : ℚ) (h : |X| ≤ 2 ^ 500) : X ^ 2 ≤ 2 ^ 1000 := by
  have h0 := abs_nonneg X
  have e : (2 : ℚ) ^ 1000 = 2 ^ 500 * 2 ^ 500 := by rw [← pow_add]
  rw [← sq_abs, e, sq]
  exact mul_le_mul h h h0 (by positivity)

theorem sq_ge_of_abs_ge (X : ℚ) (h : 1 / 2 ^ 500 ≤ |X|) : 1 / 2 ^ 1000 ≤ X ^ 2 := by
  have e : (1 : ℚ) / 2 ^ 1000 = 1 / 2 ^ 500 * (1 / 2 ^ 500) := by
    rw [div_mul_div_comm, one_mul, ← pow_add]
  have hp : (0 : ℚ) ≤ 1 / 2 ^ 500 := by positivity
  rw [← sq_abs, e, sq]
  exact mul_le_mul h h hp (abs_nonneg X)

/-- With components of absolute value at most 2^500 no operation of the sum of squares
overflows. -/
theorem sumsq_isFinite (x y z : Double) (fx : x.isFinite = true) (fy : y.isFinite = true)
    (fz : z.isFinite = true) (hx : |x.toRat| ≤ 2 ^ 500) (hy : |y.toRat| ≤ 2 ^ 500)
    (hz : |z.toRat| ≤ 2 ^ 500) : (sumsq x y z).isFinite = true := by
  have hx2 := sq_le_of_abs_le _ hx
  have hy2 := sq_le_of_abs_le _ hy
  have hz2 := sq_le_of_abs_le _ hz
  have hη : (0 : ℚ) ≤ 1 / 2 ^ 1075 := by positivity
  have hT : (1 : ℚ) ≤ 2 ^ 1000 := one_le_pow₀ (by norm_num)
  have hη1 : (1 : ℚ) / 2 ^ 1075 ≤ 2 ^ 1000 := by
    have : (1 : ℚ) / 2 ^ 1075 ≤ 1 := by
      rw [div_le_one (by positivity)]
      exact one_le_pow₀ (by norm_num)
    linarith
  have e23 : (2 : ℚ) ^ 1023 = 2 ^ 23 * 2 ^ 1000 := by rw [← pow_add]
  have fa := mul_self_isFinite x fx (by rw [e23]; norm_num; linarith)
  have fb := mul_self_isFinite y fy (by rw [e23]; norm_num; linarith)
  have fc := mul_self_isFinite z fz (by rw [e23]; norm_num; linarith)
  have na := sign_of_nonneg _ (nonneg_mul_self x (not_special_of_isFinite x fx).1)
  have nb := sign_of_nonneg _ (nonneg_mul_self y (not_special_of_isFinite y fy).1)
  have nc := sign_of_nonneg _ (nonneg_mul_self z (not_special_of_isFinite z fz).1)
  obtain ⟨_, a2⟩ := err_split _ _ _ (sq_nonneg _) hη (mul_self_err x fx fa)
  obtain ⟨_, b2⟩ := err_split _ _ _ (sq_nonneg _) hη (mul_self_err y fy fb)
  obtain ⟨_, c2⟩ := err_split _ _ _ (sq_nonneg _) hη (mul_self_err z fz fc)
  have a0 := toRat_nonneg _ na
  have b0 := toRat_nonneg _ nb
  have c0 := toRat_nonneg _ nc
  have fp : (add (mul x x) (mul y y)).isFinite = true := by
    apply add_isFinite _ _ fa fb na nb
    rw [e23]
    generalize (2 : ℚ) ^ 1000 = T at *
    generalize (1 : ℚ) / 2 ^ 1075 = η at *
    norm_num at *
    linarith
  have np := sign_of_nonneg _ (nonneg_add _ _
    (nonneg_mul_self x (not_special_of_isFinite x fx).1)
    (nonneg_mul_self y (not_special_of_isFinite y fy).1))
  obtain ⟨_, p2⟩ := err_split _ _ _ (by linarith) hη (add_err _ _ fa fb na nb fp)
  unfold sumsq
  apply add_isFinite _ _ fp fc np nc
  rw [e23]
  generalize (2 : ℚ) ^ 1000 = T at *
  generalize (1 : ℚ) / 2 ^ 1075 = η at *
  norm_num at *
  linarith

/-- The unit vector of a vector in the working range: the computed magnitude is finite
and not zero, and the squared length of the three quotients is within 2^-49 of 1. -/
theorem unit_norm (x y z : Double) (fx : x.isFinite = true) (fy : y.isFinite = true)
    (fz : z.isFinite = true) (hx : |x.toRat| ≤ 2 ^ 500) (hy : |y.toRat| ≤ 2 ^ 500)
    (hz : |z.toRat| ≤ 2 ^ 500)
    (hl : 1 / 2 ^ 500 ≤ |x.toRat| ∨ 1 / 2 ^ 500 ≤ |y.toRat| ∨ 1 / 2 ^ 500 ≤ |z.toRat|) :
    (norm3 x y z).isFinite = true ∧ (norm3 x y z).isZero = false ∧
    ((div x (norm3 x y z)).isFinite = true ∧ (div y (norm3 x y z)).isFinite = true ∧
      (div z (norm3 x y z)).isFinite = true) ∧
    |(div x (norm3 x y z)).toRat ^ 2 + (div y (norm3 x y z)).toRat ^ 2
        + (div z (norm3 x y z)).toRat ^ 2 - 1| ≤ 1 / 2 ^ 49 := by
  have fs := sumsq_isFinite x y z fx fy fz hx hy hz
  obtain ⟨_, ⟨a0, b0, c0, p0, s0⟩, ss, ea, eb, ec, ep, es⟩ := sumsq_parts x y z fs
  have hS0 : 1 / 2 ^ 1000 ≤ x.toRat ^ 2 + y.toRat ^ 2 + z.toRat ^ 2 := by
    have h1 := sq_nonneg x.toRat
    have h2 := sq_nonneg y.toRat
    have h3 := sq_nonneg z.toRat
    rcases hl with h | h | h
    · have := sq_ge_of_abs_ge _ h; linarith
    · have := sq_ge_of_abs_ge _ h; linarith
    · have := sq_ge_of_abs_ge _ h; linarith
  have hη : (0 : ℚ) ≤ 1 / 2 ^ 1075 := by positivity
  have hηS : (1 : ℚ) / 2 ^ 1075 ≤ (x.toRat ^ 2 + y.toRat ^ 2 + z.toRat ^ 2) / 2 ^ 75 := by
    have e : (1 : ℚ) / 2 ^ 1075 = 1 / 2 ^ 1000 / 2 ^ 75 := by rw [div_div, ← pow_add]
    rw [e]
    exact div_le_div_of_nonneg_right hS0 (by positivity)
  have hS := sumsq_err _ _ _ _ _ _ _ _ _ (sq_nonneg _) (sq_nonneg _) (sq_nonneg _) hη hηS
    ea eb ec a0 b0 c0 p0 ep es
  have hSpos : 0 < (sumsq x y z).toRat := by
    have h4 := (abs_le.1 hS).1
    have hp : (0 : ℚ) < 1 / 2 ^ 1000 := by positivity
    generalize (1 : ℚ) / 2 ^ 1000 = t at *
    generalize x.toRat ^ 2 + y.toRat ^ 2 + z.toRat ^ 2 = S at *
    norm_num at h4
    linarith
  obtain ⟨n1, n2⟩ := not_special_of_isFinite _ fs
  have hz2 : (sumsq x y z).isZero = false := by
    by_contra hc
    simp only [Bool.not_eq_false] at hc
    rw [toRat_of_isZero _ hc] at hSpos
    exact lt_irrefl _ hSpos
  obtain ⟨g1, g2, g3⟩ := sqrt_err _ n1 hz2 ss n2
  have hMpos : 0 < (norm3 x y z).toRat := lt_of_lt_of_le (by positivity) g2
  have hmz : (norm3 x y z).isZero = false := by
    by_contra hc
    simp only [Bool.not_eq_false] at hc
    rw [toRat_of_isZero _ hc] at hMpos
    exact lt_irrefl _ hMpos
  have sm : (norm3 x y z).sign = false := sqrt_sign _ ss
  obtain ⟨bx, by1, bz⟩ := comp_le_norm3 x y z g1 hmz
  obtain ⟨qx, _, ux⟩ := scalesTo_div x _ fx g1 hmz sm bx
  obtain ⟨qy, _, uy⟩ := scalesTo_div y _ fy g1 hmz sm by1
  obtain ⟨qz, _, uz⟩ := scalesTo_div z _ fz g1 hmz sm bz
  exact ⟨g1, hmz, ⟨qx, qy, qz⟩, unit_close _ _ _ _ _ _ _ _ hMpos hS g3 ux uy uz⟩

end Double

/-- C2, as stated, fails: the magnetic field (1e-200, 0, 0) has a non-zero component,
but its square underflows to 0, the computed magnitude is 0 and unitVector returns
false. -/
theorem unitVector_unit_fails :
    ((⟨0⟩ : Magnetic_Field).getX (Magnetic_Field.ctor3 (Double.lit 1 (10 ^ 200))
      (Double.zero false) (Double.zero false) Store.empty).2).isZero = false ∧
    ((⟨0⟩ : Magnetic_Field).unitVector (Magnetic_Field.ctor3 (Double.lit 1 (10 ^ 200))
      (Double.zero false) (Double.zero false) Store.empty).2).1 = false := by
  refine ⟨by decide!, by decide!⟩

/-- C2, amended: for every Magnetic_Field with finite components, none larger than
2^500 in absolute value and at least one not smaller than 2^-500, unitVector returns
true and the three outputs are finite doubles whose exact squares sum to 1 within
2^-49; the Euclidean magnitude of the output is then within 2^-49 of 1 as well. -/
theorem unitVector_unit (s : Store) (b : Magnetic_Field)
    (hf : (b.getX s).isFinite = true ∧ (b.getY s).isFinite = true ∧
      (b.getZ s).isFinite = true)
    (hu : |(b.getX s).toRat| ≤ 2 ^ 500 ∧ |(b.getY s).toRat| ≤ 2 ^ 500 ∧
      |(b.getZ s).toRat| ≤ 2 ^ 500)
    (hl : 1 / 2 ^ 500 ≤ |(b.getX s).toRat| ∨ 1 / 2 ^ 500 ≤ |(b.getY s).toRat| ∨
      1 / 2 ^ 500 ≤ |(b.getZ s).toRat|) :
    (b.unitVector s).1 = true ∧
    ((b.unitVector s).2.1.isFinite = true ∧ (b.unitVector s).2.2.1.isFinite = true ∧
      (b.unitVector s).2.2.2.isFinite = true) ∧
    |(b.unitVector s).2.1.toRat ^ 2 + (b.unitVector s).2.2.1.toRat ^ 2
        + (b.unitVector s).2.2.2.toRat ^ 2 - 1| ≤ 1 / 2 ^ 49 := by
  obtain ⟨g1, g2, g3, g4⟩ :=
    Double.unit_norm _ _ _ hf.1 hf.2.1 hf.2.2 hu.1 hu.2.1 hu.2.2 hl
  have hg := (Magnetic_Field.unitVector_eq s b).1
  rw [Magnetic_Field.calculateMagnitude_eq_B, g2] at hg
  simp only [Bool.false_eq_true, if_false] at hg
  rw [hg]
  exact ⟨rfl, g3, g4⟩

/-- C2, amended, at B_components = (0.3, -1.2, 2.4) of main. -/
theorem unitVector_unit_witness :
    ((⟨4⟩ : Magnetic_Field).getX mainStore).isFinite = true ∧
    |((⟨4⟩ : Magnetic_Field).getX mainStore).toRat| ≤ 2 ^ 500 ∧
    1 / 2 ^ 500 ≤ |((⟨4⟩ : Magnetic_Field).getX mainStore).toRat| ∧
    ((⟨4⟩ : Magnetic_Field).unitVector mainStore).1 = true ∧
    |((⟨4⟩ : Magnetic_Field).unitVector mainStore).2.1.toRat ^ 2
        + ((⟨4⟩ : Magnetic_Field).unitVector mainStore).2.2.1.toRat ^ 2
        + ((⟨4⟩ : Magnetic_Field).unitVector mainStore).2.2.2.toRat ^ 2 - 1| ≤ 1 / 2 ^ 49 :=
  ⟨by decide!, by decide!, by decide!,
    (unitVector_unit mainStore ⟨4⟩ ⟨by decide!, by decide!, by decide!⟩
      ⟨by decide!, by decide!, by decide!⟩ (Or.inl (by decide!))).1,
    (unitVector_unit mainStore ⟨4⟩ ⟨by decide!, by decide!, by decide!⟩
      ⟨by decide!, by decide!, by decide!⟩ (Or.inl (by decide!))).2.2⟩

/-! ## Default construction and the bulk setter -/

theorem Store.default_then_set (s : Store) (a b c x y z : Double) :
    (((Store.mk (s.objs ++ [s.heap.length]) (s.heap ++ [a, b, c])).write
        (s.heap.length + 0) x).write (s.heap.length + 1) y).write (s.heap.length + 2) z
      = Store.mk (s.objs ++ [s.heap.length]) (s.heap ++ [x, y, z]) := by
  simp only [Store.write]
  rw [Store.set_append_three]

theorem Electric_Field.ctor_then_setters_E (s : Store) (x y z : Double) :
    (Electric_Field.ctor s).1 = (Electric_Field.ctor3 x y z s).1 ∧
    (Electric_Field.ctor s).1.setZ z ((Electric_Field.ctor s).1.setY y
      ((Electric_Field.ctor s).1.setX x (Electric_Field.ctor s).2))
      = (Electric_Field.ctor3 x y z s).2 ∧
    (Electric_Field.ctor s).1.set x y z (Electric_Field.ctor s).2
      = (Electric_Field.ctor3 x y z s).2 := by
  have hn := Store.getD_append_self s.objs s.heap.length
  have h := Store.default_then_set s (Double.zero false) (Double.zero false)
    (Double.zero false) x y z
  simp only [Electric_Field.ctor, Electric_Field.ctor3, Electric_Field.setX,
    Electric_Field.setY, Electric_Field.setZ, Electric_Field.set, Electric_Field.E,
    Store.alloc3, Store.place, Store.ptr_write]
  simp only [Store.ptr, hn]
  exact ⟨trivial, h, h⟩

theorem Magnetic_Field.ctor_then_setters_B (s : Store) (x y z : Double) :
    (Magnetic_Field.ctor s).1 = (Magnetic_Field.ctor3 x y z s).1 ∧
    (Magnetic_Field.ctor s).1.setZ z ((Magnetic_Field.ctor s).1.setY y
      ((Magnetic_Field.ctor s).1.setX x (Magnetic_Field.ctor s).2))
      = (Magnetic_Field.ctor3 x y z s).2 ∧
    (Magnetic_Field.ctor s).1.set x y z (Magnetic_Field.ctor s).2
      = (Magnetic_Field.ctor3 x y z s).2 := by
  have hn := Store.getD_append_self s.objs s.heap.length
  have h := Store.default_then_set s (Double.zero false) (Double.zero false)
    (Double.zero false) x y z
  simp only [Magnetic_Field.ctor, Magnetic_Field.ctor3, Magnetic_Field.setX,
    Magnetic_Field.setY, Magnetic_Field.setZ, Magnetic_Field.set, Magnetic_Field.B,
    Store.alloc3, Store.place, Store.ptr_write]
  simp only [Store.ptr, hn]
  exact ⟨trivial, h, h⟩

theorem Electric_Field.ctor3_components_E (s : Store) (x y z : Double) :
    (Electric_Field.ctor3 x y z s).1.components (Electric_Field.ctor3 x y z s).2
      = (x, y, z) := by
  have h := (Store.ctor3_reads x y z s).1
  simp only [Electric_Field.components]
  rw [h.1, h.2.1, h.2.2]

theorem Magnetic_Field.ctor3_components_B (s : Store) (x y z : Double) :
    (Magnetic_Field.ctor3 x y z s).1.components (Magnetic_Field.ctor3 x y z s).2
      = (x, y, z) := by
  have h := (Store.ctor3_reads x y z s).2
  simp only [Magnetic_Field.components]
  rw [h.1, h.2.1, h.2.2]

theorem Electric_Field.set_components_E (s : Store) (e : Electric_Field) (x y z : Double)
    (hp : s.ptr e.addr + 3 ≤ s.heap.length) : e.components (e.set x y z s) = (x, y, z) := by
  simp only [Electric_Field.components, Electric_Field.getX, Electric_Field.getY,
    Electric_Field.getZ, Electric_Field.set, Electric_Field.E, Store.ptr_write,
    Store.read_write3 _ _ _ _ _ _ hp]
  split_ifs <;> first | rfl | omega

theorem Magnetic_Field.set_components_B (s : Store) (b : Magnetic_Field) (x y z : Double)
    (hp : s.ptr b.addr + 3 ≤ s.heap.length) : b.components (b.set x y z s) = (x, y, z) := by
  simp only [Magnetic_Field.components, Magnetic_Field.getX, Magnetic_Field.getY,
    Magnetic_Field.getZ, Magnetic_Field.set, Magnetic_Field.B, Store.ptr_write,
    Store.read_write3 _ _ _ _ _ _ hp]
  split_ifs <;> first | rfl | omega

/-- C11: on a live vector of either class, whatever it held, set(x, y, z) leaves exactly
the components (x, y, z), which are the components of a vector constructed from
(x, y, z); and setX(x), setY(y), setZ(z) in sequence on a default-constructed vector,
like set(x, y, z) on it, end in the very memory that the three-component constructor
produces, with the vector at the same address. -/
theorem set_all (s : Store) (e : Electric_Field) (b : Magnetic_Field) (x y z : Double)
    (hs : s.wf) (he : s.live e.addr) (hb : s.live b.addr) :
    (e.components (e.set x y z s) = (x, y, z) ∧
      (Electric_Field.ctor3 x y z s).1.components (Electric_Field.ctor3 x y z s).2
        = (x, y, z) ∧
      (Electric_Field.ctor s).1 = (Electric_Field.ctor3 x y z s).1 ∧
      (Electric_Field.ctor s).1.setZ z ((Electric_Field.ctor s).1.setY y
        ((Electric_Field.ctor s).1.setX x (Electric_Field.ctor s).2))
        = (Electric_Field.ctor3 x y z s).2 ∧
      (Electric_Field.ctor s).1.set x y z (Electric_Field.ctor s).2
        = (Electric_Field.ctor3 x y z s).2) ∧
    (b.components (b.set x y z s) = (x, y, z) ∧
      (Magnetic_Field.ctor3 x y z s).1.components (Magnetic_Field.ctor3 x y z s).2
        = (x, y, z) ∧
      (Magnetic_Field.ctor s).1 = (Magnetic_Field.ctor3 x y z s).1 ∧
      (Magnetic_Field.ctor s).1.setZ z ((Magnetic_Field.ctor s).1.setY y
        ((Magnetic_Field.ctor s).1.setX x (Magnetic_Field.ctor s).2))
        = (Magnetic_Field.ctor3 x y z s).2 ∧
      (Magnetic_Field.ctor s).1.set x y z (Magnetic_Field.ctor s).2
        = (Magnetic_Field.ctor3 x y z s).2) :=
  ⟨⟨Electric_Field.set_components_E s e x y z (hs.1 _ he),
      Electric_Field.ctor3_components_E s x y z, Electric_Field.ctor_then_setters_E s x y z⟩,
    ⟨Magnetic_Field.set_components_B s b x y z (hs.1 _ hb),
      Magnetic_Field.ctor3_components_B s x y z, Magnetic_Field.ctor_then_setters_B s x y z⟩⟩

/-- C11, at main: B_set.set(5.0, 0.0, 0.0), and E_components overwritten by set. -/
theorem set_all_witness :
    mainStore.wf ∧ mainStore.live 1 ∧ mainStore.live 5 ∧
    (⟨5⟩ : Magnetic_Field).components ((⟨5⟩ : Magnetic_Field).set (Double.lit 5 1)
      (Double.zero false) (Double.zero false) mainStore)
      = (Double.lit 5 1, Double.zero false, Double.zero false) :=
  ⟨by decide!, by decide!, by decide!,
    (set_all mainStore ⟨1⟩ ⟨5⟩ (Double.lit 5 1) (Double.zero false) (Double.zero false)
      (by decide!) (by decide!) (by decide!)).2.1⟩

/-- C12: a default-constructed Electric_Field or Magnetic_Field, in any memory, is the
zero vector: getX, getY and getZ all return 0.0 (with the sign bit clear). -/
theorem ctor_zero (s : Store) :
    ((Electric_Field.ctor s).1.getX (Electric_Field.ctor s).2 = Double.zero false ∧
      (Electric_Field.ctor s).1.getY (Electric_Field.ctor s).2 = Double.zero false ∧
      (Electric_Field.ctor s).1.getZ (Electric_Field.ctor s).2 = Double.zero false) ∧
    ((Magnetic_Field.ctor s).1.getX (Magnetic_Field.ctor s).2 = Double.zero false ∧
      (Magnetic_Field.ctor s).1.getY (Magnetic_Field.ctor s).2 = Double.zero false ∧
      (Magnetic_Field.ctor s).1.getZ (Magnetic_Field.ctor s).2 = Double.zero false) := by
  have h := Store.getD_append_three s.heap (Double.zero false) (Double.zero false)
    (Double.zero false)
  have hp := Store.getD_append_self s.objs s.heap.length
  simp only [Electric_Field.ctor, Magnetic_Field.ctor, Electric_Field.getX,
    Electric_Field.getY, Electric_Field.getZ, Magnetic_Field.getX, Magnetic_Field.getY,
    Magnetic_Field.getZ, Electric_Field.E, Magnetic_Field.B, Store.alloc3, Store.place,
    Store.ptr, Store.read, hp]
  exact ⟨h, h⟩

/-! ## The scenarios of main -/

theorem Electric_Field.innerProduct_ctor3 (s : Store) (x y z : Double) :
    (Electric_Field.ctor3 x y z s).1.innerProduct (Electric_Field.ctor3 x y z s).2
      = Double.sumsq x y z := by
  have h := (Store.ctor3_reads x y z s).1
  simp only [Electric_Field.getX, Electric_Field.getY, Electric_Field.getZ] at h
  unfold Electric_Field.innerProduct Double.sumsq
  rw [h.1, h.2.1, h.2.2]

theorem Electric_Field.calculateMagnitude_ctor3_E (s : Store) (x y z : Double) :
    (Electric_Field.ctor3 x y z s).1.calculateMagnitude (Electric_Field.ctor3 x y z s).2
      = Double.norm3 x y z := by
  have h := (Store.ctor3_reads x y z s).1
  rw [Electric_Field.calculateMagnitude_eq_E, h.1, h.2.1, h.2.2]

theorem Magnetic_Field.calculateMagnitude_ctor3_B (s : Store) (x y z : Double) :
    (Magnetic_Field.ctor3 x y z s).1.calculateMagnitude (Magnetic_Field.ctor3 x y z s).2
      = Double.norm3 x y z := by
  have h := (Store.ctor3_reads x y z s).2
  rw [Magnetic_Field.calculateMagnitude_eq_B, h.1, h.2.1, h.2.2]

theorem Magnetic_Field.unitVector_ctor3 (s : Store) (x y z : Double) :
    (Magnetic_Field.ctor3 x y z s).1.unitVector (Magnetic_Field.ctor3 x y z s).2
      = (if (Double.norm3 x y z).isZero = true then
          (false, Double.zero false, Double.zero false, Double.zero false)
        else (true, Double.div x (Double.norm3 x y z), Double.div y (Double.norm3 x y z),
          Double.div z (Double.norm3 x y z))) := by
  have h := (Store.ctor3_reads x y z s).2
  have hu := (Magnetic_Field.unitVector_eq (Magnetic_Field.ctor3 x y z s).2
    (Magnetic_Field.ctor3 x y z s).1).1
  rw [Magnetic_Field.calculateMagnitude_ctor3_B, h.1, h.2.1, h.2.2] at hu
  exact hu

/-- C13, as stated, fails: the inner product of E_components = (1e5, 10.9, 170.0) in main
is not within 50 of 1.00000029e10 = 10000002900, so it does not round to it at nine
significant digits. -/
theorem innerProduct_main_fails :
    ¬ Double.within ((⟨1⟩ : Electric_Field).innerProduct mainStore) 10000002900 50 := by
  decide!

/-- C13, amended: for the vector with components (1e5, 10.9, 170.0), constructed in any
memory (E_components of main is one), innerProduct returns the double
10000029018.809999..., which is within 0.01 of 10000029018.81 and is 1.00000290e10 when
rounded to nine significant digits. -/
theorem innerProduct_main (s : Store) :
    (Electric_Field.ctor3 (Double.lit 100000 1) (Double.lit 109 10) (Double.lit 170 1)
      s).1.innerProduct (Electric_Field.ctor3 (Double.lit 100000 1) (Double.lit 109 10)
        (Double.lit 170 1) s).2 = ⟨false, 1056, 739295586843361⟩ ∧
    (⟨1⟩ : Electric_Field).innerProduct mainStore = ⟨false, 1056, 739295586843361⟩ ∧
    (⟨false, 1056, 739295586843361⟩ : Double).toRat = 5242895214213857 / 524288 ∧
    Double.within ⟨false, 1056, 739295586843361⟩ (1000002901881 / 100) (1 / 100) ∧
    Double.within ⟨false, 1056, 739295586843361⟩ 10000029000 50 := by
  refine ⟨?_, by decide!, by decide!, by decide!, by decide!⟩
  rw [Electric_Field.innerProduct_ctor3]
  decide!

/-- C15: the vector with components (3, 4, 12) has calculateMagnitude exactly 13, whether
it is built by the three-component constructor of either class or by default
construction followed by setX(3), setY(4), setZ(12), in any memory; E_set of main is
such a vector. -/
theorem magnitude_3_4_12 (s : Store) :
    (Electric_Field.ctor3 (Double.lit 3 1) (Double.lit 4 1) (Double.lit 12 1)
      s).1.calculateMagnitude (Electric_Field.ctor3 (Double.lit 3 1) (Double.lit 4 1)
        (Double.lit 12 1) s).2 = Double.lit 13 1 ∧
    (Magnetic_Field.ctor3 (Double.lit 3 1) (Double.lit 4 1) (Double.lit 12 1)
      s).1.calculateMagnitude (Magnetic_Field.ctor3 (Double.lit 3 1) (Double.lit 4 1)
        (Double.lit 12 1) s).2 = Double.lit 13 1 ∧
    (Electric_Field.ctor s).1.calculateMagnitude
      ((Electric_Field.ctor s).1.setZ (Double.lit 12 1) ((Electric_Field.ctor s).1.setY
        (Double.lit 4 1) ((Electric_Field.ctor s).1.setX (Double.lit 3 1)
          (Electric_Field.ctor s).2))) = Double.lit 13 1 ∧
    (Magnetic_Field.ctor s).1.calculateMagnitude
      ((Magnetic_Field.ctor s).1.setZ (Double.lit 12 1) ((Magnetic_Field.ctor s).1.setY
        (Double.lit 4 1) ((Magnetic_Field.ctor s).1.setX (Double.lit 3 1)
          (Magnetic_Field.ctor s).2))) = Double.lit 13 1 ∧
    (⟨2⟩ : Electric_Field).calculateMagnitude mainStore = Double.lit 13 1 ∧
    (Double.lit 13 1).toRat = 13 := by
  have k : Double.norm3 (Double.lit 3 1) (Double.lit 4 1) (Double.lit 12 1)
      = Double.lit 13 1 := by decide!
  have e := Electric_Field.ctor_then_setters_E s (Double.lit 3 1) (Double.lit 4 1)
    (Double.lit 12 1)
  have m := Magnetic_Field.ctor_then_setters_B s (Double.lit 3 1) (Double.lit 4 1)
    (Double.lit 12 1)
  refine ⟨?_, ?_, ?_, ?_, by decide!, by decide!⟩
  · rw [Electric_Field.calculateMagnitude_ctor3_E, k]
  · rw [Magnetic_Field.calculateMagnitude_ctor3_B, k]
  · rw [e.2.1, e.1, Electric_Field.calculateMagnitude_ctor3_E, k]
  · rw [m.2.1, m.1, Magnetic_Field.calculateMagnitude_ctor3_B, k]

/-- C14: for the vector with components (0.3, -1.2, 2.4), constructed in any memory
(B_components of main is one), unitVector succeeds; the outputs are within 0.0001 of
0.1111, -0.4444 and 0.8888; their exact squares sum to 1 within 2^-49, and
calculateMagnitude of a vector built from them is exactly 1.0, so the magnitude of the
output is 1.0000 to four decimal places. -/
theorem unitVector_main (s t : Store) :
    (Magnetic_Field.ctor3 (Double.lit 3 10) (Double.round true 12 10) (Double.lit 24 10)
      s).1.unitVector (Magnetic_Field.ctor3 (Double.lit 3 10) (Double.round true 12 10)
        (Double.lit 24 10) s).2
      = (true, ⟨false, 1019, 3502799710177052⟩, ⟨true, 1021, 3502799710177052⟩,
          ⟨false, 1022, 3502799710177052⟩) ∧
    (⟨4⟩ : Magnetic_Field).unitVector mainStore
      = (true, ⟨false, 1019, 3502799710177052⟩, ⟨true, 1021, 3502799710177052⟩,
          ⟨false, 1022, 3502799710177052⟩) ∧
    Double.within ⟨false, 1019, 3502799710177052⟩ (1111 / 10000) (1 / 10000) ∧
    Double.within ⟨true, 1021, 3502799710177052⟩ (-4444 / 10000) (1 / 10000) ∧
    Double.within ⟨false, 1022, 3502799710177052⟩ (8888 / 10000) (1 / 10000) ∧
    |(⟨false, 1019, 3502799710177052⟩ : Double).toRat ^ 2
        + (⟨true, 1021, 3502799710177052⟩ : Double).toRat ^ 2
        + (⟨false, 1022, 3502799710177052⟩ : Double).toRat ^ 2 - 1| ≤ 1 / 2 ^ 49 ∧
    (Magnetic_Field.ctor3 ⟨false, 1019, 3502799710177052⟩ ⟨true, 1021, 3502799710177052⟩
      ⟨false, 1022, 3502799710177052⟩ t).1.calculateMagnitude
      (Magnetic_Field.ctor3 ⟨false, 1019, 3502799710177052⟩
        ⟨true, 1021, 3502799710177052⟩ ⟨false, 1022, 3502799710177052⟩ t).2
      = Double.lit 1 1 ∧
    Double.within (Double.lit 1 1) 1 (1 / 20000) := by
  refine ⟨?_, by decide!, by decide!, by decide!, by decide!, by decide!, ?_, by decide!⟩
  · rw [Magnetic_Field.unitVector_ctor3]
    decide!
  · rw [Magnetic_Field.calculateMagnitude_ctor3_B]
    decide!

/-! ## When the computed magnitude is zero -/

namespace Double

theorem isFinite_of_isZero (x : Double) (h : x.isZero = true) : x.isFinite = true := by
  simp only [isZero, Bool.and_eq_true, beq_iff_eq] at h
  simp only [isFinite, bne_iff_ne, ne_eq, h.1]
  omega

/-- A non-negative double that is at most 2^-1075 is zero: the smallest positive double
is 2^-1074. -/
theorem toRat_eq_zero_of_le (d : Double) (hs : d.sign = false)
    (h : d.toRat ≤ 1 / 2 ^ 1075) : d.toRat = 0 := by
  rw [toRat_eq, hs] at h ⊢
  simp only [Bool.false_eq_true, if_false, one_mul] at h ⊢
  have e : (2 : ℚ) ^ 1075 = 2 ^ 1074 * 2 := by rw [← pow_succ]
  have hp : (0 : ℚ) < 2 ^ 1074 := by positivity
  rw [e, div_le_div_iff₀ hp (by positivity)] at h
  have h2 : (d.num : ℚ) * 2 ≤ 1 := by
    have h3 : (d.num : ℚ) * 2 * 2 ^ 1074 ≤ 1 * 2 ^ 1074 := by
      calc (d.num : ℚ) * 2 * 2 ^ 1074 = d.num * (2 ^ 1074 * 2) := by ring
        _ ≤ 1 * 2 ^ 1074 := h
    exact le_of_mul_le_mul_right h3 hp
  have h4 : d.num * 2 ≤ 1 := by exact_mod_cast h2
  have h5 : d.num = 0 := by omega
  rw [h5]
  simp

/-- A rounding that returns 0 rounded a value of at most 2^-1075. -/
theorem err_zero (r v : ℚ) (hv : 0 ≤ v) (h : |r - v| ≤ max (1 / 2 ^ 1075) (v / 2 ^ 53))
    (hr : r = 0) : v ≤ 1 / 2 ^ 1075 := by
  rw [hr, zero_sub, abs_neg, abs_of_nonneg hv] at h
  have hη : (0 : ℚ) ≤ 1 / 2 ^ 1075 := by positivity
  rcases le_max_iff.1 h with h1 | h1
  · exact h1
  · have h2 : v ≤ 0 := by
      norm_num at h1
      linarith
    linarith

/-- If the computed magnitude is a zero, every component is finite and its square is at
most 2^-1075, so its square underflows. -/
theorem norm3_isZero (x y z : Double) (h : (norm3 x y z).isZero = true) :
    (x.isFinite = true ∧ y.isFinite = true ∧ z.isFinite = true) ∧
    x.toRat ^ 2 ≤ 1 / 2 ^ 1075 ∧ y.toRat ^ 2 ≤ 1 / 2 ^ 1075 ∧
    z.toRat ^ 2 ≤ 1 / 2 ^ 1075 := by
  have hf := isFinite_of_isZero _ h
  unfold norm3 at h hf
  have fs := sqrt_arg_isFinite _ hf
  obtain ⟨fxyz, ⟨a0, b0, c0, p0, s0⟩, ss, ea, eb, ec, ep, es⟩ := sumsq_parts x y z fs
  obtain ⟨n1, n2⟩ := not_special_of_isFinite _ fs
  have hz : (sumsq x y z).isZero = true := by
    by_contra hc
    simp only [Bool.not_eq_true] at hc
    obtain ⟨_, g2, _⟩ := sqrt_err _ n1 hc ss n2
    rw [toRat_of_isZero _ h] at g2
    have : (0 : ℚ) < 1 / 2 ^ 537 := by positivity
    linarith
  have hS := toRat_of_isZero _ hz
  unfold sumsq at hS fs es
  obtain ⟨fp, fc⟩ := add_args_isFinite _ _ fs
  obtain ⟨fa, fb⟩ := add_args_isFinite _ _ fp
  have na := sign_of_nonneg _ (nonneg_mul_self x (not_special_of_isFinite x fxyz.1).1)
  have nb := sign_of_nonneg _ (nonneg_mul_self y (not_special_of_isFinite y fxyz.2.1).1)
  have nc := sign_of_nonneg _ (nonneg_mul_self z (not_special_of_isFinite z fxyz.2.2).1)
  have np := sign_of_nonneg _ (nonneg_add _ _
    (nonneg_mul_self x (not_special_of_isFinite x fxyz.1).1)
    (nonneg_mul_self y (not_special_of_isFinite y fxyz.2.1).1))
  have h1 := err_zero _ _ (by linarith) es hS
  have hP : (add (mul x x) (mul y y)).toRat = 0 :=
    toRat_eq_zero_of_le _ np (by linarith)
  have hC : (mul z z).toRat = 0 := toRat_eq_zero_of_le _ nc (by linarith)
  have h2 := err_zero _ _ (by linarith) ep hP
  have hA : (mul x x).toRat = 0 := toRat_eq_zero_of_le _ na (by linarith)
  have hB : (mul y y).toRat = 0 := toRat_eq_zero_of_le _ nb (by linarith)
  exact ⟨fxyz, err_zero _ _ (sq_nonneg _) ea hA, err_zero _ _ (sq_nonneg _) eb hB,
    err_zero _ _ (sq_nonneg _) ec hC⟩

theorem abs_lt_of_sq_le (X : ℚ) (h : X ^ 2 ≤ 1 / 2 ^ 1075) : |X| < 1 / 2 ^ 537 := by
  by_contra hc
  push_neg at hc
  have hp : (0 : ℚ) ≤ 1 / 2 ^ 537 := by positivity
  have h1 : (1 / 2 ^ 537 : ℚ) * (1 / 2 ^ 537) ≤ |X| * |X| :=
    mul_le_mul hc hc hp (abs_nonneg X)
  have e1 : (1 / 2 ^ 537 : ℚ) * (1 / 2 ^ 537) = 2 * (1 / 2 ^ 1075) := by
    have a : (2 : ℚ) ^ 1075 = 2 ^ 537 * 2 ^ 537 * 2 := by rw [← pow_add, ← pow_succ]
    rw [a]
    generalize (2 : ℚ) ^ 537 = P
    by_cases hP : P = 0
    · simp [hP]
    · field_simp
  have e2 : |X| * |X| = X ^ 2 := by rw [← sq, sq_abs]
  rw [e1, e2] at h1
  have hη : (0 : ℚ) < 1 / 2 ^ 1075 := by positivity
  linarith

end Double

theorem Double.isTiny_of_norm3_isZero (x y z : Double)
    (h : (Double.norm3 x y z).isZero = true) :
    x.isTiny ∧ y.isTiny ∧ z.isTiny := by
  obtain ⟨⟨fx, fy, fz⟩, hx, hy, hz⟩ := Double.norm3_isZero x y z h
  exact ⟨⟨fx, Double.abs_lt_of_sq_le _ hx⟩, ⟨fy, Double.abs_lt_of_sq_le _ hy⟩,
    ⟨fz, Double.abs_lt_of_sq_le _ hz⟩⟩

/-- C16, as stated, fails: the electric field (0, 5e-324, 0) has a non-zero component,
yet calculateMagnitude returns exactly 0, and unitVector fails on the magnetic field
with the same components. -/
theorem magnitude_zero_cases_fails :
    ((⟨0⟩ : Electric_Field).getY (Electric_Field.ctor3 (Double.zero false) ⟨false, 0, 1⟩
      (Double.zero false) Store.empty).2).isZero = false ∧
    (⟨0⟩ : Electric_Field).calculateMagnitude (Electric_Field.ctor3 (Double.zero false)
      ⟨false, 0, 1⟩ (Double.zero false) Store.empty).2 = Double.zero false ∧
    ((⟨0⟩ : Magnetic_Field).unitVector (Magnetic_Field.ctor3 (Double.zero false)
      ⟨false, 0, 1⟩ (Double.zero false) Store.empty).2).1 = false := by
  refine ⟨by decide!, by decide!, by decide!⟩

/-- C16, amended: for every vector of either class, calculateMagnitude returns exactly 0
if all three components are 0, and only if every component is finite with absolute
value below 2^-537; unitVector's test `mag == 0.0` fails the call exactly when the
computed magnitude is 0, hence for the zero vector and for no vector that has a
component of absolute value 2^-537 or more, an infinite one or a NaN. -/
theorem magnitude_zero_cases (s : Store) (e : Electric_Field) (b : Magnetic_Field) :
    (((e.getX s).isZero = true ∧ (e.getY s).isZero = true ∧ (e.getZ s).isZero = true →
        e.calculateMagnitude s = Double.zero false) ∧
      ((e.calculateMagnitude s).isZero = true →
        (e.getX s).isTiny ∧ (e.getY s).isTiny ∧ (e.getZ s).isTiny)) ∧
    (((b.getX s).isZero = true ∧ (b.getY s).isZero = true ∧ (b.getZ s).isZero = true →
        b.calculateMagnitude s = Double.zero false) ∧
      ((b.calculateMagnitude s).isZero = true →
        (b.getX s).isTiny ∧ (b.getY s).isTiny ∧ (b.getZ s).isTiny)) ∧
    (((b.unitVector s).1 = false ↔ (b.calculateMagnitude s).isZero = true) ∧
      ((b.getX s).isZero = true ∧ (b.getY s).isZero = true ∧ (b.getZ s).isZero = true →
        (b.unitVector s).1 = false) ∧
      ((b.unitVector s).1 = false →
        (b.getX s).isTiny ∧ (b.getY s).isTiny ∧ (b.getZ s).isTiny)) := by
  have hu : (b.unitVector s).1 = false ↔ (b.calculateMagnitude s).isZero = true := by
    rw [(Magnetic_Field.unitVector_eq s b).2]
    cases (b.calculateMagnitude s).isZero <;> simp
  have hb0 : (b.getX s).isZero = true ∧ (b.getY s).isZero = true ∧
      (b.getZ s).isZero = true → b.calculateMagnitude s = Double.zero false :=
    fun h => Magnetic_Field.magnitude_of_zero_B s b h.1 h.2.1 h.2.2
  have hb1 : (b.calculateMagnitude s).isZero = true →
      (b.getX s).isTiny ∧ (b.getY s).isTiny ∧ (b.getZ s).isTiny := by
    intro h
    rw [Magnetic_Field.calculateMagnitude_eq_B] at h
    exact Double.isTiny_of_norm3_isZero _ _ _ h
  refine ⟨⟨fun h => Electric_Field.magnitude_of_zero_E s e h.1 h.2.1 h.2.2, ?_⟩,
    ⟨hb0, hb1⟩, ⟨hu, ?_, fun h => hb1 (hu.1 h)⟩⟩
  · intro h
    rw [Electric_Field.calculateMagnitude_eq_E] at h
    exact Double.isTiny_of_norm3_isZero _ _ _ h
  · intro h
    rw [hu, hb0 h]
    rfl

/-- C16, amended, at B_default of main: its magnitude is 0 and its components are tiny. -/
theorem magnitude_zero_cases_witness :
    ((⟨3⟩ : Magnetic_Field).calculateMagnitude mainStore).isZero = true ∧
    ((⟨3⟩ : Magnetic_Field).getX mainStore).isTiny :=
  ⟨by decide!, ((magnitude_zero_cases mainStore ⟨0⟩ ⟨3⟩).2.1.2 (by decide!)).1⟩

/-! ## Normalising twice -/

namespace Double

/-- In the working range the computed sum of squares is finite and within 2^-51 of the
exact sum. -/
theorem sumsq_close (x y z : Double) (fx : x.isFinite = true) (fy : y.isFinite = true)
    (fz : z.isFinite = true) (hx : |x.toRat| ≤ 2 ^ 500) (hy : |y.toRat| ≤ 2 ^ 500)
    (hz : |z.toRat| ≤ 2 ^ 500)
    (hl : 1 / 2 ^ 500 ≤ |x.toRat| ∨ 1 / 2 ^ 500 ≤ |y.toRat| ∨ 1 / 2 ^ 500 ≤ |z.toRat|) :
    (sumsq x y z).isFinite = true ∧
    |(sumsq x y z).toRat - (x.toRat ^ 2 + y.toRat ^ 2 + z.toRat ^ 2)|
      ≤ (x.toRat ^ 2 + y.toRat ^ 2 + z.toRat ^ 2) / 2 ^ 51 := by
  have fs := sumsq_isFinite x y z fx fy fz hx hy hz
  obtain ⟨_, ⟨a0, b0, c0, p0, s0⟩, ss, ea, eb, ec, ep, es⟩ := sumsq_parts x y z fs
  have hS0 : 1 / 2 ^ 1000 ≤ x.toRat ^ 2 + y.toRat ^ 2 + z.toRat ^ 2 := by
    have h1 := sq_nonneg x.toRat
    have h2 := sq_nonneg y.toRat
    have h3 := sq_nonneg z.toRat
    rcases hl with h | h | h
    · have := sq_ge_of_abs_ge _ h; linarith
    · have := sq_ge_of_abs_ge _ h; linarith
    · have := sq_ge_of_abs_ge _ h; linarith
  have hη : (0 : ℚ) ≤ 1 / 2 ^ 1075 := by positivity
  have hηS : (1 : ℚ) / 2 ^ 1075 ≤ (x.toRat ^ 2 + y.toRat ^ 2 + z.toRat ^ 2) / 2 ^ 75 := by
    have e : (1 : ℚ) / 2 ^ 1075 = 1 / 2 ^ 1000 / 2 ^ 75 := by rw [div_div, ← pow_add]
    rw [e]
    exact div_le_div_of_nonneg_right hS0 (by positivity)
  exact ⟨fs, sumsq_err _ _ _ _ _ _ _ _ _ (sq_nonneg _) (sq_nonneg _) (sq_nonneg _) hη hηS
    ea eb ec a0 b0 c0 p0 ep es⟩

/-- A magnitude computed from squares that sum to 1 within 2^-49 has a square within
2^-48 of 1. -/
theorem norm_near_one (S S' M : ℚ) (h1 : |S - 1| ≤ 1 / 2 ^ 49) (h2 : |S' - S| ≤ S / 2 ^ 51)
    (h3 : |M ^ 2 - S'| ≤ S' / 2 ^ 51) : |M ^ 2 - 1| ≤ 1 / 2 ^ 48 := by
  have a1 := abs_le.1 h1
  have a2 := abs_le.1 h2
  have a3 := abs_le.1 h3
  generalize M ^ 2 = m at *
  rw [abs_le]
  norm_num at *
  constructor <;> linarith

/-- Squares that sum to 1 within 2^-49 belong to a vector in the working range. -/
theorem unit_range (U V W : ℚ) (h : |U ^ 2 + V ^ 2 + W ^ 2 - 1| ≤ 1 / 2 ^ 49) :
    (|U| ≤ 2 ^ 500 ∧ |V| ≤ 2 ^ 500 ∧ |W| ≤ 2 ^ 500) ∧
    (1 / 2 ^ 500 ≤ |U| ∨ 1 / 2 ^ 500 ≤ |V| ∨ 1 / 2 ^ 500 ≤ |W|) ∧
    (U ^ 2 ≤ 1 + 1 / 2 ^ 49 ∧ V ^ 2 ≤ 1 + 1 / 2 ^ 49 ∧ W ^ 2 ≤ 1 + 1 / 2 ^ 49) := by
  have a := abs_le.1 h
  have hU := sq_nonneg U
  have hV := sq_nonneg V
  have hW := sq_nonneg W
  have h2 : (1 : ℚ) + 1 / 2 ^ 49 ≤ (2 ^ 500) ^ 2 := by norm_num
  have hp : (0 : ℚ) ≤ 2 ^ 500 := by positivity
  have bU : U ^ 2 ≤ 1 + 1 / 2 ^ 49 := by linarith
  have bV : V ^ 2 ≤ 1 + 1 / 2 ^ 49 := by linarith
  have bW : W ^ 2 ≤ 1 + 1 / 2 ^ 49 := by linarith
  refine ⟨⟨abs_le_of_sq_le _ _ hp (le_trans bU h2), abs_le_of_sq_le _ _ hp (le_trans bV h2),
    abs_le_of_sq_le _ _ hp (le_trans bW h2)⟩, ?_, bU, bV, bW⟩
  by_contra hc
  push_neg at hc
  obtain ⟨c1, c2, c3⟩ := hc
  have ht : (1 : ℚ) / 2 ^ 500 ≤ 1 / 2 := by
    apply div_le_div_of_nonneg_left (by norm_num) (by norm_num)
    exact le_self_pow₀ (by norm_num) (by norm_num)
  have q : ∀ X : ℚ, |X| < 1 / 2 ^ 500 → X ^ 2 ≤ 1 / 4 := by
    intro X hX
    have h0 := abs_nonneg X
    rw [← sq_abs]
    nlinarith
  have q1 := q U c1
  have q2 := q V c2
  have q3 := q W c3
  norm_num at a
  linarith

/-- One component of the second normalisation: dividing by a magnitude whose square is
within 2^-48 of 1 moves a component of a unit vector by at most 2^-47. -/
theorem twice_close (m U W : ℚ) (hm : 0 < m) (hm2 : |m ^ 2 - 1| ≤ 1 / 2 ^ 48)
    (hU : U ^ 2 ≤ 1 + 1 / 2 ^ 49)
    (h : |W * m - U| ≤ max (m / 2 ^ 1075) (|U| / 2 ^ 53)) : |W - U| ≤ 1 / 2 ^ 47 := by
  have a2 := abs_le.1 hm2
  have ha0 := abs_nonneg U
  have haU : |U| ≤ 1 + 1 / 2 ^ 49 := by
    apply abs_le_of_sq_le _ _ (by positivity)
    have : (0 : ℚ) ≤ 1 / 2 ^ 49 := by positivity
    nlinarith
  have hml : 1 - 1 / 2 ^ 48 ≤ m := by
    by_contra hc
    push_neg at hc
    norm_num at a2 hc
    nlinarith
  have hmu : m ≤ 2 := by
    by_contra hc
    push_neg at hc
    norm_num at a2
    nlinarith
  have hd : |1 - m| ≤ 1 / 2 ^ 48 := by
    have e : m ^ 2 - 1 = (m - 1) * (m + 1) := by ring
    rw [e, abs_mul, abs_of_pos (by linarith : 0 < m + 1)] at hm2
    rw [abs_sub_comm]
    have h0 := abs_nonneg (m - 1)
    nlinarith
  have hk : m / 2 ^ 1075 ≤ m / 2 ^ 53 :=
    div_le_div_of_nonneg_left hm.le (by positivity)
      (pow_le_pow_right₀ (by norm_num) (by norm_num))
  have he : |W * m - U| ≤ 2 / 2 ^ 53 := by
    refine le_trans h (max_le ?_ ?_)
    · refine le_trans hk ?_
      exact div_le_div_of_nonneg_right hmu (by positivity)
    · apply div_le_div_of_nonneg_right _ (by positivity)
      norm_num at haU ⊢
      linarith
  have e1 : (W - U) * m = (W * m - U) + U * (1 - m) := by ring
  have h1 : |W - U| * m ≤ 2 / 2 ^ 53 + (1 + 1 / 2 ^ 49) * (1 / 2 ^ 48) := by
    have e0 : |W - U| * m = |(W - U) * m| := by rw [abs_mul, abs_of_pos hm]
    rw [e0, e1]
    refine le_trans (abs_add _ _) (add_le_add he ?_)
    rw [abs_mul]
    exact mul_le_mul haU hd (abs_nonneg _) (by positivity)
  have h0 := abs_nonneg (W - U)
  generalize |W - U| = d at *
  by_contra hc
  push_neg at hc
  have h3 : 1 / 2 ^ 47 * (1 - 1 / 2 ^ 48) < d * m := by
    have : (0 : ℚ) < 1 - 1 / 2 ^ 48 := by norm_num
    calc 1 / 2 ^ 47 * (1 - 1 / 2 ^ 48) < d * (1 - 1 / 2 ^ 48) :=
          mul_lt_mul_of_pos_right hc this
      _ ≤ d * m := mul_le_mul_of_nonneg_left hml h0
  norm_num at h1 h3
  linarith

/-- Normalising the unit vector of a vector in the working range once more: the second
magnitude is finite and not zero, and each quotient is finite and within 2^-47 of the
component it was computed from. -/
theorem unit_twice (x y z : Double) (fx : x.isFinite = true) (fy : y.isFinite = true)
    (fz : z.isFinite = true) (hx : |x.toRat| ≤ 2 ^ 500) (hy : |y.toRat| ≤ 2 ^ 500)
    (hz : |z.toRat| ≤ 2 ^ 500)
    (hl : 1 / 2 ^ 500 ≤ |x.toRat| ∨ 1 / 2 ^ 500 ≤ |y.toRat| ∨ 1 / 2 ^ 500 ≤ |z.toRat|)
    (u v w : Double) (eu : u = div x (norm3 x y z)) (ev : v = div y (norm3 x y z))
    (ew : w = div z (norm3 x y z)) :
    (norm3 x y z).isZero = false ∧ (norm3 u v w).isZero = false ∧
    ((div u (norm3 u v w)).isFinite = true ∧ (div v (norm3 u v w)).isFinite = true ∧
      (div w (norm3 u v w)).isFinite = true) ∧
    |(div u (norm3 u v w)).toRat - u.toRat| ≤ 1 / 2 ^ 47 ∧
    |(div v (norm3 u v w)).toRat - v.toRat| ≤ 1 / 2 ^ 47 ∧
    |(div w (norm3 u v w)).toRat - w.toRat| ≤ 1 / 2 ^ 47 := by
  have H := unit_norm x y z fx fy fz hx hy hz hl
  rw [← eu, ← ev, ← ew] at H
  obtain ⟨_, z1, ⟨fu, fv, fw⟩, h1⟩ := H
  obtain ⟨⟨ru, rv, rw1⟩, rl, bu, bv, bw⟩ := unit_range _ _ _ h1
  obtain ⟨f2, z2, _, _⟩ := unit_norm u v w fu fv fw ru rv rw1 rl
  obtain ⟨_, hS⟩ := sumsq_close u v w fu fv fw ru rv rw1 rl
  obtain ⟨_, sm, g2, g3⟩ := norm3_facts u v w f2 z2
  have hM : 0 < (norm3 u v w).toRat := lt_of_lt_of_le (by positivity) g2
  have hn := norm_near_one _ _ _ h1 hS g3
  obtain ⟨cu, cv, cw⟩ := comp_le_norm3 u v w f2 z2
  obtain ⟨qu, _, su⟩ := scalesTo_div u _ fu f2 z2 sm cu
  obtain ⟨qv, _, sv⟩ := scalesTo_div v _ fv f2 z2 sm cv
  obtain ⟨qw, _, sw⟩ := scalesTo_div w _ fw f2 z2 sm cw
  exact ⟨z1, z2, ⟨qu, qv, qw⟩, twice_close _ _ _ hM hn bu su, twice_close _ _ _ hM hn bv sv,
    twice_close _ _ _ hM hn bw sw⟩

end Double

/-- C17, as stated, fails: for the magnetic field (1, 0, 1) unitVector succeeds with
ux = uz = 0.7071067811865475; a Magnetic_Field built from that output has computed
magnitude 0.9999999999999999, and unitVector on it succeeds with
ux = uz = 0.7071067811865476, one unit in the last place above the first output. -/
theorem unitVector_twice_fails :
    (⟨0⟩ : Magnetic_Field).unitVector (Magnetic_Field.ctor3 (Double.lit 1 1)
        (Double.zero false) (Double.lit 1 1) Store.empty).2
      = (true, ⟨false, 1022, 1865452045155276⟩, Double.zero false,
        ⟨false, 1022, 1865452045155276⟩) ∧
    (⟨0⟩ : Magnetic_Field).unitVector (Magnetic_Field.ctor3 ⟨false, 1022, 1865452045155276⟩
        (Double.zero false) ⟨false, 1022, 1865452045155276⟩ Store.empty).2
      = (true, ⟨false, 1022, 1865452045155277⟩, Double.zero false,
        ⟨false, 1022, 1865452045155277⟩) ∧
    Double.eq (⟨false, 1022, 1865452045155277⟩ : Double) ⟨false, 1022, 1865452045155276⟩
      = false := by
  refine ⟨by decide!, by decide!, by decide!⟩

/-- C17, amended: for every Magnetic_Field v with finite components, none larger than
2^500 in absolute value and at least one not smaller than 2^-500, unitVector succeeds,
and building a Magnetic_Field from its output (ux, uy, uz) and calling unitVector on it
succeeds and returns a triple of finite doubles, each within 2^-47 of the corresponding
component of (ux, uy, uz). -/
theorem unitVector_twice (s t : Store) (b : Magnetic_Field)
    (hf : (b.getX s).isFinite = true ∧ (b.getY s).isFinite = true ∧
      (b.getZ s).isFinite = true)
    (hu : |(b.getX s).toRat| ≤ 2 ^ 500 ∧ |(b.getY s).toRat| ≤ 2 ^ 500 ∧
      |(b.getZ s).toRat| ≤ 2 ^ 500)
    (hl : 1 / 2 ^ 500 ≤ |(b.getX s).toRat| ∨ 1 / 2 ^ 500 ≤ |(b.getY s).toRat| ∨
      1 / 2 ^ 500 ≤ |(b.getZ s).toRat|) :
    (b.unitVector s).1 = true ∧
    ((Magnetic_Field.ctor3 (b.unitVector s).2.1 (b.unitVector s).2.2.1
        (b.unitVector s).2.2.2 t).1.unitVector
      (Magnetic_Field.ctor3 (b.unitVector s).2.1 (b.unitVector s).2.2.1
        (b.unitVector s).2.2.2 t).2).1 = true ∧
    Double.within ((Magnetic_Field.ctor3 (b.unitVector s).2.1 (b.unitVector s).2.2.1
        (b.unitVector s).2.2.2 t).1.unitVector
      (Magnetic_Field.ctor3 (b.unitVector s).2.1 (b.unitVector s).2.2.1
        (b.unitVector s).2.2.2 t).2).2.1 (b.unitVector s).2.1.toRat (1 / 2 ^ 47) ∧
    Double.within ((Magnetic_Field.ctor3 (b.unitVector s).2.1 (b.unitVector s).2.2.1
        (b.unitVector s).2.2.2 t).1.unitVector
      (Magnetic_Field.ctor3 (b.unitVector s).2.1 (b.unitVector s).2.2.1
        (b.unitVector s).2.2.2 t).2).2.2.1 (b.unitVector s).2.2.1.toRat (1 / 2 ^ 47) ∧
    Double.within ((Magnetic_Field.ctor3 (b.unitVector s).2.1 (b.unitVector s).2.2.1
        (b.unitVector s).2.2.2 t).1.unitVector
      (Magnetic_Field.ctor3 (b.unitVector s).2.1 (b.unitVector s).2.2.1
        (b.unitVector s).2.2.2 t).2).2.2.2 (b.unitVector s).2.2.2.toRat (1 / 2 ^ 47) := by
  have hg := (Magnetic_Field.unitVector_eq s b).1
  rw [Magnetic_Field.calculateMagnitude_eq_B] at hg
  generalize b.unitVector s = r at hg ⊢
  obtain ⟨z1, z2, ⟨qu, qv, qw⟩, cu, cv, cw⟩ :=
    Double.unit_twice _ _ _ hf.1 hf.2.1 hf.2.2 hu.1 hu.2.1 hu.2.2 hl _ _ _ rfl rfl rfl
  rw [z1] at hg
  simp only [Bool.false_eq_true, if_false] at hg
  rw [hg, Magnetic_Field.unitVector_ctor3, z2]
  simp only [Bool.false_eq_true, if_false]
  exact ⟨trivial, trivial, ⟨qu, cu⟩, ⟨qv, cv⟩, ⟨qw, cw⟩⟩

/-- C17, amended, at B_components = (0.3, -1.2, 2.4) of main, where the second
normalisation returns the first output unchanged. -/
theorem unitVector_twice_witness :
    ((⟨4⟩ : Magnetic_Field).getX mainStore).isFinite = true ∧
    |((⟨4⟩ : Magnetic_Field).getX mainStore).toRat| ≤ 2 ^ 500 ∧
    1 / 2 ^ 500 ≤ |((⟨4⟩ : Magnetic_Field).getX mainStore).toRat| ∧
    ((Magnetic_Field.ctor3 ((⟨4⟩ : Magnetic_Field).unitVector mainStore).2.1
        ((⟨4⟩ : Magnetic_Field).unitVector mainStore).2.2.1
        ((⟨4⟩ : Magnetic_Field).unitVector mainStore).2.2.2 mainStore).1.unitVector
      (Magnetic_Field.ctor3 ((⟨4⟩ : Magnetic_Field).unitVector mainStore).2.1
        ((⟨4⟩ : Magnetic_Field).unitVector mainStore).2.2.1
        ((⟨4⟩ : Magnetic_Field).unitVector mainStore).2.2.2 mainStore).2).1 = true :=
  ⟨by decide!, by decide!, by decide!,
    (unitVector_twice mainStore mainStore ⟨4⟩ ⟨by decide!, by decide!, by decide!⟩
      ⟨by decide!, by decide!, by decide!⟩ (Or.inl (by decide!))).2.1⟩

/-! ## The guard of the division -/

/-- C9, as stated, fails: the magnetic field (2^-538, 0, 0) has the non-zero magnitude
2^-538, but the square of its component underflows, the computed magnitude is exactly 0
and unitVector returns false with outputs 0.0: the division branch is not taken. -/
theorem unitVector_guard_fails :
    ((⟨0⟩ : Magnetic_Field).getX (Magnetic_Field.ctor3 ⟨false, 485, 0⟩
      (Double.zero false) (Double.zero false) Store.empty).2).toRat = 1 / 2 ^ 538 ∧
    (⟨0⟩ : Magnetic_Field).calculateMagnitude (Magnetic_Field.ctor3 ⟨false, 485, 0⟩
      (Double.zero false) (Double.zero false) Store.empty).2 = Double.zero false ∧
    (⟨0⟩ : Magnetic_Field).unitVector (Magnetic_Field.ctor3 ⟨false, 485, 0⟩
      (Double.zero false) (Double.zero false) Store.empty).2
      = (false, Double.zero false, Double.zero false, Double.zero false) := by
  refine ⟨by decide!, by decide!, by decide!⟩

/-- C9, amended: unitVector compares the computed magnitude mag with 0.0 exactly.  If mag
is a zero the call fails with outputs 0.0 and no division is evaluated; in every other
case the call succeeds with the three quotients by mag, so the divisor of an evaluated
division is never zero.  Every vector with a component that is not finite or has
absolute value at least 2^-537 takes the division branch; a finite non-zero computed
magnitude is at least 2^-537 and the three quotients by it are finite.  No tolerance is
involved: the vector (2^-537, 0, 0), whose computed magnitude 2^-537 is the smallest a
non-zero computed magnitude can be, takes the division branch and gets (1, 0, 0). -/
theorem unitVector_guard (s : Store) (b : Magnetic_Field) :
    b.unitVector s =
      (if (b.calculateMagnitude s).isZero = true then
        (false, Double.zero false, Double.zero false, Double.zero false)
      else
        (true, Double.div (b.getX s) (b.calculateMagnitude s),
          Double.div (b.getY s) (b.calculateMagnitude s),
          Double.div (b.getZ s) (b.calculateMagnitude s))) ∧
    (b.unitVector s).1 = !(b.calculateMagnitude s).isZero ∧
    (¬ ((b.getX s).isTiny ∧ (b.getY s).isTiny ∧ (b.getZ s).isTiny) →
      (b.calculateMagnitude s).isZero = false ∧ (b.unitVector s).1 = true) ∧
    ((b.calculateMagnitude s).isFinite = true → (b.calculateMagnitude s).isZero = false →
      1 / 2 ^ 537 ≤ (b.calculateMagnitude s).toRat ∧
      (b.unitVector s).2.1.isFinite = true ∧ (b.unitVector s).2.2.1.isFinite = true ∧
      (b.unitVector s).2.2.2.isFinite = true) ∧
    (⟨0⟩ : Magnetic_Field).calculateMagnitude (Magnetic_Field.ctor3 ⟨false, 486, 0⟩
      (Double.zero false) (Double.zero false) Store.empty).2 = ⟨false, 486, 0⟩ ∧
    (⟨0⟩ : Magnetic_Field).unitVector (Magnetic_Field.ctor3 ⟨false, 486, 0⟩
      (Double.zero false) (Double.zero false) Store.empty).2
      = (true, ⟨false, 1023, 0⟩, Double.zero false, Double.zero false) := by
  obtain ⟨h1, h2⟩ := Magnetic_Field.unitVector_eq s b
  refine ⟨h1, h2, ?_, ?_, by decide!, by decide!⟩
  · intro hn
    have hz : (b.calculateMagnitude s).isZero = false := by
      by_contra hc
      simp only [Bool.not_eq_false] at hc
      rw [Magnetic_Field.calculateMagnitude_eq_B] at hc
      exact hn (Double.isTiny_of_norm3_isZero _ _ _ hc)
    rw [h2, hz]
    exact ⟨rfl, rfl⟩
  · intro hf hz
    rw [hz] at h1
    simp only [Bool.false_eq_true, if_false] at h1
    rw [h1]
    rw [Magnetic_Field.calculateMagnitude_eq_B] at hf hz ⊢
    obtain ⟨fs, sm, g2, _⟩ := Double.norm3_facts _ _ _ hf hz
    obtain ⟨⟨fx, fy, fz⟩, _⟩ := Double.sumsq_parts _ _ _ fs
    obtain ⟨bx, by1, bz⟩ := Double.comp_le_norm3 _ _ _ hf hz
    exact ⟨g2, (Double.scalesTo_div _ _ fx hf hz sm bx).1,
      (Double.scalesTo_div _ _ fy hf hz sm by1).1,
      (Double.scalesTo_div _ _ fz hf hz sm bz).1⟩

/-- C9, amended, at B_set = (5, 0, 0) of main: its first component is not tiny, and the
call takes the division branch. -/
theorem unitVector_guard_witness :
    ¬ (((⟨5⟩ : Magnetic_Field).getX mainStore).isTiny ∧
      ((⟨5⟩ : Magnetic_Field).getY mainStore).isTiny ∧
      ((⟨5⟩ : Magnetic_Field).getZ mainStore).isTiny) ∧
    ((⟨5⟩ : Magnetic_Field).unitVector mainStore).1 = true :=
  ⟨by decide!, ((unitVector_guard mainStore ⟨5⟩).2.2.1 (by decide!)).2⟩
